import Mathlib

/-!
# Zettelkasten ingestion pipeline: job queue, recovery and worker

A shallow embedding of `backend/internal/queue/job_queue.go` together with the
parts of `database/redis.go`, `services/event.go`, `services/document.go` and
`api/document_handler.go` it relies on.

Conventions of the embedding

* A Go `string` is a Lean `String`; `len` and slicing count characters, which
  agrees with Go's byte counts on every prefix and suffix the code compares
  against (`"job:"`, `":errors"` are ASCII).
* A Go `error` is its message (`Error := String`); a result `(v, err)` is an
  `Except Error`, a bare `error` is an `Option Error`.
* The Redis server is a key space (`Store`) holding a string value or a list
  under each key.  A `RedisClient` is a store together with a script of
  connection faults: each command consumes one entry and is lost when the entry
  is `true`.  With the empty script every command reaches the server, and then
  fails only for the reasons Redis itself gives (missing key, wrong type).
* `encoding/json` is a parameter (`JSONCodec`) specified by its round-trip laws.
* `time.Now()` is the argument `now` of each operation; log lines have no effect.
-/

namespace Zettel

/-! ## Go strings -/

/-- Go error values, identified with their `Error()` text. -/
abbrev Error := String

deriving instance DecidableEq for Except

/-- Instants of `time.Time`, as Unix nanoseconds. -/
abbrev Time := Nat

/-- A byte of file content. -/
abbrev Byte := Fin 256

/-- The slice `s[n:]`. -/
def sliceFrom (s : String) (n : Nat) : String := ⟨s.data.drop n⟩

/-- Whether `s` starts with `p` (`strings.HasPrefix`). -/
def hasPrefix (p s : String) : Bool := p.data.isPrefixOf s.data

/-- The test `len(key) > 6 && key[len(key)-7:] == ":errors"` of `resumeUnprocessedJobs`. -/
def isErrorsKey (key : String) : Bool :=
  decide (key.length > 6) && (sliceFrom key (key.length - 7) == ":errors")

/-! ## The Redis server and client (`database/redis.go`) -/

/-- What a Redis key holds: a string with its time to live in seconds, or a list
(index 0 is the left end, where `LPUSH` inserts). -/
inductive RValue where
  | str (value : String) (ttl : Nat)
  | list (items : List String)
  deriving DecidableEq, Repr

/-- The key space of the server. A key is bound by its first entry. -/
abbrev Store := List (String × RValue)

namespace Store

/-- The value bound to `key`, if any. -/
def find : Store → String → Option RValue
  | [], _ => none
  | (k, v) :: rest, key => if k = key then some v else find rest key

/-- The key space without `key`. -/
def erase (s : Store) (key : String) : Store :=
  s.filter (fun e => decide (e.1 ≠ key))

/-- The key space with `key` bound to `v`. -/
def put (s : Store) (key : String) (v : RValue) : Store :=
  (key, v) :: s.erase key

/-- The list held under `key`; an absent key is the empty list. -/
def listAt (s : Store) (key : String) : List String :=
  match s.find key with
  | some (.list xs) => xs
  | _ => []

end Store

/-- Matching of a `KEYS` pattern. Only the shapes the program uses are
interpreted: a pattern ending in `*` matches the keys that start with the rest
of the pattern, any other pattern matches itself. -/
def keyMatches (pattern key : String) : Bool :=
  match pattern.data.reverse with
  | '*' :: revPrefix => revPrefix.reverse.isPrefixOf key.data
  | _ => pattern == key

/-- Error `redis.Nil`: the key does not exist (or a blocking pop timed out). -/
def redisNil : Error := "redis: nil"

/-- Error returned for a command applied to a key of the wrong kind. -/
def wrongType : Error := "WRONGTYPE Operation against a key holding the wrong kind of value"

/-- Error of a command that did not reach the server. -/
def connectionLost : Error := "redis: connection lost"

/-- A client: the server's key space and the script of connection faults. -/
structure RedisClient where
  store : Store
  faults : List Bool
  deriving DecidableEq, Repr

namespace RedisClient

/-- A client over `s` whose commands all reach the server. -/
def reliable (s : Store) : RedisClient := ⟨s, []⟩

/-- Consume the script entry of the next command: whether it is lost, and the
remaining script. -/
def nextFault (r : RedisClient) : Bool × List Bool :=
  match r.faults with
  | [] => (false, [])
  | f :: fs => (f, fs)

/-- Command `SET key value EX expiration`: binds the key to a string, whatever it held. -/
def Set (r : RedisClient) (key value : String) (expiration : Nat) : Option Error × RedisClient :=
  let (lost, fs) := r.nextFault
  if lost then (some connectionLost, ⟨r.store, fs⟩)
  else (none, ⟨r.store.put key (.str value expiration), fs⟩)

/-- Command `GET key`. -/
def Get (r : RedisClient) (key : String) : Except Error String × RedisClient :=
  let (lost, fs) := r.nextFault
  if lost then (.error connectionLost, ⟨r.store, fs⟩)
  else match r.store.find key with
    | none => (.error redisNil, ⟨r.store, fs⟩)
    | some (.str v _) => (.ok v, ⟨r.store, fs⟩)
    | some (.list _) => (.error wrongType, ⟨r.store, fs⟩)

/-- Command `LPUSH key value` (the program always pushes one value). -/
def LPush (r : RedisClient) (key value : String) : Option Error × RedisClient :=
  let (lost, fs) := r.nextFault
  if lost then (some connectionLost, ⟨r.store, fs⟩)
  else match r.store.find key with
    | none => (none, ⟨r.store.put key (.list [value]), fs⟩)
    | some (.list xs) => (none, ⟨r.store.put key (.list (value :: xs)), fs⟩)
    | some (.str _ _) => (some wrongType, ⟨r.store, fs⟩)

/-- Command `BRPOP key timeout` on one key: removes the right-most element and
returns `[key, element]`; with nothing to pop the wait times out with
`redis.Nil`.  A list that becomes empty is removed from the key space. -/
def BRPop (r : RedisClient) (timeout : Nat) (key : String) :
    Except Error (List String) × RedisClient :=
  let _ := timeout
  let (lost, fs) := r.nextFault
  if lost then (.error connectionLost, ⟨r.store, fs⟩)
  else match r.store.find key with
    | none => (.error redisNil, ⟨r.store, fs⟩)
    | some (.str _ _) => (.error wrongType, ⟨r.store, fs⟩)
    | some (.list xs) =>
      match xs.getLast? with
      | none => (.error redisNil, ⟨r.store, fs⟩)
      | some x =>
        if xs.dropLast = [] then (.ok [key, x], ⟨r.store.erase key, fs⟩)
        else (.ok [key, x], ⟨r.store.put key (.list xs.dropLast), fs⟩)

/-- Command `KEYS pattern`: the distinct keys matching the pattern. -/
def Keys (r : RedisClient) (pattern : String) : Except Error (List String) × RedisClient :=
  let (lost, fs) := r.nextFault
  if lost then (.error connectionLost, ⟨r.store, fs⟩)
  else (.ok ((r.store.map Prod.fst).filter (keyMatches pattern)).dedup, ⟨r.store, fs⟩)

/-- Command `DEL key`. -/
def Del (r : RedisClient) (key : String) : Option Error × RedisClient :=
  let (lost, fs) := r.nextFault
  if lost then (some connectionLost, ⟨r.store, fs⟩)
  else (none, ⟨r.store.erase key, fs⟩)

end RedisClient

/-! ## Job items and their JSON forms (`queue.JobItem`, `encoding/json`) -/

/-- The queue item `queue.JobItem`. -/
structure JobItem where
  JobID : String
  UserID : String
  Filename : String
  SourceType : String
  FileData : List Byte
  CreatedAt : Time
  Status : String
  deriving DecidableEq, Repr

/-- What the code reads from a status entry decoded into `map[string]interface{}`:
`status` is the result of `m["status"].(string)`, `progress` that of
`m["progress"].(float64)` converted with `int(...)`. -/
structure StatusMap where
  status : Option String
  progress : Option Int
  deriving DecidableEq, Repr

/-- The natural number nearest to `a` among those a `float64` represents
(53-bit significand, ties to even). -/
def float64OfNat (a : Nat) : Nat :=
  if a < 2 ^ 53 then a
  else
    let e := Nat.log2 a - 52
    let q := a / 2 ^ e
    let r := a % 2 ^ e
    let h := 2 ^ (e - 1)
    if r < h then q * 2 ^ e
    else if h < r then (q + 1) * 2 ^ e
    else if q % 2 = 0 then q * 2 ^ e
    else (q + 1) * 2 ^ e

/-- The `float64` nearest to the integer `p`, as an integer. -/
def float64Round (p : Int) : Int :=
  if 0 ≤ p then (float64OfNat p.natAbs : Int) else -(float64OfNat p.natAbs : Int)

/-- The value `int(float64(p))` that a JSON number written from the `int` `p` (64
bits) is read back as through `interface{}`: `p` rounded to the nearest `float64` and
converted back. A rounded value that does not fit in an `int` (it is `2 ^ 63`, reached
from the 512 largest values of `int`) converts to the smallest `int`, which is what
the conversion gives on amd64; the language leaves that case to the implementation. -/
def float64OfInt (p : Int) : Int :=
  if -(2 ^ 63) ≤ float64Round p ∧ float64Round p < 2 ^ 63 then float64Round p else -(2 ^ 63)

/-- The functions of `encoding/json` the program uses, with the laws assumed of them.

* `marshalJob` is `json.Marshal` on a `JobItem`; it has no failing input (strings,
  bytes and a time within the supported years), so the `if err != nil` branches
  that follow it in the source are unreachable and it is a total function.
* `unmarshalJob` is `json.Unmarshal` into a `JobItem`.
* `marshalStatus status progress completedAt` is `json.Marshal` on the map built by
  `updateJobStatus` (`completed_at` present when `completedAt` is).
* `unmarshalMap` is `json.Unmarshal` into a `map[string]interface{}` followed by the
  two type assertions the code performs.

The laws are those of the Go package on values whose strings are valid UTF-8, which
every Lean `String` is, and on progress values far enough from the ends of `int`
for `int(float64(p))` to be defined. -/
structure JSONCodec where
  marshalJob : JobItem → String
  unmarshalJob : String → Except Error JobItem
  marshalStatus : String → Int → Option Time → String
  unmarshalMap : String → Except Error StatusMap
  job_roundtrip : ∀ j, unmarshalJob (marshalJob j) = .ok j
  status_roundtrip : ∀ s p t, p.natAbs ≤ 2 ^ 62 →
    unmarshalMap (marshalStatus s p t) = .ok ⟨some s, some (float64OfInt p)⟩

/-! ## Events (`websocket.Message`, `services/event.go`) -/

/-- Values carried by metadata maps. -/
inductive MVal where
  | str (s : String)
  | num (n : Int)
  | other
  deriving DecidableEq, Repr

/-- The document record `models.Document`; object IDs are kept in hex form. -/
structure Document where
  ID : String
  UserID : String
  Title : String
  SourceType : String
  ChunkCount : Nat
  UploadedAt : Time
  Metadata : List (String × MVal)
  Status : String
  deriving DecidableEq, Repr

/-- Values carried by event payloads. -/
inductive PVal where
  | str (s : String)
  | num (n : Int)
  | doc (d : Document)
  deriving DecidableEq, Repr

/-- The hub message `websocket.Message` (`MessageType` is its field `Type`). -/
structure Message where
  MessageType : String
  UserID : String
  Payload : List (String × PVal)
  deriving DecidableEq, Repr

/-- The vector `database.Vector`; embedding components are opaque numbers. -/
structure Vector where
  ID : String
  Values : List Int
  Metadata : List (String × MVal)
  deriving DecidableEq, Repr

/-- Everything the worker acts on: the Redis client, the messages handed to the
hub's `broadcast` channel (oldest first), the Mongo `documents` collection and the
vectors upserted into Pinecone (in call order). -/
structure World where
  redis : RedisClient
  broadcast : List Message
  documents : List Document
  vectors : List Vector
  deriving DecidableEq, Repr

/-- The call `Hub.SendToUser`: builds the message and puts it on the `broadcast` channel. -/
def SendToUser (w : World) (userID messageType : String) (payload : List (String × PVal)) :
    World :=
  { w with broadcast := w.broadcast ++ [⟨messageType, userID, payload⟩] }

/-- Event `EventService.DocumentCreated`. -/
def DocumentCreated (w : World) (now : Time) (userID : String) (document : Document) : World :=
  SendToUser w userID "document:created"
    [("document", .doc document), ("timestamp", .num now)]

/-- Event `EventService.JobProgressUpdate`. -/
def JobProgressUpdate (w : World) (now : Time) (userID jobID : String) (progress : Int)
    (status : String) : World :=
  SendToUser w userID "job-progress"
    [("job_id", .str jobID), ("progress", .num progress), ("status", .str status),
     ("timestamp", .num now)]

/-- Event `EventService.JobCompleted`. -/
def JobCompleted (w : World) (now : Time) (userID jobID : String) : World :=
  SendToUser w userID "job-completed" [("job_id", .str jobID), ("timestamp", .num now)]

/-- Event `EventService.JobFailed`. -/
def JobFailed (w : World) (now : Time) (userID jobID error : String) : World :=
  SendToUser w userID "job-failed"
    [("job_id", .str jobID), ("error", .str error), ("timestamp", .num now)]

/-! ## The ingestion pipeline (`services/document.go`) -/

/-- The parser chosen by the `switch sourceType` of `ProcessFile`. -/
inductive ParserKind where
  | notion | obsidian | roam | logseq | standard
  deriving DecidableEq, Repr

/-- The `switch sourceType` of `ProcessFile`. -/
def selectParser (sourceType : String) : ParserKind :=
  if sourceType = "notion" then .notion
  else if sourceType = "obsidian" then .obsidian
  else if sourceType = "roam" then .roam
  else if sourceType = "logseq" then .logseq
  else .standard

/-- The collaborators of `DocumentService`, as deterministic functions of their
arguments: the parsers, `primitive.ObjectIDFromHex`, the Mongo collection
(`InsertOne` sees the collection and returns the new ID), the embedding
provider and the Pinecone client; `eventService` tells whether the pointer of
that name is non-nil. -/
structure DocumentService where
  Parse : ParserKind → List Byte → String → Except Error (List String × List (String × MVal))
  ObjectIDFromHex : String → Except Error String
  InsertOne : List Document → Document → Except Error String
  UpdateOne : String → Option Error
  GenerateEmbedding : String → Except Error (List Int)
  Upsert : Vector → Option Error
  eventService : Bool

/-- The helper `getTitle`. -/
def getTitle (metadata : List (String × MVal)) (filename : String) : String :=
  match metadata.lookup "title" with
  | some (.str title) => if title ≠ "" then title else filename
  | _ => filename

/-- The method `DocumentService.processChunk`: embed the chunk, then upsert its vector. -/
def processChunk (s : DocumentService) (w : World) (now : Time)
    (userID docID content : String) (index : Nat) (sourceType : String) : Option Error × World :=
  match s.GenerateEmbedding content with
  | .error err => (some err, w)
  | .ok embedding =>
    let chunkID := docID ++ "_" ++ toString index
    let vector : Vector :=
      { ID := chunkID
        Values := embedding
        Metadata :=
          [("user_id", .str userID), ("document_id", .str docID), ("content", .str content),
           ("chunk_index", .num index), ("created_at", .num now), ("source_type", .str sourceType)] }
    match s.Upsert vector with
    | some err => (some err, w)
    | none => (none, { w with vectors := w.vectors ++ [vector] })

/-- The loop `for i, chunk := range chunks` of `ProcessFile`, from index `i` on. -/
def processChunks (s : DocumentService) (now : Time) (userID docID sourceType : String) :
    List String → Nat → World → Option Error × World
  | [], _, w => (none, w)
  | chunk :: rest, i, w =>
    match processChunk s w now userID docID chunk i sourceType with
    | (some err, w) => (some err, w)
    | (none, w) => processChunks s now userID docID sourceType rest (i + 1) w

/-- The method `DocumentService.ProcessFile`; `file` is the content of the reader. -/
def ProcessFile (s : DocumentService) (w : World) (now : Time) (jobID userID : String)
    (file : List Byte) (filename sourceType : String) : Option Error × World :=
  match s.Parse (selectParser sourceType) file filename with
  | .error err => (some ("parsing failed: " ++ err), w)
  | .ok (chunks, metadata) =>
    match s.ObjectIDFromHex userID with
    | .error err => (some err, w)
    | .ok userObjectID =>
      let doc : Document :=
        { ID := ""
          UserID := userObjectID
          Title := getTitle metadata filename
          SourceType := sourceType
          ChunkCount := chunks.length
          UploadedAt := now
          Metadata := metadata
          Status := "processing_chunks" }
      match s.InsertOne w.documents doc with
      | .error err => (some err, w)
      | .ok insertedID =>
        let doc := { doc with ID := insertedID }
        let docID := insertedID
        let w := { w with documents := w.documents ++ [doc] }
        let w := if s.eventService then DocumentCreated w now userID doc else w
        match processChunks s now userID docID sourceType chunks 0 w with
        | (some err, w) => (some err, w)
        | (none, w) =>
          match s.UpdateOne insertedID with
          | some err => (some err, w)
          | none =>
            let w := { w with documents := w.documents.map (fun d =>
              if d.ID = insertedID then { d with Status := "completed" } else d) }
            let w := if s.eventService then JobCompleted w now userID jobID else w
            (none, w)

/-! ## The job queue (`queue/job_queue.go`) -/

/-- The record `models.Job` returned by the status query. -/
structure Job where
  ID : String
  UserID : String
  Status : String
  Progress : Int
  TotalChunks : Int
  ProcessedChunks : Int
  Errors : List String
  CreatedAt : Time
  CompletedAt : Option Time
  deriving DecidableEq, Repr

/-- The struct `queue.JobQueue` without its Redis client, which is part of the
`World`; `eventService` tells whether the pointer of that name is non-nil. -/
structure JobQueue where
  documentService : DocumentService
  eventService : Bool

/-- Key of a job's status entry, `fmt.Sprintf("job:%s", jobID)`. -/
def statusKey (jobID : String) : String := "job:" ++ jobID

/-- Key of a job's error log, `fmt.Sprintf("job:%s:errors", jobID)`. -/
def errorsKey (jobID : String) : String := "job:" ++ jobID ++ ":errors"

/-- Key of a job's recoverable copy, `fmt.Sprintf("persistent_job:%s", jobID)`. -/
def persistentKey (jobID : String) : String := "persistent_job:" ++ jobID

/-- The method `JobQueue.updateJobStatus`; the result of `Set` is discarded. -/
def updateJobStatus (J : JSONCodec) (r : RedisClient) (now : Time) (jobID status : String)
    (progress : Int) : RedisClient :=
  let key := statusKey jobID
  let completedAt := if status = "completed" ∨ status = "failed" then some now else none
  let data := J.marshalStatus status progress completedAt
  (r.Set key data (24 * 3600)).2

/-- The method `JobQueue.addJobError`; the result of `LPush` is discarded. -/
def addJobError (r : RedisClient) (jobID errorMsg : String) : RedisClient :=
  let key := errorsKey jobID
  (r.LPush key errorMsg).2

/-- The method `JobQueue.GetJobStatus`. -/
def GetJobStatus (J : JSONCodec) (r : RedisClient) (jobID userID : String) :
    Except Error Job × RedisClient :=
  let key := statusKey jobID
  match r.Get key with
  | (.error err, r) => (.error err, r)
  | (.ok data, r) =>
    match J.unmarshalMap data with
    | .error err => (.error err, r)
    | .ok jobData =>
      let job : Job :=
        { ID := jobID, UserID := userID, Status := "", Progress := 0, TotalChunks := 0,
          ProcessedChunks := 0, Errors := [], CreatedAt := 0, CompletedAt := none }
      let job := match jobData.status with
        | some status => { job with Status := status }
        | none => job
      let job := match jobData.progress with
        | some progress => { job with Progress := progress }
        | none => job
      (.ok job, r)

/-- The method `JobQueue.QueueFile`; `file` is the outcome of `io.ReadAll(file)`. -/
def QueueFile (J : JSONCodec) (r : RedisClient) (now : Time) (jobID userID : String)
    (file : Except Error (List Byte)) (filename sourceType : String) :
    Option Error × RedisClient :=
  let job : JobItem :=
    { JobID := jobID, UserID := userID, Filename := filename, SourceType := sourceType,
      FileData := [], CreatedAt := now, Status := "pending" }
  match file with
  | .error err => (some err, r)
  | .ok data =>
    let job := { job with FileData := data }
    let persistentJobData := J.marshalJob job
    -- a failed `Set` is only logged
    let r := (r.Set (persistentKey jobID) persistentJobData (7 * 24 * 3600)).2
    let jobData := J.marshalJob job
    r.LPush "job_queue" jobData

/-- The body of the loop `for _, key := range keys` of `resumeUnprocessedJobs`
(`resumedCount` only feeds a log line and is left out). -/
def resumeKey (J : JSONCodec) (now : Time) (r : RedisClient) (key : String) : RedisClient :=
  if isErrorsKey key then r
  else
    match r.Get key with
    | (.error _, r) => r
    | (.ok jobData, r) =>
      match J.unmarshalMap jobData with
      | .error _ => r
      | .ok jobStatus =>
        if jobStatus.status = some "processing" then
          let jobID := sliceFrom key 4
          match r.Get (persistentKey jobID) with
          | (.error _, r) =>
            let r := updateJobStatus J r now jobID "failed" 100
            addJobError r jobID "Job data lost during server restart"
          | (.ok persistentJobData, r) =>
            match J.unmarshalJob persistentJobData with
            | .error _ => r
            | .ok job =>
              let job := { job with Status := "pending" }
              let r := updateJobStatus J r now jobID "pending" 0
              let jobData := J.marshalJob job
              (r.LPush "job_queue" jobData).2
        else r

/-- The method `JobQueue.resumeUnprocessedJobs`. -/
def resumeUnprocessedJobs (J : JSONCodec) (r : RedisClient) (now : Time) : RedisClient :=
  match r.Keys "job:*" with
  | (.error _, r) => r
  | (.ok keys, r) => keys.foldl (resumeKey J now) r

/-- The method `JobQueue.processJobWithContext`; `cancelled` is `ctx.Err() != nil`. -/
def processJobWithContext (J : JSONCodec) (q : JobQueue) (w : World) (now : Time)
    (cancelled : Bool) (job : JobItem) : World :=
  let w := { w with redis := updateJobStatus J w.redis now job.JobID "processing" 0 }
  let w := if q.eventService then JobProgressUpdate w now job.UserID job.JobID 0 "processing"
    else w
  let job := { job with Status := "processing" }
  if cancelled then
    let jobData := J.marshalJob job
    { w with redis := (w.redis.LPush "job_queue" jobData).2 }
  else
    let (err, w) := ProcessFile q.documentService w now job.JobID job.UserID job.FileData
      job.Filename job.SourceType
    let w := match err with
      | some err =>
        let w := { w with redis := updateJobStatus J w.redis now job.JobID "failed" 100 }
        let w := { w with redis := addJobError w.redis job.JobID err }
        if q.eventService then JobFailed w now job.UserID job.JobID err else w
      | none =>
        let w := { w with redis := updateJobStatus J w.redis now job.JobID "completed" 100 }
        if q.eventService then JobCompleted w now job.UserID job.JobID else w
    { w with redis := (w.redis.Del (persistentKey job.JobID)).2 }

/-- One pass through the `default:` branch of the loop of `StartWithContext`:
the world afterwards and whether the loop returns. `cancelled` is the state of
the context observed during the pass. -/
def workerIteration (J : JSONCodec) (q : JobQueue) (w : World) (now : Time) (cancelled : Bool) :
    World × Bool :=
  match w.redis.BRPop 2 "job_queue" with
  | (.error _, r) => ({ w with redis := r }, cancelled)
  | (.ok jobData, r) =>
    let w := { w with redis := r }
    if jobData.length < 2 then (w, false)
    else
      match J.unmarshalJob (jobData.getD 1 "") with
      | .error _ => (w, false)
      | .ok job => (processJobWithContext J q w now cancelled job, false)

/-- The loop of `StartWithContext`. `ctx` lists, for each pass that finds the
context not yet done at the `select`, what the pass observes of it later; the
loop returns when the list is used up. -/
def workerLoop (J : JSONCodec) (q : JobQueue) (now : Time) : List Bool → World → World
  | [], w => w
  | cancelled :: ctx, w =>
    match workerIteration J q w now cancelled with
    | (w, true) => w
    | (w, false) => workerLoop J q now ctx w

/-- The method `JobQueue.StartWithContext`. -/
def StartWithContext (J : JSONCodec) (q : JobQueue) (w : World) (now : Time) (ctx : List Bool) :
    World :=
  let w := { w with redis := resumeUnprocessedJobs J w.redis now }
  workerLoop J q now ctx w

/-! ## The upload handler (`api/document_handler.go`) -/

/-- One entry of `r.MultipartForm.File["files[]"]`: its name and what
`fileHeader.Open()` followed by reading the file yields. -/
structure FileHeader where
  Filename : String
  Open : Except Error (Except Error (List Byte))

/-- The helper `isValidSourceType`. -/
def isValidSourceType (sourceType : String) : Bool :=
  ["notion", "obsidian", "roam", "logseq", "standard"].any (fun valid => sourceType == valid)

/-- The loop `for _, fileHeader := range files` of `Upload`: every file that opens
is queued under the one job ID; the result of `QueueFile` is discarded. -/
def queueFiles (J : JSONCodec) (now : Time) (jobID userID sourceType : String) :
    List FileHeader → RedisClient → RedisClient
  | [], r => r
  | fileHeader :: rest, r =>
    match fileHeader.Open with
    | .error _ => queueFiles J now jobID userID sourceType rest r
    | .ok file =>
      queueFiles J now jobID userID sourceType rest
        (QueueFile J r now jobID userID file fileHeader.Filename sourceType).2

/-- The handler `DocumentHandler.Upload` after the form is parsed: the HTTP status
and the client afterwards. `jobID` is the fresh `uuid.New().String()` that
`ProcessUpload` gives the job. -/
def Upload (J : JSONCodec) (r : RedisClient) (now : Time) (jobID userID sourceType : String)
    (files : List FileHeader) : Nat × RedisClient :=
  if !isValidSourceType sourceType then (400, r)
  else if files.length = 0 then (400, r)
  else (202, queueFiles J now jobID userID sourceType files r)

/-! ## Observations on a store -/

/-- The work queue: the list under `job_queue`, left end first. The worker pops
at the right end, so the last element is the next one dequeued. -/
def queueOf (s : Store) : List String := s.listAt "job_queue"

/-- The decoded status entry of a job, when its key holds a string that decodes. -/
def statusEntry (J : JSONCodec) (s : Store) (jobID : String) : Option StatusMap :=
  match s.find (statusKey jobID) with
  | some (.str v _) =>
    match J.unmarshalMap v with
    | .ok m => some m
    | .error _ => none
  | _ => none

/-- The status string of a job's status entry, if the entry has one. -/
def statusOf (J : JSONCodec) (s : Store) (jobID : String) : Option String :=
  match statusEntry J s jobID with
  | some m => m.status
  | none => none

/-- The error log of a job, most recent message first. -/
def errorLog (s : Store) (jobID : String) : List String := s.listAt (errorsKey jobID)

/-- The recoverable copy of a job: the string stored under `persistent_job:<jobID>`. -/
def persistentCopy (s : Store) (jobID : String) : Option String :=
  match s.find (persistentKey jobID) with
  | some (.str v _) => some v
  | _ => none

/-- One call of `QueueFile`: the time of the call and its arguments. -/
structure Submission where
  now : Time
  jobID : String
  userID : String
  file : Except Error (List Byte)
  filename : String
  sourceType : String

/-- The job item a submission builds once its file is read. -/
def Submission.item (s : Submission) : JobItem :=
  { JobID := s.jobID, UserID := s.userID, Filename := s.filename, SourceType := s.sourceType,
    FileData := match s.file with
      | .ok data => data
      | .error _ => [],
    CreatedAt := s.now, Status := "pending" }

/-- The results of `n` successive `BRPop(2*time.Second, "job_queue")` calls, as the
worker loop issues them, and the client afterwards. -/
def popAll : Nat → RedisClient → List (Except Error (List String)) × RedisClient
  | 0, r => ([], r)
  | n + 1, r =>
    let (res, r) := r.BRPop 2 "job_queue"
    let (rest, r) := popAll n r
    (res :: rest, r)

/-! ## A reference codec

A small implementation of the four JSON functions that satisfies the laws of
`JSONCodec`. It writes the objects the Go encoder writes for these types (a
time is written as its number, bytes as the characters with their codes) and
reads back exactly those shapes. The theorems below hold for every codec that
satisfies the laws; this one serves to run the model on concrete stores. -/

namespace RefJSON

/-- Body of a JSON string: quote and backslash are escaped. -/
def escape : List Char → List Char
  | [] => []
  | c :: cs => if c = '"' ∨ c = '\\' then '\\' :: c :: escape cs else c :: escape cs

/-- Read an escaped body up to its closing quote: the text and what follows the quote. -/
def unescape : List Char → Option (List Char × List Char)
  | [] => none
  | '\\' :: d :: ds => (unescape ds).map (fun p => (d :: p.1, p.2))
  | c :: cs =>
    if c = '"' then some ([], cs)
    else if c = '\\' then none
    else (unescape cs).map (fun p => (c :: p.1, p.2))

theorem unescape_escape (s rest : List Char) :
    unescape (escape s ++ '"' :: rest) = some (s, rest) := by
  induction s with
  | nil => simp [escape, unescape]
  | cons c cs ih =>
    by_cases h1 : c = '"'
    · subst h1; simp [escape, unescape, ih]
    · by_cases h2 : c = '\\'
      · subst h2; simp [escape, unescape, ih]
      · simp only [escape, h1, h2, or_self, if_false, List.cons_append]
        rw [unescape]
        · simp [h1, h2, ih]
        · intros; simp_all

/-- Drop the literal `lit` from the front of the input. -/
def expect (lit input : List Char) : Option (List Char) :=
  if lit.isPrefixOf input then some (input.drop lit.length) else none

theorem expect_append (lit rest : List Char) : expect lit (lit ++ rest) = some rest := by
  simp [expect]

/-- The character of a decimal digit. -/
def digitChar (d : Nat) : Char := Char.ofNat (48 + d)

/-- The value of a decimal digit character. -/
def digitVal (c : Char) : Option Nat :=
  if 48 ≤ c.toNat ∧ c.toNat ≤ 57 then some (c.toNat - 48) else none

theorem digitVal_digitChar (d : Nat) (h : d < 10) : digitVal (digitChar d) = some d := by
  interval_cases d <;> decide

/-- Little-endian decimal digits of `n`. -/
def digitsLE : Nat → Nat → List Nat
  | 0, _ => []
  | fuel + 1, n => if n < 10 then [n] else (n % 10) :: digitsLE fuel (n / 10)

/-- Render a natural number in decimal. -/
def renderNat (n : Nat) : List Char := ((digitsLE (n + 1) n).reverse).map digitChar

/-- Read a run of digits, accumulating its value. -/
def readNat : List Char → Nat → Nat × List Char
  | [], acc => (acc, [])
  | c :: cs, acc =>
    match digitVal c with
    | some d => readNat cs (acc * 10 + d)
    | none => (acc, c :: cs)

/-- The text does not start with a digit, so a number written before it ends there. -/
def noDigitAhead (rest : List Char) : Prop :=
  match rest with
  | [] => True
  | c :: _ => digitVal c = none

theorem readNat_digits (ds : List Nat) (hds : ∀ d ∈ ds, d < 10) (rest : List Char)
    (hrest : noDigitAhead rest) (acc : Nat) :
    readNat (ds.map digitChar ++ rest) acc = (ds.foldl (fun a d => a * 10 + d) acc, rest) := by
  induction ds generalizing acc with
  | nil =>
    cases rest with
    | nil => simp [readNat]
    | cons c cs => simp [noDigitAhead] at hrest; simp [readNat, hrest]
  | cons d ds ih =>
    have hd : d < 10 := hds d (by simp)
    simp only [List.map_cons, List.cons_append, readNat, digitVal_digitChar d hd, List.foldl_cons]
    exact ih (fun x hx => hds x (by simp [hx])) _

theorem digitsLE_lt (fuel n : Nat) : ∀ d ∈ digitsLE fuel n, d < 10 := by
  induction fuel generalizing n with
  | zero => simp [digitsLE]
  | succ f ih =>
    intro d hd
    simp only [digitsLE] at hd
    split at hd
    · simp at hd; omega
    · simp at hd
      rcases hd with h | h
      · omega
      · exact ih _ d h

theorem digitsLE_value (fuel n : Nat) (h : n < fuel) :
    (digitsLE fuel n).foldr (fun d a => a * 10 + d) 0 = n := by
  induction fuel generalizing n with
  | zero => omega
  | succ f ih =>
    simp only [digitsLE]
    split
    · simp
    · simp only [List.foldr_cons]
      rw [ih (n / 10) (by omega)]
      omega

theorem readNat_renderNat (n : Nat) (rest : List Char) (hrest : noDigitAhead rest) :
    readNat (renderNat n ++ rest) 0 = (n, rest) := by
  unfold renderNat
  rw [readNat_digits _ (by intro d hd; exact digitsLE_lt _ _ d (by simpa using hd)) rest hrest]
  rw [List.foldl_reverse]
  simp only [digitsLE_value (n + 1) n (by omega)]

/-- Render an integer in decimal. -/
def renderInt (p : Int) : List Char :=
  if p < 0 then '-' :: renderNat p.natAbs else renderNat p.natAbs

/-- Read an integer in decimal. -/
def readInt : List Char → Int × List Char
  | '-' :: cs => (-((readNat cs 0).1 : Int), (readNat cs 0).2)
  | cs => (((readNat cs 0).1 : Int), (readNat cs 0).2)

theorem digitsLE_ne_nil (fuel n : Nat) : digitsLE (fuel + 1) n ≠ [] := by
  simp only [digitsLE]; split <;> simp

theorem renderNat_ne_nil (n : Nat) : ∃ c cs, renderNat n = c :: cs ∧ digitVal c ≠ none := by
  unfold renderNat
  have hne := digitsLE_ne_nil n n
  have hlt := digitsLE_lt (n + 1) n
  cases h : (digitsLE (n + 1) n).reverse with
  | nil => simp at h; exact absurd h hne
  | cons d ds =>
    refine ⟨digitChar d, ds.map digitChar, by simp, ?_⟩
    have hd : d < 10 := hlt d (by
      have : d ∈ (digitsLE (n + 1) n).reverse := by rw [h]; simp
      simpa using this)
    rw [digitVal_digitChar d hd]; simp

theorem readInt_renderInt (p : Int) (rest : List Char) (hrest : noDigitAhead rest) :
    readInt (renderInt p ++ rest) = (p, rest) := by
  unfold renderInt
  split
  · rename_i hneg
    simp only [List.cons_append, readInt, readNat_renderNat _ _ hrest]
    rw [Int.ofNat_natAbs_of_nonpos (le_of_lt hneg), neg_neg]
  · obtain ⟨c, cs, hc, hd⟩ := renderNat_ne_nil p.natAbs
    have hne : c ≠ '-' := by
      intro h; subst h; exact hd (by decide)
    have : readInt (renderNat p.natAbs ++ rest)
        = (((readNat (renderNat p.natAbs ++ rest) 0).1 : Int),
            (readNat (renderNat p.natAbs ++ rest) 0).2) := by
      rw [hc]; simp only [List.cons_append]
      rw [readInt]
      intro cs2 h; simp at h; exact hne h.1
    rename_i hneg
    rw [this, readNat_renderNat _ _ hrest, Int.natAbs_of_nonneg (not_lt.mp hneg)]

theorem char_small (n : Nat) (h : n < 256) : (Char.ofNat n).toNat = n := by
  have hvalid : n.isValidChar := Or.inl (by omega)
  simp [Char.ofNat, hvalid, Char.toNat, Char.ofNatAux, UInt32.toNat]

/-- Bytes as the characters with their codes. -/
def bytesToChars (bs : List Byte) : List Char := bs.map (fun b => Char.ofNat b.val)

/-- The inverse of `bytesToChars`. -/
def charsToBytes (cs : List Char) : List Byte := cs.map (fun c => Fin.ofNat c.toNat)

theorem charsToBytes_bytesToChars (bs : List Byte) : charsToBytes (bytesToChars bs) = bs := by
  induction bs with
  | nil => rfl
  | cons b bs ih =>
    simp only [bytesToChars, charsToBytes, List.map_cons, List.map_map] at ih ⊢
    rw [char_small b.val b.isLt, ih]
    congr 1
    apply Fin.ext
    simp [Fin.ofNat, Nat.mod_eq_of_lt b.isLt]

/-- A string field: the literal `lit` (which ends with the opening quote), the
escaped text and the closing quote, followed by `rest`. -/
def renderField (lit : String) (text rest : List Char) : List Char :=
  lit.data ++ (escape text ++ '"' :: rest)

/-- Read a string field written by `renderField`: the text and what follows it. -/
def parseField (lit : String) (input : List Char) : Option (List Char × List Char) :=
  (expect lit.data input).bind unescape

theorem parseField_renderField (lit : String) (text rest : List Char) :
    parseField lit (renderField lit text rest) = some (text, rest) := by
  simp [parseField, renderField, expect_append, unescape_escape]

/-- The JSON object of a job item. -/
def renderJob (j : JobItem) : List Char :=
  renderField "\x7b\"job_id\":\"" j.JobID.data <|
  renderField ",\"user_id\":\"" j.UserID.data <|
  renderField ",\"filename\":\"" j.Filename.data <|
  renderField ",\"source_type\":\"" j.SourceType.data <|
  renderField ",\"file_data\":\"" (bytesToChars j.FileData) <|
  ",\"created_at\":".data ++ (renderNat j.CreatedAt ++
  renderField ",\"status\":\"" j.Status.data "\x7d".data)

/-- Read the JSON object of a job item. -/
def parseJob (input : List Char) : Option JobItem :=
  (parseField "\x7b\"job_id\":\"" input).bind fun (jobID, r) =>
  (parseField ",\"user_id\":\"" r).bind fun (userID, r) =>
  (parseField ",\"filename\":\"" r).bind fun (filename, r) =>
  (parseField ",\"source_type\":\"" r).bind fun (sourceType, r) =>
  (parseField ",\"file_data\":\"" r).bind fun (fileData, r) =>
  (expect ",\"created_at\":".data r).bind fun r =>
  (parseField ",\"status\":\"" (readNat r 0).2).bind fun (status, r2) =>
  if r2 = "\x7d".data then
    some ⟨⟨jobID⟩, ⟨userID⟩, ⟨filename⟩, ⟨sourceType⟩, charsToBytes fileData, (readNat r 0).1,
      ⟨status⟩⟩
  else none

theorem noDigitAhead_renderField (text rest : List Char) :
    noDigitAhead (renderField ",\"status\":\"" text rest) := by
  simp only [renderField, noDigitAhead, String.data, List.cons_append]
  decide

theorem parseJob_renderJob (j : JobItem) : parseJob (renderJob j) = some j := by
  simp only [parseJob, renderJob, parseField_renderField, expect_append, Option.some_bind,
    readNat_renderNat _ _ (noDigitAhead_renderField _ _), charsToBytes_bytesToChars,
    if_true]

/-- The JSON object of a status entry, keys in the encoder's sorted order. -/
def renderStatus (status : String) (progress : Int) (completedAt : Option Time) : List Char :=
  let tail := "\"progress\":".data ++ (renderInt progress ++
    renderField ",\"status\":\"" status.data "\x7d".data)
  match completedAt with
  | some t => "\x7b".data ++ ("\"completed_at\":".data ++ (renderNat t ++ (",".data ++ tail)))
  | none => "\x7b".data ++ tail

/-- Skip the `completed_at` member when the object starts with one. -/
def skipCompletedAt (r : List Char) : Option (List Char) :=
  match expect "\"completed_at\":".data r with
  | some r1 => expect ",".data (readNat r1 0).2
  | none => some r

/-- Read the JSON object of a status entry: its status and progress. -/
def parseStatus (input : List Char) : Option (String × Int) :=
  (expect "\x7b".data input).bind fun r =>
  (skipCompletedAt r).bind fun r =>
  (expect "\"progress\":".data r).bind fun r =>
  (parseField ",\"status\":\"" (readInt r).2).bind fun (status, r2) =>
  if r2 = "\x7d".data then some (⟨status⟩, (readInt r).1) else none

theorem parseStatus_renderStatus (s : String) (p : Int) (t : Option Time) :
    parseStatus (renderStatus s p t) = some (s, p) := by
  have hnd2 : ∀ rest, noDigitAhead (",".data ++ rest) := by
    intro rest; simp only [noDigitAhead, String.data, List.cons_append]; decide
  have hno : ∀ rest, expect "\"completed_at\":".data ("\"progress\":".data ++ rest) = none := by
    intro rest; simp [expect]
  cases t with
  | none =>
    simp only [parseStatus, renderStatus, skipCompletedAt, expect_append, hno,
      parseField_renderField, readInt_renderInt _ _ (noDigitAhead_renderField _ _),
      Option.some_bind, if_true]
  | some t =>
    simp only [parseStatus, renderStatus, skipCompletedAt, expect_append,
      parseField_renderField, readNat_renderNat _ _ (hnd2 _),
      readInt_renderInt _ _ (noDigitAhead_renderField _ _), Option.some_bind, if_true]

/-- The reference codec. -/
def codec : JSONCodec where
  marshalJob j := ⟨renderJob j⟩
  unmarshalJob s :=
    match parseJob s.data with
    | some j => .ok j
    | none => .error "json: cannot unmarshal into JobItem"
  marshalStatus s p t := ⟨renderStatus s p t⟩
  unmarshalMap s :=
    match parseStatus s.data with
    | some (status, progress) => .ok ⟨some status, some (float64OfInt progress)⟩
    | none => .error "json: cannot unmarshal into map"
  job_roundtrip j := by simp [parseJob_renderJob]
  status_roundtrip s p t _ := by simp [parseStatus_renderStatus]

end RefJSON

/-! ## Lemmas on the store -/

namespace Store

theorem find_erase (s : Store) (k key : String) :
    (s.erase k).find key = if k = key then none else s.find key := by
  induction s with
  | nil => simp [erase, find]
  | cons e rest ih =>
    obtain ⟨k1, v⟩ := e
    simp only [erase, List.filter_cons] at ih ⊢
    by_cases h1 : k1 = k
    · subst h1
      simp only [ne_eq, not_true_eq_false, decide_False, Bool.false_eq_true, if_false, find]
      rw [ih]
      by_cases h2 : k1 = key <;> simp [h2]
    · simp only [ne_eq, h1, not_false_eq_true, decide_True, if_true, find]
      rw [ih]
      by_cases h2 : k1 = key
      · subst h2; simp [Ne.symm h1]
      · simp [h2]

theorem find_put (s : Store) (k key : String) (v : RValue) :
    (s.put k v).find key = if k = key then some v else s.find key := by
  simp only [put, find, find_erase]
  by_cases h : k = key <;> simp [h]

end Store

/-! ## Lemmas on keys -/

theorem data_append_literal (a b : String) : (a ++ b).data = a.data ++ b.data := by
  cases a; cases b; rfl

theorem statusKey_injective {a b : String} (h : statusKey a = statusKey b) : a = b := by
  have h1 := congrArg String.data h
  simp only [statusKey, data_append_literal, List.append_cancel_left_eq] at h1
  exact String.ext h1

theorem persistentKey_injective {a b : String} (h : persistentKey a = persistentKey b) :
    a = b := by
  have h1 := congrArg String.data h
  simp only [persistentKey, data_append_literal, List.append_cancel_left_eq] at h1
  exact String.ext h1

theorem persistentKey_ne_statusKey (a b : String) : persistentKey a ≠ statusKey b := by
  intro h
  have h1 := congrArg String.data h
  simp [persistentKey, statusKey, data_append_literal] at h1

theorem persistentKey_ne_errorsKey (a b : String) : persistentKey a ≠ errorsKey b := by
  intro h
  have h1 := congrArg String.data h
  simp [persistentKey, errorsKey, data_append_literal] at h1

theorem persistentKey_ne_queue (a : String) : persistentKey a ≠ "job_queue" := by
  intro h
  have h1 := congrArg String.data h
  simp [persistentKey, data_append_literal] at h1

theorem statusKey_ne_queue (a : String) : statusKey a ≠ "job_queue" := by
  intro h
  have h1 := congrArg String.data h
  simp [statusKey, data_append_literal] at h1

theorem errorsKey_ne_queue (a : String) : errorsKey a ≠ "job_queue" := by
  intro h
  have h1 := congrArg String.data h
  simp [errorsKey, data_append_literal] at h1

theorem sliceFrom_statusKey (a : String) : sliceFrom (statusKey a) 4 = a := by
  simp [sliceFrom, statusKey, data_append_literal]

theorem keyMatches_job (key : String) :
    keyMatches "job:*" key = true ↔ key = statusKey (sliceFrom key 4) := by
  have h0 : keyMatches "job:*" key = "job:".data.isPrefixOf key.data := rfl
  rw [h0, List.isPrefixOf_iff_prefix]
  constructor
  · rintro ⟨t, ht⟩
    apply String.ext
    simp only [statusKey, sliceFrom, data_append_literal]
    rw [← ht]; simp
  · intro h
    refine ⟨(sliceFrom key 4).data, ?_⟩
    have h1 := congrArg String.data h
    simp only [statusKey, data_append_literal] at h1
    exact h1.symm

theorem errorsKey_eq_statusKey (a : String) : errorsKey a = statusKey (a ++ ":errors") := by
  simp [errorsKey, statusKey, String.append_assoc]

/-! ## Lemmas on the client -/

theorem listAt_put_same (s : Store) (k : String) (xs : List String) :
    (s.put k (.list xs)).listAt k = xs := by
  simp [Store.listAt, Store.find_put]

theorem listAt_put_other (s : Store) (k key : String) (v : RValue) (h : k ≠ key) :
    (s.put k v).listAt key = s.listAt key := by
  simp [Store.listAt, Store.find_put, h]

theorem listAt_erase_same (s : Store) (k : String) : (s.erase k).listAt k = [] := by
  simp [Store.listAt, Store.find_erase]

theorem listAt_erase_other (s : Store) (k key : String) (h : k ≠ key) :
    (s.erase k).listAt key = s.listAt key := by
  simp [Store.listAt, Store.find_erase, h]

theorem find_of_listAt_ne_nil (s : Store) (k : String) (h : s.listAt k ≠ []) :
    s.find k = some (.list (s.listAt k)) := by
  unfold Store.listAt at h ⊢
  split <;> simp_all

/-- A `Set` leaves every other key as it was, whether or not it reaches the server. -/
theorem Set_find_other (r : RedisClient) (k v : String) (t : Nat) (key : String) (h : k ≠ key) :
    (r.Set k v t).2.store.find key = r.store.find key := by
  unfold RedisClient.Set RedisClient.nextFault
  rcases hf : r.faults with _ | ⟨f, fs⟩
  · simp [Store.find_put, h]
  · cases f <;> simp [Store.find_put, h]

/-- An `LPush` that returns no error has put the value at the left end of the list. -/
theorem LPush_success (r r1 : RedisClient) (k v : String) (h : r.LPush k v = (none, r1)) :
    r1.store.listAt k = v :: r.store.listAt k := by
  unfold RedisClient.LPush RedisClient.nextFault at h
  rcases hf : r.faults with _ | ⟨f, fs⟩ <;> rw [hf] at h
  · simp only [Bool.false_eq_true, if_false] at h
    cases hk : r.store.find k with
    | none =>
      rw [hk] at h; simp only [Prod.mk.injEq, true_and] at h
      subst h; simp only [listAt_put_same]; simp [Store.listAt, hk]
    | some val =>
      cases val with
      | str a b => rw [hk] at h; simp at h
      | list xs =>
        rw [hk] at h; simp only [Prod.mk.injEq, true_and] at h
        subst h; simp only [listAt_put_same]; simp [Store.listAt, hk]
  · cases f
    · simp only [Bool.false_eq_true, if_false] at h
      cases hk : r.store.find k with
      | none =>
        rw [hk] at h; simp only [Prod.mk.injEq, true_and] at h
        subst h; simp only [listAt_put_same]; simp [Store.listAt, hk]
      | some val =>
        cases val with
        | str a b => rw [hk] at h; simp at h
        | list xs =>
          rw [hk] at h; simp only [Prod.mk.injEq, true_and] at h
          subst h; simp only [listAt_put_same]; simp [Store.listAt, hk]
    · simp at h

/-- A successful `QueueFile` has read the file and put the item at the left end of the queue. -/
theorem QueueFile_success (J : JSONCodec) (r r1 : RedisClient) (sub : Submission)
    (h : QueueFile J r sub.now sub.jobID sub.userID sub.file sub.filename sub.sourceType
      = (none, r1)) :
    queueOf r1.store = J.marshalJob sub.item :: queueOf r.store := by
  unfold QueueFile at h
  cases hfile : sub.file with
  | error e => rw [hfile] at h; simp at h
  | ok data =>
    rw [hfile] at h
    simp only at h
    have h1 := LPush_success _ _ _ _ h
    unfold queueOf
    rw [h1]
    simp only [Store.listAt, Set_find_other r _ _ _ "job_queue" (persistentKey_ne_queue _),
      Submission.item, hfile]

theorem popAll_reliable (xs : List String) (s : Store) (h : queueOf s = xs) :
    (popAll xs.length (RedisClient.reliable s)).1
      = xs.reverse.map (fun x => Except.ok ["job_queue", x]) := by
  induction xs using List.reverseRecOn generalizing s with
  | nil => simp [popAll]
  | append_singleton ys y ih =>
    have hne : s.listAt "job_queue" ≠ [] := by
      unfold queueOf at h; rw [h]; simp
    have hfind := find_of_listAt_ne_nil s _ hne
    unfold queueOf at h
    rw [h] at hfind
    simp only [List.length_append, List.length_singleton, popAll, RedisClient.BRPop,
      RedisClient.reliable, RedisClient.nextFault, hfind, Bool.false_eq_true, if_false,
      List.getLast?_concat, List.dropLast_concat,
      List.reverse_append, List.reverse_singleton, List.singleton_append, List.map_cons]
    by_cases hys : ys = []
    · subst hys
      simp [popAll]
    · simp only [hys, if_false]
      have := ih (s.put "job_queue" (.list ys)) (by simp [queueOf, listAt_put_same])
      simp only [RedisClient.reliable] at this
      rw [this]

/-! ## Claim C1: the queue is FIFO -/

/-- Submission of file `a.md` (bytes 1, 2) for job `A`. -/
def subA : Submission :=
  { now := 5, jobID := "A", userID := "u1", file := .ok [1, 2], filename := "a.md",
    sourceType := "standard" }

/-- Submission of file `b.md` (byte 3) for job `B`. -/
def subB : Submission :=
  { now := 6, jobID := "B", userID := "u1", file := .ok [3], filename := "b.md",
    sourceType := "standard" }

/-- The key space after an `LPUSH key value` that reached the server. -/
def Store.push (s : Store) (key value : String) : Store :=
  match s.find key with
  | none => s.put key (.list [value])
  | some (.list xs) => s.put key (.list (value :: xs))
  | some (.str _ _) => s

/-- Whether `key` is bound to a plain string (on which list commands fail). -/
def Store.holdsString (s : Store) (key : String) : Bool :=
  match s.find key with
  | some (.str _ _) => true
  | _ => false

/-- The text of the status entry written by `updateJobStatus`. -/
def statusText (J : JSONCodec) (now : Time) (status : String) (progress : Int) : String :=
  J.marshalStatus status progress
    (if status = "completed" ∨ status = "failed" then some now else none)

theorem Set_reliable (s : Store) (k v : String) (t : Nat) :
    RedisClient.Set ⟨s, []⟩ k v t = (none, ⟨s.put k (.str v t), []⟩) := rfl

theorem Del_reliable (s : Store) (k : String) :
    RedisClient.Del ⟨s, []⟩ k = (none, ⟨s.erase k, []⟩) := rfl

theorem LPush_reliable (s : Store) (k v : String) :
    (RedisClient.LPush ⟨s, []⟩ k v).2 = ⟨s.push k v, []⟩ := by
  simp only [RedisClient.LPush, RedisClient.nextFault, Store.push]
  cases h : s.find k with
  | none => simp
  | some val => cases val <;> simp

theorem Get_reliable (s : Store) (k : String) :
    (RedisClient.Get ⟨s, []⟩ k).2 = ⟨s, []⟩ := by
  simp only [RedisClient.Get, RedisClient.nextFault]
  cases h : s.find k with
  | none => simp
  | some val => cases val <;> simp

theorem Get_reliable_ok (s : Store) (k v : String) :
    (RedisClient.Get ⟨s, []⟩ k).1 = .ok v ↔ ∃ t, s.find k = some (.str v t) := by
  simp only [RedisClient.Get, RedisClient.nextFault]
  cases h : s.find k with
  | none => simp
  | some val => cases val <;> simp

theorem updateJobStatus_reliable (J : JSONCodec) (s : Store) (now : Time) (jobID status : String)
    (progress : Int) :
    updateJobStatus J ⟨s, []⟩ now jobID status progress
      = ⟨s.put (statusKey jobID) (.str (statusText J now status progress) (24 * 3600)), []⟩ := rfl

theorem addJobError_reliable (s : Store) (jobID msg : String) :
    addJobError ⟨s, []⟩ jobID msg = ⟨s.push (errorsKey jobID) msg, []⟩ := by
  simp only [addJobError, LPush_reliable]

/-- What the loop body of `resumeUnprocessedJobs` decides for a key. -/
inductive Recovery where
  | skip
  | requeue (job : JobItem)
  | lost
  deriving DecidableEq, Repr

/-- The decision of the loop body for `key` on the key space `s`: `requeue job` when
the key holds a status entry in `processing` and the recoverable copy decodes to
`job`, `lost` when the entry is in `processing` and no copy can be read, `skip`
in every other case. -/
def recoveryOf (J : JSONCodec) (s : Store) (key : String) : Recovery :=
  if isErrorsKey key then .skip
  else
    match s.find key with
    | some (.str jobData _) =>
      match J.unmarshalMap jobData with
      | .error _ => .skip
      | .ok jobStatus =>
        if jobStatus.status = some "processing" then
          match s.find (persistentKey (sliceFrom key 4)) with
          | some (.str persistentJobData _) =>
            match J.unmarshalJob persistentJobData with
            | .error _ => .skip
            | .ok job => .requeue job
          | _ => .lost
        else .skip
    | _ => .skip

/-- The loop body of `resumeUnprocessedJobs` over a connection without faults, as a
function on the key space. -/
def resumeStore (J : JSONCodec) (now : Time) (s : Store) (key : String) : Store :=
  match recoveryOf J s key with
  | .skip => s
  | .requeue job =>
    (s.put (statusKey (sliceFrom key 4))
        (.str (statusText J now "pending" 0) (24 * 3600))).push "job_queue"
      (J.marshalJob { job with Status := "pending" })
  | .lost =>
    (s.put (statusKey (sliceFrom key 4))
        (.str (statusText J now "failed" 100) (24 * 3600))).push
      (errorsKey (sliceFrom key 4)) "Job data lost during server restart"

theorem resumeKey_reliable (J : JSONCodec) (now : Time) (s : Store) (key : String) :
    resumeKey J now ⟨s, []⟩ key = ⟨resumeStore J now s key, []⟩ := by
  unfold resumeKey resumeStore recoveryOf
  by_cases he : isErrorsKey key = true
  · simp [he]
  · simp only [he, Bool.false_eq_true, if_false]
    cases hk : s.find key with
    | none => simp [RedisClient.Get, RedisClient.nextFault, hk]
    | some val =>
      cases val with
      | list xs => simp [RedisClient.Get, RedisClient.nextFault, hk]
      | str v t =>
        simp only [RedisClient.Get, RedisClient.nextFault, hk, Bool.false_eq_true, if_false]
        cases hm : J.unmarshalMap v with
        | error e => simp
        | ok m =>
          simp only
          by_cases hp : m.status = some "processing"
          · simp only [hp, if_true]
            cases hc : s.find (persistentKey (sliceFrom key 4)) with
            | none => simp [updateJobStatus_reliable, addJobError_reliable]
            | some val2 =>
              cases val2 with
              | list ys => simp [updateJobStatus_reliable, addJobError_reliable]
              | str copy t2 =>
                simp only
                cases hj : J.unmarshalJob copy with
                | error e => simp
                | ok job => simp [updateJobStatus_reliable, LPush_reliable]
          · simp [hp]

theorem resumeUnprocessedJobs_reliable (J : JSONCodec) (now : Time) (s : Store) :
    resumeUnprocessedJobs J ⟨s, []⟩ now
      = ⟨(((s.map Prod.fst).filter (keyMatches "job:*")).dedup).foldl (resumeStore J now) s, []⟩ := by
  unfold resumeUnprocessedJobs
  simp only [RedisClient.Keys, RedisClient.nextFault, Bool.false_eq_true, if_false]
  generalize ((s.map Prod.fst).filter (keyMatches "job:*")).dedup = ks
  induction ks generalizing s with
  | nil => rfl
  | cons k ks ih => simp only [List.foldl_cons, resumeKey_reliable, ih]

theorem length_eq_data_length (s : String) : s.length = s.data.length := by
  cases s; rfl

theorem isErrorsKey_errorsKey (jobID : String) : isErrorsKey (errorsKey jobID) = true := by
  have hdata : (errorsKey jobID).data = ("job:".data ++ jobID.data) ++ ":errors".data := by
    simp only [errorsKey, data_append_literal]
  have h7 : ":errors".data.length = 7 := rfl
  have hlen : (errorsKey jobID).length = ("job:".data ++ jobID.data).length + 7 := by
    rw [length_eq_data_length, hdata, List.length_append, h7]
  have hdrop : sliceFrom (errorsKey jobID) ((errorsKey jobID).length - 7) = ":errors" := by
    apply String.ext
    rw [hlen]
    simp only [sliceFrom, hdata, Nat.add_sub_cancel, List.drop_left]
  unfold isErrorsKey
  rw [Bool.and_eq_true]
  refine ⟨?_, ?_⟩
  · rw [hlen]; simp
  · rw [hdrop]; simp

/-- The job IDs whose status key the recovery scan takes for an error-log key are
`errors` and those ending in `:errors`. -/
theorem isErrorsKey_statusKey_iff (j : String) :
    isErrorsKey (statusKey j) = true ↔ j = "errors" ∨ ∃ x : String, j = x ++ ":errors" := by
  constructor
  · intro h
    have hdata : (statusKey j).data = 'j' :: 'o' :: 'b' :: ':' :: j.data := by
      simp [statusKey, data_append_literal]
    unfold isErrorsKey at h
    rw [Bool.and_eq_true] at h
    obtain ⟨h1, h2⟩ := h
    have h3 : ((statusKey j).data.drop ((statusKey j).length - 7)) = ":errors".data := by
      have := congrArg String.data (eq_of_beq h2)
      simpa [sliceFrom] using this
    rw [length_eq_data_length, hdata] at h3
    rcases hd : j.data with _ | ⟨a, _ | ⟨b, _ | ⟨c, _ | ⟨d, _ | ⟨e, _ | ⟨f, _ | ⟨g, rest⟩⟩⟩⟩⟩⟩⟩
    all_goals rw [hd] at h3
    all_goals simp at h3
    · left
      apply String.ext
      rw [hd]
      obtain ⟨rfl, rfl, rfl, rfl, rfl, rfl⟩ := h3
      rfl
    · right
      refine ⟨⟨j.data.take (j.data.length - 7)⟩, ?_⟩
      apply String.ext
      rw [data_append_literal]
      simp only
      have h4 : j.data.drop (j.data.length - 7) = [':', 'e', 'r', 'r', 'o', 'r', 's'] := by
        rw [hd]
        simp only [List.length_cons]
        have : rest.length + 1 + 1 + 1 + 1 + 1 + 1 + 1 - 7 = rest.length := by omega
        rw [this]
        exact h3
      rw [← h4, List.take_append_drop]
  · rintro (h | ⟨x, h⟩)
    · subst h; decide
    · subst h
      rw [← errorsKey_eq_statusKey]
      exact isErrorsKey_errorsKey x

/-! ## The loop body of recovery: what it changes -/

theorem errorsKey_injective {a b : String} (h : errorsKey a = errorsKey b) : a = b := by
  have h1 := congrArg String.data h
  simp only [errorsKey, data_append_literal, List.append_cancel_left_eq,
    List.append_cancel_right_eq] at h1
  exact String.ext h1

theorem find_push (s : Store) (k v key : String) (h : k ≠ key) :
    (s.push k v).find key = s.find key := by
  unfold Store.push
  split <;> simp [Store.find_put, h]

theorem listAt_push_same (s : Store) (k v : String) (h : s.holdsString k = false) :
    (s.push k v).listAt k = v :: s.listAt k := by
  unfold Store.push Store.holdsString at *
  cases hk : s.find k with
  | none => simp [Store.listAt, Store.find_put, hk]
  | some val =>
    cases val with
    | list xs => simp [Store.listAt, Store.find_put, hk]
    | str a b => simp [hk] at h

theorem listAt_push_other (s : Store) (k v key : String) (h : k ≠ key) :
    (s.push k v).listAt key = s.listAt key := by
  simp only [Store.listAt, find_push _ _ _ _ h]

theorem holdsString_congr (s1 s2 : Store) (k : String) (h : s1.find k = s2.find k) :
    s1.holdsString k = s2.holdsString k := by
  simp [Store.holdsString, h]

theorem recoveryOf_congr (J : JSONCodec) (s1 s2 : Store) (key : String)
    (h1 : s1.find key = s2.find key)
    (h2 : s1.find (persistentKey (sliceFrom key 4)) = s2.find (persistentKey (sliceFrom key 4))) :
    recoveryOf J s1 key = recoveryOf J s2 key := by
  simp only [recoveryOf, h1, h2]

theorem recoveryOf_errorsKey (J : JSONCodec) (s : Store) (key : String)
    (h : isErrorsKey key = true) : recoveryOf J s key = .skip := by
  simp [recoveryOf, h]

/-- The loop body leaves a key as it was unless the body acts (the key is not
skipped as an error-log key) and the key is the status key, the error-log key
or the queue. -/
theorem resumeStore_find (J : JSONCodec) (now : Time) (s : Store) (key key1 : String)
    (h : isErrorsKey key = true ∨ (statusKey (sliceFrom key 4) ≠ key1
      ∧ errorsKey (sliceFrom key 4) ≠ key1 ∧ "job_queue" ≠ key1)) :
    (resumeStore J now s key).find key1 = s.find key1 := by
  unfold resumeStore
  rcases h with h | ⟨h1, h2, h3⟩
  · rw [recoveryOf_errorsKey J s key h]
  · cases recoveryOf J s key with
    | skip => rfl
    | requeue job => simp only; rw [find_push _ _ _ _ h3, Store.find_put]; simp [h1]
    | lost => simp only; rw [find_push _ _ _ _ h2, Store.find_put]; simp [h1]

/-- The text the loop body pushes onto the queue for `key`, decided on the store `s`:
the re-encoded recoverable copy of a job found in `processing`. -/
def requeued (J : JSONCodec) (s : Store) (key : String) : Option String :=
  match recoveryOf J s key with
  | .requeue job => some (J.marshalJob { job with Status := "pending" })
  | _ => none

/-- The queue after the loop body: the re-queued text, if any, at the left end. -/
theorem resumeStore_queue (J : JSONCodec) (now : Time) (s : Store) (key : String)
    (hq : s.holdsString "job_queue" = false) :
    queueOf (resumeStore J now s key) = (requeued J s key).toList ++ queueOf s := by
  unfold resumeStore requeued queueOf
  have hput : ∀ v, (s.put (statusKey (sliceFrom key 4)) v).holdsString "job_queue" = false := by
    intro v
    rw [holdsString_congr _ s _ (by rw [Store.find_put]; simp [statusKey_ne_queue]), hq]
  cases recoveryOf J s key with
  | skip => rfl
  | requeue job =>
    simp only [Option.toList, List.singleton_append]
    rw [listAt_push_same _ _ _ (hput _), listAt_put_other _ _ _ _ (statusKey_ne_queue _)]
  | lost =>
    simp only [Option.toList, List.nil_append]
    rw [listAt_push_other _ _ _ _ (errorsKey_ne_queue _),
      listAt_put_other _ _ _ _ (statusKey_ne_queue _)]

/-! ## The whole recovery pass -/

/-- The keys the recovery pass visits: the distinct keys matching `job:*`. -/
def jobKeys (s : Store) : List String :=
  ((s.map Prod.fst).filter (keyMatches "job:*")).dedup

theorem find_isSome_iff (s : Store) (k : String) : (s.find k).isSome ↔ k ∈ s.map Prod.fst := by
  induction s with
  | nil => simp [Store.find]
  | cons e rest ih =>
    obtain ⟨k1, v⟩ := e
    by_cases h : k1 = k
    · simp [Store.find, h]
    · simp only [Store.find, h, if_false, ih, List.map_cons, List.mem_cons]
      constructor
      · intro hm; exact Or.inr hm
      · rintro (hm | hm)
        · exact absurd hm.symm h
        · exact hm

theorem mem_jobKeys (s : Store) (k : String) :
    k ∈ jobKeys s ↔ (s.find k).isSome ∧ k = statusKey (sliceFrom k 4) := by
  simp only [jobKeys, List.mem_dedup, List.mem_filter, find_isSome_iff, keyMatches_job]

theorem nodup_jobKeys (s : Store) : (jobKeys s).Nodup := List.nodup_dedup _

theorem resume_store_eq (J : JSONCodec) (now : Time) (s : Store) :
    (resumeUnprocessedJobs J (RedisClient.reliable s) now).store
      = (jobKeys s).foldl (resumeStore J now) s := by
  simp only [RedisClient.reliable, resumeUnprocessedJobs_reliable, jobKeys]

theorem foldl_find_frame (J : JSONCodec) (now : Time) (ks : List String) (c : Store)
    (key1 : String)
    (h : ∀ k ∈ ks, ∀ c1, (resumeStore J now c1 k).find key1 = c1.find key1) :
    (ks.foldl (resumeStore J now) c).find key1 = c.find key1 := by
  induction ks generalizing c with
  | nil => rfl
  | cons k ks ih =>
    rw [List.foldl_cons, ih _ (fun k1 hk1 => h k1 (by simp [hk1])), h k (by simp)]

theorem isErrorsKey_ne {a b : String} (ha : isErrorsKey a = true) (hb : isErrorsKey b = false) :
    a ≠ b := by
  intro h; rw [h, hb] at ha; exact Bool.noConfusion ha

/-- The loop body for a key never touches a recoverable copy. -/
theorem resumeStore_find_persistent (J : JSONCodec) (now : Time) (s : Store) (key j : String) :
    (resumeStore J now s key).find (persistentKey j) = s.find (persistentKey j) :=
  resumeStore_find J now s key _ (Or.inr ⟨(persistentKey_ne_statusKey _ _).symm,
    (persistentKey_ne_errorsKey _ _).symm, (persistentKey_ne_queue _).symm⟩)

/-- The loop body for another job's key leaves a job's status entry alone. -/
theorem resumeStore_find_status (J : JSONCodec) (now : Time) (s : Store) (key j : String)
    (hkey : key = statusKey (sliceFrom key 4)) (hj : isErrorsKey (statusKey j) = false)
    (hne : key ≠ statusKey j) :
    (resumeStore J now s key).find (statusKey j) = s.find (statusKey j) := by
  apply resumeStore_find
  refine Or.inr ⟨?_, isErrorsKey_ne (isErrorsKey_errorsKey _) hj, (statusKey_ne_queue _).symm⟩
  rw [← hkey]; exact hne

/-- The loop body for another job's key leaves a job's error log alone. -/
theorem resumeStore_find_errors (J : JSONCodec) (now : Time) (s : Store) (key j : String)
    (hkey : key = statusKey (sliceFrom key 4)) (hne : key ≠ statusKey j) :
    (resumeStore J now s key).find (errorsKey j) = s.find (errorsKey j) := by
  apply resumeStore_find
  by_cases he : isErrorsKey key = true
  · exact Or.inl he
  · refine Or.inr ⟨?_, ?_, (errorsKey_ne_queue _).symm⟩
    · rw [← hkey]
      exact (isErrorsKey_ne (isErrorsKey_errorsKey j) (by simpa using he)).symm
    · intro h
      apply hne
      rw [hkey, errorsKey_injective h]

theorem holdsString_push (s : Store) (k v key : String) :
    (s.push k v).holdsString key = s.holdsString key := by
  unfold Store.push Store.holdsString
  by_cases h : k = key
  · subst h
    cases hk : s.find k with
    | none => simp [Store.find_put]
    | some val => cases val <;> simp [Store.find_put, hk]
  · cases hk : s.find k with
    | none => simp [Store.find_put, h]
    | some val => cases val <;> simp [Store.find_put, h]

theorem resumeStore_holdsString_queue (J : JSONCodec) (now : Time) (s : Store) (key : String) :
    (resumeStore J now s key).holdsString "job_queue" = s.holdsString "job_queue" := by
  unfold resumeStore
  cases recoveryOf J s key with
  | skip => rfl
  | requeue job =>
    simp only [holdsString_push]
    exact holdsString_congr _ _ _ (by rw [Store.find_put]; simp [statusKey_ne_queue])
  | lost =>
    simp only [holdsString_push]
    exact holdsString_congr _ _ _ (by rw [Store.find_put]; simp [statusKey_ne_queue])

/-- The loop body for one key does not change what is decided for another key. -/
theorem recoveryOf_resumeStore (J : JSONCodec) (now : Time) (s : Store) (key key1 : String)
    (hkey : key = statusKey (sliceFrom key 4)) (hkey1 : key1 = statusKey (sliceFrom key1 4))
    (hne : key ≠ key1) :
    recoveryOf J (resumeStore J now s key) key1 = recoveryOf J s key1 := by
  by_cases he : isErrorsKey key1 = true
  · rw [recoveryOf_errorsKey _ _ _ he, recoveryOf_errorsKey _ _ _ he]
  · apply recoveryOf_congr
    · rw [hkey1]
      apply resumeStore_find_status J now s key _ hkey
      · rw [← hkey1]; simpa using he
      · rw [← hkey1]; exact hne
    · exact resumeStore_find_persistent _ _ _ _ _

/-- The queue after the loop has run over `ks`: the texts re-queued for the keys of
`ks`, the last key's at the left end, in front of the queue as it was. -/
theorem foldl_resumeStore_queue (J : JSONCodec) (now : Time) (ks : List String) (c : Store)
    (hks : ∀ k ∈ ks, k = statusKey (sliceFrom k 4)) (hnd : ks.Nodup)
    (hq : c.holdsString "job_queue" = false) :
    queueOf (ks.foldl (resumeStore J now) c)
      = (ks.filterMap (requeued J c)).reverse ++ queueOf c := by
  induction ks generalizing c with
  | nil => simp
  | cons k ks ih =>
    have hk := hks k (by simp)
    rw [List.nodup_cons] at hnd
    rw [List.foldl_cons, ih _ (fun k1 hk1 => hks k1 (by simp [hk1])) hnd.2
      (by rw [resumeStore_holdsString_queue, hq]), resumeStore_queue _ _ _ _ hq]
    have hsame : ks.filterMap (requeued J (resumeStore J now c k)) = ks.filterMap (requeued J c) := by
      apply List.filterMap_congr
      intro k1 hk1
      simp only [requeued]
      rw [recoveryOf_resumeStore J now c k k1 hk (hks k1 (by simp [hk1]))
        (fun h => hnd.1 (h ▸ hk1))]
    rw [hsame, List.filterMap_cons]
    cases requeued J c k <;> simp

theorem find_push_congr (s1 s2 : Store) (k v key : String) (h : s1.find key = s2.find key) :
    (s1.push k v).find key = (s2.push k v).find key := by
  by_cases hk : k = key
  · subst hk
    unfold Store.push
    rw [h]
    cases s2.find k with
    | none => simp [Store.find_put]
    | some val => cases val <;> simp [Store.find_put, h]
  · rw [find_push _ _ _ _ hk, find_push _ _ _ _ hk, h]

theorem find_put_congr (s1 s2 : Store) (k key : String) (v : RValue)
    (h : s1.find key = s2.find key) : (s1.put k v).find key = (s2.put k v).find key := by
  simp only [Store.find_put, h]

/-- What the loop body leaves under a key depends only on its decision and on what
the key held. -/
theorem resumeStore_find_congr (J : JSONCodec) (now : Time) (s1 s2 : Store) (key key1 : String)
    (hr : recoveryOf J s1 key = recoveryOf J s2 key) (h : s1.find key1 = s2.find key1) :
    (resumeStore J now s1 key).find key1 = (resumeStore J now s2 key).find key1 := by
  unfold resumeStore
  rw [hr]
  cases recoveryOf J s2 key with
  | skip => exact h
  | requeue job => exact find_push_congr _ _ _ _ _ (find_put_congr _ _ _ _ _ h)
  | lost => exact find_push_congr _ _ _ _ _ (find_put_congr _ _ _ _ _ h)

theorem nodup_split {ks : List String} {k : String} (hnd : ks.Nodup) (hk : k ∈ ks) :
    ∃ pre post, ks = pre ++ k :: post ∧ k ∉ pre ∧ k ∉ post := by
  obtain ⟨pre, post, rfl⟩ := List.append_of_mem hk
  refine ⟨pre, post, rfl, ?_, ?_⟩
  · intro h
    have := (List.nodup_append.mp hnd).2.2
    exact this h (by simp)
  · have := (List.nodup_append.mp hnd).2.1
    exact (List.nodup_cons.mp this).1

/-- After the whole pass, a job's status entry and error log are what the loop body
for the job's own key makes of them on the initial store: the bodies run for the
other keys leave them alone. -/
theorem resume_job (J : JSONCodec) (now : Time) (s : Store) (j : String)
    (hj : isErrorsKey (statusKey j) = false) (hex : (s.find (statusKey j)).isSome) :
    ((jobKeys s).foldl (resumeStore J now) s).find (statusKey j)
        = (resumeStore J now s (statusKey j)).find (statusKey j)
    ∧ ((jobKeys s).foldl (resumeStore J now) s).find (errorsKey j)
        = (resumeStore J now s (statusKey j)).find (errorsKey j) := by
  have hmem : statusKey j ∈ jobKeys s := by
    rw [mem_jobKeys]; exact ⟨hex, by rw [sliceFrom_statusKey]⟩
  obtain ⟨pre, post, hks, hpre, hpost⟩ := nodup_split (nodup_jobKeys s) hmem
  have hall : ∀ k ∈ pre ++ statusKey j :: post, k = statusKey (sliceFrom k 4) := by
    intro k hk; rw [← hks] at hk; exact ((mem_jobKeys s k).mp hk).2
  have hpreAll : ∀ k ∈ pre, k = statusKey (sliceFrom k 4) ∧ k ≠ statusKey j :=
    fun k hk => ⟨hall k (by simp [hk]), fun h => hpre (h ▸ hk)⟩
  have hpostAll : ∀ k ∈ post, k = statusKey (sliceFrom k 4) ∧ k ≠ statusKey j :=
    fun k hk => ⟨hall k (by simp [hk]), fun h => hpost (h ▸ hk)⟩
  rw [hks, List.foldl_append, List.foldl_cons]
  have h1 : (pre.foldl (resumeStore J now) s).find (statusKey j) = s.find (statusKey j) :=
    foldl_find_frame J now pre s _ (fun k hk c1 =>
      resumeStore_find_status J now c1 k j (hpreAll k hk).1 hj (hpreAll k hk).2)
  have h2 : (pre.foldl (resumeStore J now) s).find (errorsKey j) = s.find (errorsKey j) :=
    foldl_find_frame J now pre s _ (fun k hk c1 =>
      resumeStore_find_errors J now c1 k j (hpreAll k hk).1 (hpreAll k hk).2)
  have h3 : (pre.foldl (resumeStore J now) s).find (persistentKey j) = s.find (persistentKey j) :=
    foldl_find_frame J now pre s _ (fun k _ c1 => resumeStore_find_persistent J now c1 k j)
  have hr : recoveryOf J (pre.foldl (resumeStore J now) s) (statusKey j)
      = recoveryOf J s (statusKey j) :=
    recoveryOf_congr J _ _ _ h1 (by rw [sliceFrom_statusKey]; exact h3)
  constructor
  · rw [foldl_find_frame J now post _ _ (fun k hk c1 =>
      resumeStore_find_status J now c1 k j (hpostAll k hk).1 hj (hpostAll k hk).2)]
    exact resumeStore_find_congr J now _ _ _ _ hr h1
  · rw [foldl_find_frame J now post _ _ (fun k hk c1 =>
      resumeStore_find_errors J now c1 k j (hpostAll k hk).1 (hpostAll k hk).2)]
    exact resumeStore_find_congr J now _ _ _ _ hr h2

/-- A job's recoverable copy is never changed by the recovery pass. -/
theorem resume_persistent (J : JSONCodec) (now : Time) (s : Store) (j : String) :
    ((jobKeys s).foldl (resumeStore J now) s).find (persistentKey j) = s.find (persistentKey j) :=
  foldl_find_frame J now _ s _ (fun k _ c1 => resumeStore_find_persistent J now c1 k j)

/-- The pieces of a status entry whose status string is known. -/
theorem statusOf_eq_some (J : JSONCodec) (s : Store) (j st : String)
    (h : statusOf J s j = some st) :
    ∃ v t m, s.find (statusKey j) = some (.str v t) ∧ J.unmarshalMap v = .ok m
      ∧ m.status = some st := by
  unfold statusOf statusEntry at h
  cases hk : s.find (statusKey j) with
  | none => simp [hk] at h
  | some val =>
    cases val with
    | list xs => simp [hk] at h
    | str v t =>
      cases hm : J.unmarshalMap v with
      | error e => simp [hk, hm] at h
      | ok m => exact ⟨v, t, m, rfl, hm, by simpa [hk, hm] using h⟩

/-- The decision of the loop body for a job in `processing`. -/
theorem recoveryOf_processing (J : JSONCodec) (s : Store) (j : String)
    (hj : isErrorsKey (statusKey j) = false) (hproc : statusOf J s j = some "processing") :
    recoveryOf J s (statusKey j) =
      match persistentCopy s j with
      | none => .lost
      | some copy =>
        match J.unmarshalJob copy with
        | .ok job => .requeue job
        | .error _ => .skip := by
  obtain ⟨v, t, m, hk, hm, hst⟩ := statusOf_eq_some J s j _ hproc
  unfold recoveryOf persistentCopy
  simp only [hj, Bool.false_eq_true, if_false, hk, hm, hst, if_true, sliceFrom_statusKey]
  cases hc : s.find (persistentKey j) with
  | none => rfl
  | some val =>
    cases val with
    | list xs => rfl
    | str c t2 => simp only; cases J.unmarshalJob c <;> rfl

theorem statusEntry_of_find (J : JSONCodec) (s : Store) (j st : String) (p : Int)
    (t : Option Time) (ttl : Nat) (hp : p.natAbs ≤ 2 ^ 62)
    (h : s.find (statusKey j) = some (.str (J.marshalStatus st p t) ttl)) :
    statusEntry J s j = some ⟨some st, some (float64OfInt p)⟩ := by
  simp [statusEntry, h, J.status_roundtrip _ _ _ hp]

theorem float64OfInt_small (p : Int) (h0 : 0 ≤ p) (h1 : p < 2 ^ 53) : float64OfInt p = p := by
  have h2 : p.natAbs < 2 ^ 53 := by omega
  have h3 : float64Round p = p := by
    simp only [float64Round, h0, if_true, float64OfNat, h2]
    omega
  unfold float64OfInt
  rw [h3, if_pos (by constructor <;> omega)]

theorem statusText_pending (J : JSONCodec) (now : Time) :
    statusText J now "pending" 0 = J.marshalStatus "pending" 0 none := by
  simp [statusText]

theorem statusText_failed (J : JSONCodec) (now : Time) :
    statusText J now "failed" 100 = J.marshalStatus "failed" 100 (some now) := by
  simp [statusText]

theorem statusOf_of_entry (J : JSONCodec) (s : Store) (j : String) (m : StatusMap)
    (h : statusEntry J s j = some m) : statusOf J s j = m.status := by
  simp [statusOf, h]

/-- Recovery of a job in `processing` whose copy decodes: the status entry afterwards. -/
theorem resume_requeue_status (J : JSONCodec) (now : Time) (s : Store) (j copy : String)
    (job : JobItem) (hj : isErrorsKey (statusKey j) = false)
    (hproc : statusOf J s j = some "processing") (hc : persistentCopy s j = some copy)
    (hd : J.unmarshalJob copy = .ok job) :
    statusEntry J (resumeUnprocessedJobs J (RedisClient.reliable s) now).store j
      = some ⟨some "pending", some 0⟩ := by
  obtain ⟨v, t, m, hk, _, _⟩ := statusOf_eq_some J s j _ hproc
  have hr := recoveryOf_processing J s j hj hproc
  rw [hc] at hr; simp only [hd] at hr
  have h1 := (resume_job J now s j hj (by simp [hk])).1
  rw [resume_store_eq, ← float64OfInt_small 0 (by omega) (by norm_num)]
  apply statusEntry_of_find J _ j "pending" 0 none (24 * 3600) (by decide)
  rw [h1]
  unfold resumeStore
  rw [hr]
  simp only [sliceFrom_statusKey]
  rw [find_push _ _ _ _ (statusKey_ne_queue j).symm, Store.find_put, statusText_pending]
  simp

/-- Recovery of a job in `processing` whose copy cannot be read: the status entry and
the error log afterwards. -/
theorem resume_lost_entries (J : JSONCodec) (now : Time) (s : Store) (j : String)
    (hj : isErrorsKey (statusKey j) = false)
    (hproc : statusOf J s j = some "processing") (hc : persistentCopy s j = none)
    (he : s.holdsString (errorsKey j) = false) :
    statusEntry J (resumeUnprocessedJobs J (RedisClient.reliable s) now).store j
      = some ⟨some "failed", some 100⟩
    ∧ errorLog (resumeUnprocessedJobs J (RedisClient.reliable s) now).store j
      = "Job data lost during server restart" :: errorLog s j := by
  obtain ⟨v, t, m, hk, _, _⟩ := statusOf_eq_some J s j _ hproc
  have hr := recoveryOf_processing J s j hj hproc
  rw [hc] at hr; simp only at hr
  have hne : errorsKey j ≠ statusKey j := isErrorsKey_ne (isErrorsKey_errorsKey j) hj
  obtain ⟨h1, h2⟩ := resume_job J now s j hj (by simp [hk])
  rw [resume_store_eq]
  constructor
  · rw [← float64OfInt_small 100 (by omega) (by norm_num)]
    apply statusEntry_of_find J _ j "failed" 100 (some now) (24 * 3600) (by decide)
    rw [h1]
    unfold resumeStore
    rw [hr]
    simp only [sliceFrom_statusKey]
    rw [find_push _ _ _ _ hne, Store.find_put, statusText_failed]
    simp
  · unfold errorLog Store.listAt
    rw [h2]
    unfold resumeStore
    rw [hr]
    simp only [sliceFrom_statusKey]
    have hes : (s.put (statusKey j) (.str (statusText J now "failed" 100) (24 * 3600))).holdsString
        (errorsKey j) = false := by
      rw [holdsString_congr _ s _ (by rw [Store.find_put]; simp [hne.symm]), he]
    have := listAt_push_same _ (errorsKey j) "Job data lost during server restart" hes
    unfold Store.listAt at this
    rw [this, Store.find_put]
    simp [hne.symm]

/-- Recovery of a job in `processing` whose copy does not decode: the status entry is
left as it was. -/
theorem resume_undecodable (J : JSONCodec) (now : Time) (s : Store) (j copy : String)
    (e : Error) (hj : isErrorsKey (statusKey j) = false)
    (hproc : statusOf J s j = some "processing") (hc : persistentCopy s j = some copy)
    (hd : J.unmarshalJob copy = .error e) :
    statusOf J (resumeUnprocessedJobs J (RedisClient.reliable s) now).store j
      = some "processing" := by
  obtain ⟨v, t, m, hk, _, _⟩ := statusOf_eq_some J s j _ hproc
  have hr := recoveryOf_processing J s j hj hproc
  rw [hc] at hr; simp only [hd] at hr
  have h1 := (resume_job J now s j hj (by simp [hk])).1
  rw [← hproc]
  unfold statusOf statusEntry
  rw [resume_store_eq, h1]
  unfold resumeStore
  rw [hr]

/-- The queue after the recovery pass: one re-encoded copy for each visited key that
is re-queued, in front of the queue as it was. -/
theorem resume_queue (J : JSONCodec) (now : Time) (s : Store)
    (hq : s.holdsString "job_queue" = false) :
    queueOf (resumeUnprocessedJobs J (RedisClient.reliable s) now).store
      = ((jobKeys s).filterMap (requeued J s)).reverse ++ queueOf s := by
  rw [resume_store_eq]
  exact foldl_resumeStore_queue J now _ s (fun k hk => ((mem_jobKeys s k).mp hk).2)
    (nodup_jobKeys s) hq

/-! ## Claims C2, C4, C5: outcomes of recovery -/

/-- The fixed message recorded for a job whose recoverable copy is gone. -/
def dataLostMessage : String := "Job data lost during server restart"

/-- C2 (as amended). Recovery over a connection without faults, for a job whose status
entry reads `processing`, whose status key is not taken for an error-log key, and with
neither the queue key nor the job's error-log key bound to a plain string:
when no copy can be read the job ends `failed` with the data-loss message in its error
log; when the stored copy decodes the job ends `pending` and its item is on the queue;
when a copy is stored that does not decode the job is left in `processing`. -/
theorem C2_recovery_outcomes (J : JSONCodec) (now : Time) (s : Store) (j : String)
    (hproc : statusOf J s j = some "processing")
    (hj : isErrorsKey (statusKey j) = false)
    (hq : s.holdsString "job_queue" = false)
    (he : s.holdsString (errorsKey j) = false) :
    (persistentCopy s j = none →
        statusOf J (resumeUnprocessedJobs J (RedisClient.reliable s) now).store j = some "failed"
        ∧ dataLostMessage ∈ errorLog (resumeUnprocessedJobs J (RedisClient.reliable s) now).store j)
    ∧ (∀ copy job, persistentCopy s j = some copy → J.unmarshalJob copy = .ok job →
        statusOf J (resumeUnprocessedJobs J (RedisClient.reliable s) now).store j = some "pending"
        ∧ J.marshalJob { job with Status := "pending" }
            ∈ queueOf (resumeUnprocessedJobs J (RedisClient.reliable s) now).store)
    ∧ (∀ copy e, persistentCopy s j = some copy → J.unmarshalJob copy = .error e →
        statusOf J (resumeUnprocessedJobs J (RedisClient.reliable s) now).store j
          = some "processing") := by
  refine ⟨?_, ?_, ?_⟩
  · intro hc
    obtain ⟨h1, h2⟩ := resume_lost_entries J now s j hj hproc hc he
    exact ⟨by rw [statusOf_of_entry J _ j _ h1], by rw [h2]; simp [dataLostMessage]⟩
  · intro copy job hc hd
    have h1 := resume_requeue_status J now s j copy job hj hproc hc hd
    refine ⟨by rw [statusOf_of_entry J _ j _ h1], ?_⟩
    rw [resume_queue J now s hq]
    apply List.mem_append_left
    rw [List.mem_reverse, List.mem_filterMap]
    obtain ⟨v, t, m, hk, _, _⟩ := statusOf_eq_some J s j _ hproc
    refine ⟨statusKey j, ?_, ?_⟩
    · rw [mem_jobKeys]; exact ⟨by simp [hk], by rw [sliceFrom_statusKey]⟩
    · have hr := recoveryOf_processing J s j hj hproc
      rw [hc] at hr; simp only [hd] at hr
      simp [requeued, hr]
  · intro copy e hc hd
    exact resume_undecodable J now s j copy e hj hproc hc hd

/-- A status entry in `processing`, as `updateJobStatus` writes it. -/
def processingEntry : RValue :=
  .str (RefJSON.codec.marshalStatus "processing" 0 none) (24 * 3600)

/-- A store in which job `A` is in `processing` and its recoverable copy is the one
`QueueFile` wrote for `subA`. -/
def storeRecoverable : Store :=
  [(statusKey "A", processingEntry),
   (persistentKey "A", .str (RefJSON.codec.marshalJob subA.item) (7 * 24 * 3600))]

/-- A store in which job `A` is in `processing` and the text stored as its recoverable
copy is not the JSON of a job item. -/
def storeUndecodable : Store :=
  [(statusKey "A", processingEntry), (persistentKey "A", .str "not a job item" (7 * 24 * 3600))]

/-- A store in which job `A` is in `processing` and has no recoverable copy. -/
def storeLost : Store := [(statusKey "A", processingEntry)]

/-- Witness for C2: job `A` with a decodable copy ends `pending`. -/
theorem C2_recovery_outcomes_witness :
    statusOf RefJSON.codec storeRecoverable "A" = some "processing"
    ∧ isErrorsKey (statusKey "A") = false
    ∧ storeRecoverable.holdsString "job_queue" = false
    ∧ storeRecoverable.holdsString (errorsKey "A") = false
    ∧ statusOf RefJSON.codec
        (resumeUnprocessedJobs RefJSON.codec (RedisClient.reliable storeRecoverable) 9).store "A"
        = some "pending" :=
  ⟨by decide, by decide, by decide, by decide,
    ((C2_recovery_outcomes RefJSON.codec 9 storeRecoverable "A" (by decide) (by decide)
      (by decide) (by decide)).2.1 _ subA.item (by decide) (RefJSON.codec.job_roundtrip _)).1⟩

/-- C2, counterexample: job `A` is in `processing` and a text is stored under its
recoverable-copy key, yet after recovery its status is still `processing`: it is
neither re-queued as `pending` nor marked `failed`. -/
theorem C2_counterexample :
    statusOf RefJSON.codec storeUndecodable "A" = some "processing"
    ∧ persistentCopy storeUndecodable "A" = some "not a job item"
    ∧ statusOf RefJSON.codec
        (resumeUnprocessedJobs RefJSON.codec (RedisClient.reliable storeUndecodable) 9).store "A"
        = some "processing"
    ∧ queueOf (resumeUnprocessedJobs RefJSON.codec (RedisClient.reliable storeUndecodable) 9).store
        = [] := by
  decide

/-- C4 (as amended). Recovery over a connection without faults, for a job whose status
entry reads `processing` and under whose recoverable-copy key a text `copy` is stored
(the status key not being taken for an error-log key and the queue key not being bound
to a plain string). The pass pushes one text per visited key that it re-queues, the
visited keys are distinct and the job's key is among them, and the pushed texts stand
to the left of the earlier queue, so popping returns every earlier item first. When
`copy` decodes to `job`, the status entry becomes `pending` with progress 0 and the
text pushed for this job's key is the encoding of `job` with status `pending`, which
decodes to the stored copy's fields. When `copy` does not decode, the job is skipped:
nothing is pushed for its key and its status entry still reads `processing`. -/
theorem C4_recovery_requeues_copy (J : JSONCodec) (now : Time) (s : Store) (j copy : String)
    (hproc : statusOf J s j = some "processing")
    (hj : isErrorsKey (statusKey j) = false)
    (hq : s.holdsString "job_queue" = false)
    (hc : persistentCopy s j = some copy) :
    statusKey j ∈ jobKeys s ∧ (jobKeys s).Nodup
    ∧ queueOf (resumeUnprocessedJobs J (RedisClient.reliable s) now).store
        = ((jobKeys s).filterMap (requeued J s)).reverse ++ queueOf s
    ∧ (popAll (((jobKeys s).filterMap (requeued J s)).reverse ++ queueOf s).length
          (RedisClient.reliable (resumeUnprocessedJobs J (RedisClient.reliable s) now).store)).1
        = ((queueOf s).reverse ++ (jobKeys s).filterMap (requeued J s)).map
            (fun x => Except.ok ["job_queue", x])
    ∧ (∀ job, J.unmarshalJob copy = .ok job →
        statusEntry J (resumeUnprocessedJobs J (RedisClient.reliable s) now).store j
            = some ⟨some "pending", some 0⟩
        ∧ requeued J s (statusKey j) = some (J.marshalJob { job with Status := "pending" })
        ∧ J.marshalJob { job with Status := "pending" }
            ∈ queueOf (resumeUnprocessedJobs J (RedisClient.reliable s) now).store
        ∧ J.unmarshalJob (J.marshalJob { job with Status := "pending" })
            = .ok { job with Status := "pending" })
    ∧ (∀ e, J.unmarshalJob copy = .error e →
        statusOf J (resumeUnprocessedJobs J (RedisClient.reliable s) now).store j
            = some "processing"
        ∧ requeued J s (statusKey j) = none) := by
  obtain ⟨v, t, m, hk, _, _⟩ := statusOf_eq_some J s j _ hproc
  have hr := recoveryOf_processing J s j hj hproc
  rw [hc] at hr
  have hmem : statusKey j ∈ jobKeys s := by
    rw [mem_jobKeys]; exact ⟨by simp [hk], by rw [sliceFrom_statusKey]⟩
  refine ⟨hmem, nodup_jobKeys s, resume_queue J now s hq, ?_, ?_, ?_⟩
  · have hp := popAll_reliable _ _ (resume_queue J now s hq)
    rw [hp]
    simp
  · intro job hd
    simp only [hd] at hr
    have hreq : requeued J s (statusKey j)
        = some (J.marshalJob { job with Status := "pending" }) := by
      simp [requeued, hr]
    refine ⟨resume_requeue_status J now s j copy job hj hproc hc hd, hreq, ?_,
      J.job_roundtrip _⟩
    rw [resume_queue J now s hq]
    apply List.mem_append_left
    rw [List.mem_reverse, List.mem_filterMap]
    exact ⟨statusKey j, hmem, hreq⟩
  · intro e hd
    simp only [hd] at hr
    exact ⟨resume_undecodable J now s j copy e hj hproc hc hd, by simp [requeued, hr]⟩

/-- Witness for C4: job `A` is re-queued from its copy. -/
theorem C4_recovery_requeues_copy_witness :
    statusOf RefJSON.codec storeRecoverable "A" = some "processing"
    ∧ isErrorsKey (statusKey "A") = false
    ∧ storeRecoverable.holdsString "job_queue" = false
    ∧ persistentCopy storeRecoverable "A" = some (RefJSON.codec.marshalJob subA.item)
    ∧ RefJSON.codec.unmarshalJob (RefJSON.codec.marshalJob subA.item) = .ok subA.item
    ∧ queueOf (resumeUnprocessedJobs RefJSON.codec (RedisClient.reliable storeRecoverable) 9).store
        = [RefJSON.codec.marshalJob subA.item]
    ∧ statusEntry RefJSON.codec
        (resumeUnprocessedJobs RefJSON.codec (RedisClient.reliable storeRecoverable) 9).store "A"
        = some ⟨some "pending", some 0⟩ :=
  ⟨by decide, by decide, by decide, by decide, RefJSON.codec.job_roundtrip _, by decide,
    ((C4_recovery_requeues_copy RefJSON.codec 9 storeRecoverable "A" _ (by decide)
      (by decide) (by decide) (by decide)).2.2.2.2.1 subA.item
        (RefJSON.codec.job_roundtrip _)).1⟩

/-- C4, counterexample: job `A` is in `processing` and a text exists under its
recoverable-copy key, but the text is not the JSON of a job item. After recovery the
status entry is not `pending` with progress 0 and no item has been pushed onto the
queue. -/
theorem C4_counterexample :
    statusOf RefJSON.codec storeUndecodable "A" = some "processing"
    ∧ persistentCopy storeUndecodable "A" = some "not a job item"
    ∧ isErrorsKey (statusKey "A") = false
    ∧ storeUndecodable.holdsString "job_queue" = false
    ∧ statusEntry RefJSON.codec
        (resumeUnprocessedJobs RefJSON.codec (RedisClient.reliable storeUndecodable) 9).store "A"
        ≠ some ⟨some "pending", some 0⟩
    ∧ queueOf (resumeUnprocessedJobs RefJSON.codec (RedisClient.reliable storeUndecodable) 9).store
        = queueOf storeUndecodable
    ∧ queueOf storeUndecodable = [] := by
  decide

/-- C5. Recovery over a connection without faults, for a job whose status entry reads
`processing` and whose recoverable copy cannot be read (the status key not being taken
for an error-log key, and neither the queue key nor the job's error-log key being
bound to a plain string): the status entry becomes `failed` (progress 100), the error
log gains exactly the one data-loss message, and no text is pushed onto the queue for
this job's key: the queue gains only the texts re-queued for other keys. -/
theorem C5_recovery_marks_lost (J : JSONCodec) (now : Time) (s : Store) (j : String)
    (hproc : statusOf J s j = some "processing")
    (hj : isErrorsKey (statusKey j) = false)
    (hq : s.holdsString "job_queue" = false)
    (he : s.holdsString (errorsKey j) = false)
    (hc : persistentCopy s j = none) :
    statusEntry J (resumeUnprocessedJobs J (RedisClient.reliable s) now).store j
        = some ⟨some "failed", some 100⟩
    ∧ errorLog (resumeUnprocessedJobs J (RedisClient.reliable s) now).store j
        = dataLostMessage :: errorLog s j
    ∧ requeued J s (statusKey j) = none
    ∧ queueOf (resumeUnprocessedJobs J (RedisClient.reliable s) now).store
        = ((jobKeys s).filterMap (requeued J s)).reverse ++ queueOf s := by
  have hr := recoveryOf_processing J s j hj hproc
  rw [hc] at hr; simp only at hr
  obtain ⟨h1, h2⟩ := resume_lost_entries J now s j hj hproc hc he
  exact ⟨h1, h2, by simp [requeued, hr], resume_queue J now s hq⟩

/-- Witness for C5: job `A` without a copy is marked failed and nothing is queued. -/
theorem C5_recovery_marks_lost_witness :
    statusOf RefJSON.codec storeLost "A" = some "processing"
    ∧ isErrorsKey (statusKey "A") = false
    ∧ storeLost.holdsString "job_queue" = false
    ∧ storeLost.holdsString (errorsKey "A") = false
    ∧ persistentCopy storeLost "A" = none
    ∧ queueOf (resumeUnprocessedJobs RefJSON.codec (RedisClient.reliable storeLost) 9).store = []
    ∧ errorLog (resumeUnprocessedJobs RefJSON.codec (RedisClient.reliable storeLost) 9).store "A"
        = [dataLostMessage] :=
  ⟨by decide, by decide, by decide, by decide, by decide, by decide,
    (C5_recovery_marks_lost RefJSON.codec 9 storeLost "A" (by decide) (by decide) (by decide)
      (by decide) (by decide)).2.1⟩

/-! ## Claim C3: several files under one job ID -/

/-- The worker up to the point where the process stops in the crash scenario: the
pass of `StartWithContext` pops an item and decodes it, and `processJobWithContext`
has written the status `processing`; nothing after that is executed. -/
def dequeueAndMarkProcessing (J : JSONCodec) (r : RedisClient) (now : Time) : RedisClient :=
  match r.BRPop 2 "job_queue" with
  | (.error _, r) => r
  | (.ok jobData, r) =>
    if jobData.length < 2 then r
    else
      match J.unmarshalJob (jobData.getD 1 "") with
      | .error _ => r
      | .ok job => updateJobStatus J r now job.JobID "processing" 0

/-- First file of a two-file upload. -/
def fileA : FileHeader := { Filename := "a.md", Open := .ok (.ok [1, 2]) }

/-- Second file of a two-file upload. -/
def fileB : FileHeader := { Filename := "b.md", Open := .ok (.ok [3]) }

/-- The item `QueueFile` builds for a file of the upload under job `J1`. -/
def uploadItem (filename : String) (data : List Byte) : JobItem :=
  { JobID := "J1", UserID := "u1", Filename := filename, SourceType := "standard",
    FileData := data, CreatedAt := 5, Status := "pending" }

/-- The client after `Upload` has queued the two files under the one job ID `J1`. -/
def afterUpload : RedisClient :=
  (Upload RefJSON.codec (RedisClient.reliable []) 5 "J1" "u1" "standard" [fileA, fileB]).2

/-- C3, the failing run. Two files are uploaded under one job ID; the worker dequeues
the first file's item and marks the job `processing`; the process stops and recovery
runs. Afterwards the queue holds the second file's item twice, the first file's
payload is in no queued item, and the job's status is `pending`, not `failed`. -/
theorem C3_two_files_one_job_loses_item :
    (afterUpload.BRPop 2 "job_queue").1
        = .ok ["job_queue", RefJSON.codec.marshalJob (uploadItem "a.md" [1, 2])]
    ∧ statusOf RefJSON.codec (dequeueAndMarkProcessing RefJSON.codec afterUpload 6).store "J1"
        = some "processing"
    ∧ queueOf (resumeUnprocessedJobs RefJSON.codec
          (dequeueAndMarkProcessing RefJSON.codec afterUpload 6) 7).store
        = [RefJSON.codec.marshalJob (uploadItem "b.md" [3]),
           RefJSON.codec.marshalJob (uploadItem "b.md" [3])]
    ∧ (∀ x ∈ queueOf (resumeUnprocessedJobs RefJSON.codec
          (dequeueAndMarkProcessing RefJSON.codec afterUpload 6) 7).store,
        ∀ job, RefJSON.codec.unmarshalJob x = .ok job → job.FileData ≠ [1, 2])
    ∧ statusOf RefJSON.codec (resumeUnprocessedJobs RefJSON.codec
          (dequeueAndMarkProcessing RefJSON.codec afterUpload 6) 7).store "J1"
        = some "pending" := by
  have hq : queueOf (resumeUnprocessedJobs RefJSON.codec
      (dequeueAndMarkProcessing RefJSON.codec afterUpload 6) 7).store
        = [RefJSON.codec.marshalJob (uploadItem "b.md" [3]),
           RefJSON.codec.marshalJob (uploadItem "b.md" [3])] := by decide
  refine ⟨by decide, by decide, hq, ?_, by decide⟩
  intro x hx job hjob
  rw [hq] at hx
  simp only [List.mem_cons, List.mem_singleton, or_self, List.not_mem_nil, or_false] at hx
  rw [hx, RefJSON.codec.job_roundtrip] at hjob
  cases hjob
  decide

/-! ## Claims C6, C7: what a submission writes -/

/-- C6. For every `QueueFile` call whose file read, `Set` and `LPush` all succeed
(under any connection script), the text stored under `persistent_job:<jobID>` is the
very text put at the left end of the queue, and it decodes to the job item with the
given job ID, user ID, filename and source type, the bytes read from the file, the
time of the call and status `pending`. -/
theorem C6_copy_equals_queued_item (J : JSONCodec) (r r1 : RedisClient) (now : Time)
    (jobID userID filename sourceType : String) (data : List Byte)
    (hset : (r.Set (persistentKey jobID)
      (J.marshalJob ⟨jobID, userID, filename, sourceType, data, now, "pending"⟩)
      (7 * 24 * 3600)).1 = none)
    (hpush : QueueFile J r now jobID userID (.ok data) filename sourceType = (none, r1)) :
    persistentCopy r1.store jobID
        = some (J.marshalJob ⟨jobID, userID, filename, sourceType, data, now, "pending"⟩)
    ∧ queueOf r1.store
        = J.marshalJob ⟨jobID, userID, filename, sourceType, data, now, "pending"⟩
            :: queueOf r.store
    ∧ J.unmarshalJob (J.marshalJob ⟨jobID, userID, filename, sourceType, data, now, "pending"⟩)
        = .ok ⟨jobID, userID, filename, sourceType, data, now, "pending"⟩ := by
  refine ⟨?_, ?_, J.job_roundtrip _⟩
  · unfold QueueFile at hpush
    simp only at hpush
    generalize hitem : J.marshalJob ⟨jobID, userID, filename, sourceType, data, now, "pending"⟩
      = text at *
    have hstore : (r.Set (persistentKey jobID) text (7 * 24 * 3600)).2.store.find
        (persistentKey jobID) = some (.str text (7 * 24 * 3600)) := by
      unfold RedisClient.Set RedisClient.nextFault at hset ⊢
      rcases hf : r.faults with _ | ⟨f, fs⟩
      · simp [Store.find_put]
      · rw [hf] at hset
        cases f
        · simp [Store.find_put]
        · simp at hset
    generalize (r.Set (persistentKey jobID) text (7 * 24 * 3600)).2 = r0 at *
    have hfind : r1.store.find (persistentKey jobID) = r0.store.find (persistentKey jobID) := by
      unfold RedisClient.LPush RedisClient.nextFault at hpush
      have hne : "job_queue" ≠ persistentKey jobID := (persistentKey_ne_queue _).symm
      rcases hf : r0.faults with _ | ⟨f, fs⟩ <;> rw [hf] at hpush
      · simp only [Bool.false_eq_true, if_false] at hpush
        cases hk : r0.store.find "job_queue" with
        | none =>
          rw [hk] at hpush; simp only [Prod.mk.injEq, true_and] at hpush
          subst hpush; simp [Store.find_put, hne]
        | some val =>
          cases val with
          | str a b => rw [hk] at hpush; simp at hpush
          | list xs =>
            rw [hk] at hpush; simp only [Prod.mk.injEq, true_and] at hpush
            subst hpush; simp [Store.find_put, hne]
      · cases f
        · simp only [Bool.false_eq_true, if_false] at hpush
          cases hk : r0.store.find "job_queue" with
          | none =>
            rw [hk] at hpush; simp only [Prod.mk.injEq, true_and] at hpush
            subst hpush; simp [Store.find_put, hne]
          | some val =>
            cases val with
            | str a b => rw [hk] at hpush; simp at hpush
            | list xs =>
              rw [hk] at hpush; simp only [Prod.mk.injEq, true_and] at hpush
              subst hpush; simp [Store.find_put, hne]
        · simp at hpush
    simp [persistentCopy, hfind, hstore]
  · exact QueueFile_success J r r1 ⟨now, jobID, userID, .ok data, filename, sourceType⟩ hpush

/-- Witness for C6: a submission to an empty store. -/
theorem C6_copy_equals_queued_item_witness :
    ((RedisClient.reliable []).Set (persistentKey "A")
        (RefJSON.codec.marshalJob ⟨"A", "u1", "a.md", "standard", [1, 2], 5, "pending"⟩)
        (7 * 24 * 3600)).1 = none
    ∧ (QueueFile RefJSON.codec (RedisClient.reliable []) 5 "A" "u1" (.ok [1, 2]) "a.md"
        "standard").1 = none
    ∧ persistentCopy (QueueFile RefJSON.codec (RedisClient.reliable []) 5 "A" "u1" (.ok [1, 2])
        "a.md" "standard").2.store "A"
        = some (RefJSON.codec.marshalJob ⟨"A", "u1", "a.md", "standard", [1, 2], 5, "pending"⟩) :=
  ⟨by decide, by decide,
    (C6_copy_equals_queued_item RefJSON.codec (RedisClient.reliable []) _ 5 "A" "u1" "a.md"
      "standard" [1, 2] (by decide) (Prod.ext (by decide) rfl)).1⟩

/-- C7, general form of the failing run. Over a connection without faults, when job
`jobID` has no status entry, a `QueueFile` call for it leaves the job without one,
and the status query that follows fails with `redis.Nil` instead of reporting
`pending`. -/
theorem queueFile_writes_no_status (J : JSONCodec) (s : Store) (now : Time)
    (jobID userID filename sourceType : String) (file : Except Error (List Byte))
    (hfresh : s.find (statusKey jobID) = none) :
    (GetJobStatus J (QueueFile J (RedisClient.reliable s) now jobID userID file filename
      sourceType).2 jobID userID).1 = .error redisNil := by
  unfold QueueFile
  cases file with
  | error e => simp [GetJobStatus, RedisClient.reliable, RedisClient.Get, RedisClient.nextFault, hfresh]
  | ok data =>
    simp only [RedisClient.reliable, Set_reliable]
    have h2 := LPush_reliable (s.put (persistentKey jobID)
      (.str (J.marshalJob ⟨jobID, userID, filename, sourceType, data, now, "pending"⟩)
        (7 * 24 * 3600))) "job_queue"
      (J.marshalJob ⟨jobID, userID, filename, sourceType, data, now, "pending"⟩)
    rw [h2]
    have hfind : ((s.put (persistentKey jobID)
      (.str (J.marshalJob ⟨jobID, userID, filename, sourceType, data, now, "pending"⟩)
        (7 * 24 * 3600))).push "job_queue"
      (J.marshalJob ⟨jobID, userID, filename, sourceType, data, now, "pending"⟩)).find
        (statusKey jobID) = none := by
      rw [find_push _ _ _ _ (statusKey_ne_queue jobID).symm, Store.find_put, hfresh]
      simp [persistentKey_ne_statusKey]
    simp [GetJobStatus, RedisClient.Get, RedisClient.nextFault, hfind]

/-- C7, the failing run. On an empty store `QueueFile` for job `A` succeeds, the item
is still on the queue, and `GetJobStatus` fails with `redis.Nil`: no status entry was
written. -/
theorem C7_no_pending_status_after_submit :
    (QueueFile RefJSON.codec (RedisClient.reliable []) 5 "A" "u1" (.ok [1, 2]) "a.md"
        "standard").1 = none
    ∧ queueOf (QueueFile RefJSON.codec (RedisClient.reliable []) 5 "A" "u1" (.ok [1, 2]) "a.md"
        "standard").2.store
        = [RefJSON.codec.marshalJob ⟨"A", "u1", "a.md", "standard", [1, 2], 5, "pending"⟩]
    ∧ (GetJobStatus RefJSON.codec (QueueFile RefJSON.codec (RedisClient.reliable []) 5 "A" "u1"
        (.ok [1, 2]) "a.md" "standard").2 "A" "u1").1 = .error redisNil :=
  ⟨by decide, by decide,
    queueFile_writes_no_status RefJSON.codec [] 5 "A" "u1" "a.md" "standard" (.ok [1, 2]) rfl⟩

/-! ## The pipeline and the store -/

theorem processChunk_frame (s : DocumentService) (w : World) (now : Time)
    (userID docID content : String) (index : Nat) (sourceType : String) :
    (processChunk s w now userID docID content index sourceType).2.redis = w.redis
    ∧ (processChunk s w now userID docID content index sourceType).2.broadcast = w.broadcast
    ∧ (processChunk s w now userID docID content index sourceType).2.documents = w.documents := by
  unfold processChunk
  cases s.GenerateEmbedding content with
  | error e => exact ⟨rfl, rfl, rfl⟩
  | ok emb =>
    simp only
    split <;> exact ⟨rfl, rfl, rfl⟩

theorem processChunk_fst_congr (s : DocumentService) (w1 w2 : World) (now : Time)
    (userID docID content : String) (index : Nat) (sourceType : String) :
    (processChunk s w1 now userID docID content index sourceType).1
      = (processChunk s w2 now userID docID content index sourceType).1 := by
  unfold processChunk
  cases s.GenerateEmbedding content with
  | error e => rfl
  | ok emb =>
    simp only
    split <;> simp_all

theorem processChunks_frame (s : DocumentService) (now : Time) (userID docID sourceType : String)
    (chunks : List String) (i : Nat) (w : World) :
    (processChunks s now userID docID sourceType chunks i w).2.redis = w.redis
    ∧ (processChunks s now userID docID sourceType chunks i w).2.broadcast = w.broadcast
    ∧ (processChunks s now userID docID sourceType chunks i w).2.documents = w.documents := by
  induction chunks generalizing i w with
  | nil => exact ⟨rfl, rfl, rfl⟩
  | cons c rest ih =>
    have hf := processChunk_frame s w now userID docID c i sourceType
    unfold processChunks
    cases hp : processChunk s w now userID docID c i sourceType with
    | mk err w1 =>
      rw [hp] at hf
      cases err with
      | some e => exact hf
      | none =>
        simp only
        obtain ⟨h1, h2, h3⟩ := ih (i + 1) w1
        exact ⟨h1.trans hf.1, h2.trans hf.2.1, h3.trans hf.2.2⟩

theorem processChunks_fst_congr (s : DocumentService) (now : Time)
    (userID docID sourceType : String) (chunks : List String) (i : Nat) (w1 w2 : World) :
    (processChunks s now userID docID sourceType chunks i w1).1
      = (processChunks s now userID docID sourceType chunks i w2).1 := by
  induction chunks generalizing i w1 w2 with
  | nil => rfl
  | cons c rest ih =>
    have hc := processChunk_fst_congr s w1 w2 now userID docID c i sourceType
    unfold processChunks
    cases hp1 : processChunk s w1 now userID docID c i sourceType with
    | mk err1 w1a =>
      cases hp2 : processChunk s w2 now userID docID c i sourceType with
      | mk err2 w2a =>
        rw [hp1, hp2] at hc
        simp only at hc
        subst hc
        cases err1 with
        | some e => rfl
        | none => exact ih (i + 1) w1a w2a

/-- What the pipeline does to the world: it leaves the Redis store alone and sends
only `document:created` and `job-completed` messages, all to `userID`, the latter
only when it returns no error. -/
theorem ProcessFile_spec (s : DocumentService) (w : World) (now : Time) (jobID userID : String)
    (file : List Byte) (filename sourceType : String) :
    ∃ evs,
      (ProcessFile s w now jobID userID file filename sourceType).2.redis = w.redis
      ∧ (ProcessFile s w now jobID userID file filename sourceType).2.broadcast
          = w.broadcast ++ evs
      ∧ (∀ m ∈ evs, m.UserID = userID
          ∧ (m.MessageType = "document:created" ∨ m.MessageType = "job-completed"))
      ∧ ((ProcessFile s w now jobID userID file filename sourceType).1 ≠ none →
          ∀ m ∈ evs, m.MessageType = "document:created") := by
  unfold ProcessFile
  cases hparse : s.Parse (selectParser sourceType) file filename with
  | error e => exact ⟨[], by simp⟩
  | ok p =>
    obtain ⟨chunks, metadata⟩ := p
    simp only
    cases hoid : s.ObjectIDFromHex userID with
    | error e => exact ⟨[], by simp⟩
    | ok uid =>
      simp only
      cases hins : s.InsertOne w.documents _ with
      | error e => exact ⟨[], by simp⟩
      | ok insertedID =>
        simp only
        generalize hw1 : (if s.eventService = true then DocumentCreated _ now userID _ else _) = w1
        have hw1r : w1.redis = w.redis := by
          rw [← hw1]; split <;> rfl
        obtain ⟨ev1, hw1b, hev1⟩ : ∃ ev1, w1.broadcast = w.broadcast ++ ev1
            ∧ ∀ m ∈ ev1, m.UserID = userID ∧ m.MessageType = "document:created" := by
          rw [← hw1]
          split
          · exact ⟨[_], rfl, by simp⟩
          · exact ⟨[], by simp, by simp⟩
        obtain ⟨hf1, hf2, _⟩ := processChunks_frame s now userID insertedID sourceType chunks 0 w1
        cases hp : processChunks s now userID insertedID sourceType chunks 0 w1 with
        | mk err w2 =>
          rw [hp] at hf1 hf2
          simp only at hf1 hf2
          cases err with
          | some e =>
            exact ⟨ev1, by simp [hf1, hw1r], by simp [hf2, hw1b],
              fun m hm => ⟨(hev1 m hm).1, Or.inl (hev1 m hm).2⟩, fun _ m hm => (hev1 m hm).2⟩
          | none =>
            simp only
            cases hup : s.UpdateOne insertedID with
            | some e =>
              exact ⟨ev1, by simp [hf1, hw1r], by simp [hf2, hw1b],
                fun m hm => ⟨(hev1 m hm).1, Or.inl (hev1 m hm).2⟩, fun _ m hm => (hev1 m hm).2⟩
            | none =>
              simp only
              by_cases hev : s.eventService = true
              · refine ⟨ev1 ++ [⟨"job-completed", userID,
                  [("job_id", .str jobID), ("timestamp", .num now)]⟩], ?_, ?_, ?_, by simp [hev]⟩
                · simp [hev, JobCompleted, SendToUser, hf1, hw1r]
                · simp only [hev, if_true, JobCompleted, SendToUser, hf2, hw1b,
                    List.append_assoc]
                · intro m hm
                  rw [List.mem_append] at hm
                  rcases hm with hm | hm
                  · exact ⟨(hev1 m hm).1, Or.inl (hev1 m hm).2⟩
                  · simp only [List.mem_singleton] at hm
                    subst hm
                    exact ⟨rfl, Or.inr rfl⟩
              · exact ⟨ev1, by simp [hev, hf1, hw1r], by simp [hev, hf2, hw1b],
                  fun m hm => ⟨(hev1 m hm).1, Or.inl (hev1 m hm).2⟩, by simp [hev]⟩

/-- Whether the pipeline fails, and how, does not depend on the Redis store or on the
messages sent so far. -/
theorem ProcessFile_error_congr (s : DocumentService) (w1 w2 : World) (now : Time)
    (jobID userID : String) (file : List Byte) (filename sourceType : String)
    (hd : w1.documents = w2.documents) :
    (ProcessFile s w1 now jobID userID file filename sourceType).1
      = (ProcessFile s w2 now jobID userID file filename sourceType).1 := by
  unfold ProcessFile
  rw [hd]
  cases hparse : s.Parse (selectParser sourceType) file filename with
  | error e => rfl
  | ok p =>
    obtain ⟨chunks, metadata⟩ := p
    simp only
    cases hoid : s.ObjectIDFromHex userID with
    | error e => rfl
    | ok uid =>
      simp only
      cases hins : s.InsertOne w2.documents _ with
      | error e => rfl
      | ok insertedID =>
        simp only
        generalize (if s.eventService = true then DocumentCreated _ now userID _ else _) = wa
        generalize (if s.eventService = true then DocumentCreated _ now userID _ else _) = wb
        have hc := processChunks_fst_congr s now userID insertedID sourceType chunks 0 wa wb
        cases hp1 : processChunks s now userID insertedID sourceType chunks 0 wa with
        | mk err1 wa2 =>
          cases hp2 : processChunks s now userID insertedID sourceType chunks 0 wb with
          | mk err2 wb2 =>
            rw [hp1, hp2] at hc
            simp only at hc
            subst hc
            cases err1 with
            | some e => rfl
            | none =>
              simp only
              cases s.UpdateOne insertedID <;> rfl

/-! ## One job through the worker -/

/-- The world in which `processJobWithContext` calls the pipeline: the status entry
says `processing` and the progress event is sent. -/
def startedWorld (J : JSONCodec) (q : JobQueue) (w : World) (now : Time) (job : JobItem) :
    World :=
  if q.eventService then
    JobProgressUpdate { w with redis := updateJobStatus J w.redis now job.JobID "processing" 0 }
      now job.UserID job.JobID 0 "processing"
  else { w with redis := updateJobStatus J w.redis now job.JobID "processing" 0 }

theorem startedWorld_redis (J : JSONCodec) (q : JobQueue) (w : World) (now : Time)
    (job : JobItem) :
    (startedWorld J q w now job).redis = updateJobStatus J w.redis now job.JobID "processing" 0 := by
  unfold startedWorld; split <;> rfl

theorem startedWorld_documents (J : JSONCodec) (q : JobQueue) (w : World) (now : Time)
    (job : JobItem) : (startedWorld J q w now job).documents = w.documents := by
  unfold startedWorld; split <;> rfl

/-- The Redis client after a job went through the worker without cancellation, over a
connection without faults: the status entry is written twice, a pipeline error is
appended to the error log, and the recoverable copy is deleted. -/
theorem processJob_redis (J : JSONCodec) (q : JobQueue) (w : World) (now : Time)
    (job : JobItem) (s : Store) (hs : w.redis = ⟨s, []⟩) :
    (processJobWithContext J q w now false job).redis =
      match (ProcessFile q.documentService w now job.JobID job.UserID job.FileData job.Filename
        job.SourceType).1 with
      | none =>
        ⟨((s.put (statusKey job.JobID) (.str (statusText J now "processing" 0) (24 * 3600))).put
            (statusKey job.JobID) (.str (statusText J now "completed" 100) (24 * 3600))).erase
            (persistentKey job.JobID), []⟩
      | some err =>
        ⟨(((s.put (statusKey job.JobID) (.str (statusText J now "processing" 0) (24 * 3600))).put
            (statusKey job.JobID) (.str (statusText J now "failed" 100) (24 * 3600))).push
            (errorsKey job.JobID) err).erase (persistentKey job.JobID), []⟩ := by
  have hcongr := ProcessFile_error_congr q.documentService (startedWorld J q w now job) w now
    job.JobID job.UserID job.FileData job.Filename job.SourceType
    (startedWorld_documents J q w now job)
  obtain ⟨evs, hr, _, _, _⟩ := ProcessFile_spec q.documentService (startedWorld J q w now job)
    now job.JobID job.UserID job.FileData job.Filename job.SourceType
  rw [startedWorld_redis, hs, updateJobStatus_reliable] at hr
  rw [← hcongr]
  unfold processJobWithContext
  unfold startedWorld at hr ⊢
  simp only [Bool.false_eq_true, if_false]
  generalize ProcessFile q.documentService _ now job.JobID job.UserID job.FileData job.Filename
    job.SourceType = res at hr ⊢
  obtain ⟨err, w2⟩ := res
  simp only at hr
  cases err with
  | none =>
    simp only
    split <;> simp [JobCompleted, SendToUser, hr, updateJobStatus_reliable, Del_reliable]
  | some e =>
    simp only
    split <;> simp [JobFailed, SendToUser, hr, updateJobStatus_reliable, addJobError_reliable,
      Del_reliable]

theorem statusText_completed (J : JSONCodec) (now : Time) :
    statusText J now "completed" 100 = J.marshalStatus "completed" 100 (some now) := by
  simp [statusText]

theorem persistentCopy_erase (s : Store) (j : String) :
    persistentCopy (s.erase (persistentKey j)) j = none := by
  simp [persistentCopy, Store.find_erase]

/-- C9. For every job that `processJobWithContext` handles under a context that is
not cancelled, over a connection without faults, when the pipeline `ProcessFile`
returns no error (its result does not depend on the store, `ProcessFile_error_congr`,
so the condition is put on the world the job arrives in): afterwards the job's status
entry reads `completed` with progress 100 and no recoverable copy is stored under
`persistent_job:<jobID>`. -/
theorem C9_success_completes_job (J : JSONCodec) (q : JobQueue) (w : World) (now : Time)
    (job : JobItem) (hrel : w.redis.faults = [])
    (hok : (ProcessFile q.documentService w now job.JobID job.UserID job.FileData job.Filename
      job.SourceType).1 = none) :
    statusEntry J (processJobWithContext J q w now false job).redis.store job.JobID
        = some ⟨some "completed", some 100⟩
    ∧ persistentCopy (processJobWithContext J q w now false job).redis.store job.JobID = none := by
  have hs : w.redis = ⟨w.redis.store, []⟩ := by
    cases hw : w.redis with
    | mk st fs => rw [hw] at hrel; simp only at hrel; rw [hrel]
  rw [processJob_redis J q w now job _ hs, hok]
  simp only
  refine ⟨?_, persistentCopy_erase _ _⟩
  have h100 : float64OfInt 100 = 100 := float64OfInt_small 100 (by omega) (by norm_num)
  unfold statusEntry
  rw [Store.find_erase, Store.find_put]
  simp [persistentKey_ne_statusKey, statusText_completed,
    J.status_roundtrip _ _ _ (show (100 : Int).natAbs ≤ 2 ^ 62 by decide), h100]

/-- A document service whose collaborators all succeed; every file parses to one chunk. -/
def okService : DocumentService :=
  { Parse := fun _ _ _ => .ok (["chunk"], [])
    ObjectIDFromHex := fun u => .ok u
    InsertOne := fun _ _ => .ok "d1"
    UpdateOne := fun _ => none
    GenerateEmbedding := fun _ => .ok [1]
    Upsert := fun _ => none
    eventService := true }

/-- A document service whose parser rejects every file. -/
def failingService : DocumentService :=
  { okService with Parse := fun _ _ _ => .error "bad file" }

/-- A world whose store holds the recoverable copy of job `A` and nothing else. -/
def worldA : World :=
  { redis := RedisClient.reliable
      [(persistentKey "A", .str (RefJSON.codec.marshalJob subA.item) (7 * 24 * 3600))]
    broadcast := [], documents := [], vectors := [] }

/-- Witness for C9: job `A` through a pipeline that succeeds. -/
theorem C9_success_completes_job_witness :
    worldA.redis.faults = []
    ∧ (ProcessFile okService worldA 9 "A" "u1" [1, 2] "a.md" "standard").1 = none
    ∧ statusEntry RefJSON.codec
        (processJobWithContext RefJSON.codec ⟨okService, true⟩ worldA 9 false subA.item).redis.store
        "A" = some ⟨some "completed", some 100⟩
    ∧ persistentCopy
        (processJobWithContext RefJSON.codec ⟨okService, true⟩ worldA 9 false subA.item).redis.store
        "A" = none :=
  ⟨rfl, by decide,
    C9_success_completes_job RefJSON.codec ⟨okService, true⟩ worldA 9 subA.item rfl (by decide)⟩

/-- The `job-progress` message sent when a job starts. -/
def progressMessage (now : Time) (job : JobItem) : Message :=
  ⟨"job-progress", job.UserID,
    [("job_id", .str job.JobID), ("progress", .num 0), ("status", .str "processing"),
     ("timestamp", .num now)]⟩

/-- The `job-failed` message carrying the pipeline's error. -/
def failedMessage (now : Time) (job : JobItem) (err : Error) : Message :=
  ⟨"job-failed", job.UserID,
    [("job_id", .str job.JobID), ("error", .str err), ("timestamp", .num now)]⟩

/-- The messages sent while a job whose pipeline fails goes through the worker, when
the queue has an event service: the progress message, then what the pipeline sent
before failing (only `document:created`), then the one `job-failed` message. -/
theorem processJob_broadcast_failed (J : JSONCodec) (q : JobQueue) (w : World) (now : Time)
    (job : JobItem) (err : Error) (hev : q.eventService = true)
    (herr : (ProcessFile q.documentService w now job.JobID job.UserID job.FileData job.Filename
      job.SourceType).1 = some err) :
    ∃ evs, (processJobWithContext J q w now false job).broadcast
        = w.broadcast ++ progressMessage now job :: (evs ++ [failedMessage now job err])
      ∧ ∀ m ∈ evs, m.UserID = job.UserID ∧ m.MessageType = "document:created" := by
  have hcongr := ProcessFile_error_congr q.documentService (startedWorld J q w now job) w now
    job.JobID job.UserID job.FileData job.Filename job.SourceType
    (startedWorld_documents J q w now job)
  obtain ⟨evs, _, hb, hu, hc⟩ := ProcessFile_spec q.documentService (startedWorld J q w now job)
    now job.JobID job.UserID job.FileData job.Filename job.SourceType
  rw [hcongr, herr] at hc
  refine ⟨evs, ?_, fun m hm => ⟨(hu m hm).1, hc (by simp) m hm⟩⟩
  rw [← hcongr] at herr
  unfold processJobWithContext
  unfold startedWorld at hb herr
  simp only [Bool.false_eq_true, if_false, hev, if_true] at hb herr ⊢
  generalize ProcessFile q.documentService _ now job.JobID job.UserID job.FileData job.Filename
    job.SourceType = res at hb herr ⊢
  obtain ⟨err1, w2⟩ := res
  simp only at hb herr
  subst herr
  simp [JobFailed, SendToUser, hb, JobProgressUpdate, progressMessage, failedMessage]

/-- The messages sent while a job whose pipeline fails goes through the worker, when
the queue has no event service: only what the pipeline itself sent before failing. -/
theorem processJob_broadcast_silent (J : JSONCodec) (q : JobQueue) (w : World) (now : Time)
    (job : JobItem) (err : Error) (hev : q.eventService = false)
    (herr : (ProcessFile q.documentService w now job.JobID job.UserID job.FileData job.Filename
      job.SourceType).1 = some err) :
    ∃ evs, (processJobWithContext J q w now false job).broadcast = w.broadcast ++ evs
      ∧ ∀ m ∈ evs, m.UserID = job.UserID ∧ m.MessageType = "document:created" := by
  have hcongr := ProcessFile_error_congr q.documentService (startedWorld J q w now job) w now
    job.JobID job.UserID job.FileData job.Filename job.SourceType
    (startedWorld_documents J q w now job)
  obtain ⟨evs, _, hb, hu, hc⟩ := ProcessFile_spec q.documentService (startedWorld J q w now job)
    now job.JobID job.UserID job.FileData job.Filename job.SourceType
  rw [hcongr, herr] at hc
  refine ⟨evs, ?_, fun m hm => ⟨(hu m hm).1, hc (by simp) m hm⟩⟩
  rw [← hcongr] at herr
  unfold processJobWithContext
  unfold startedWorld at hb herr
  simp only [Bool.false_eq_true, if_false, hev] at hb herr ⊢
  generalize ProcessFile q.documentService _ now job.JobID job.UserID job.FileData job.Filename
    job.SourceType = res at hb herr ⊢
  obtain ⟨err1, w2⟩ := res
  simp only at hb herr
  subst herr
  simp [hb]

/-- C10 (as amended). For every job that `processJobWithContext` handles under a
context that is not cancelled, over a connection without faults and with the job's
error-log key not bound to a plain string, when the pipeline returns the error `err`
(its result does not depend on the store, so the condition is put on the world the
job arrives in): the status entry reads `failed` (progress 100), the error log gains
`err`, and the queue is left as it was. When the queue has an event service, the
messages sent are the progress message, then only `document:created` messages, then
exactly one `job-failed` message carrying `err`, addressed to the job's user; when it
has none, only `document:created` messages are sent, and no `job-failed` message. -/
theorem C10_failure_marks_failed (J : JSONCodec) (q : JobQueue) (w : World) (now : Time)
    (job : JobItem) (err : Error) (hrel : w.redis.faults = [])
    (hlog : w.redis.store.holdsString (errorsKey job.JobID) = false)
    (herr : (ProcessFile q.documentService w now job.JobID job.UserID job.FileData job.Filename
      job.SourceType).1 = some err) :
    statusEntry J (processJobWithContext J q w now false job).redis.store job.JobID
        = some ⟨some "failed", some 100⟩
    ∧ errorLog (processJobWithContext J q w now false job).redis.store job.JobID
        = err :: errorLog w.redis.store job.JobID
    ∧ queueOf (processJobWithContext J q w now false job).redis.store = queueOf w.redis.store
    ∧ (q.eventService = true →
        ∃ evs, (processJobWithContext J q w now false job).broadcast
            = w.broadcast ++ progressMessage now job :: (evs ++ [failedMessage now job err])
          ∧ ∀ m ∈ evs, m.UserID = job.UserID ∧ m.MessageType = "document:created")
    ∧ (q.eventService = false →
        ∃ evs, (processJobWithContext J q w now false job).broadcast = w.broadcast ++ evs
          ∧ ∀ m ∈ evs, m.UserID = job.UserID ∧ m.MessageType = "document:created") := by
  have hs : w.redis = ⟨w.redis.store, []⟩ := by
    cases hw : w.redis with
    | mk st fs => rw [hw] at hrel; simp only at hrel; rw [hrel]
  have hne : errorsKey job.JobID ≠ statusKey job.JobID := by
    intro h
    have h1 := congrArg String.data h
    simp [errorsKey, statusKey, data_append_literal] at h1
  have h100 : float64OfInt 100 = 100 := float64OfInt_small 100 (by omega) (by norm_num)
  rw [processJob_redis J q w now job _ hs, herr]
  simp only
  refine ⟨?_, ?_, ?_, fun hev => processJob_broadcast_failed J q w now job err hev herr,
    fun hev => processJob_broadcast_silent J q w now job err hev herr⟩
  · unfold statusEntry
    rw [Store.find_erase, find_push _ _ _ _ hne, Store.find_put]
    simp [persistentKey_ne_statusKey, statusText_failed,
      J.status_roundtrip _ _ _ (show (100 : Int).natAbs ≤ 2 ^ 62 by decide), h100]
  · unfold errorLog
    rw [listAt_erase_other _ _ _ (persistentKey_ne_errorsKey _ _), listAt_push_same,
      listAt_put_other _ _ _ _ hne.symm, listAt_put_other _ _ _ _ hne.symm]
    rw [← hlog]
    apply holdsString_congr
    rw [Store.find_put, Store.find_put]
    simp [hne.symm]
  · unfold queueOf
    rw [listAt_erase_other _ _ _ (persistentKey_ne_queue _),
      listAt_push_other _ _ _ _ (errorsKey_ne_queue _),
      listAt_put_other _ _ _ _ (statusKey_ne_queue _),
      listAt_put_other _ _ _ _ (statusKey_ne_queue _)]

/-- Witness for C10: job `A` through a pipeline whose parser fails. -/
theorem C10_failure_marks_failed_witness :
    worldA.redis.faults = []
    ∧ worldA.redis.store.holdsString (errorsKey "A") = false
    ∧ (ProcessFile failingService worldA 9 "A" "u1" [1, 2] "a.md" "standard").1
        = some "parsing failed: bad file"
    ∧ (processJobWithContext RefJSON.codec ⟨failingService, true⟩ worldA 9 false
        subA.item).broadcast
        = [progressMessage 9 subA.item, failedMessage 9 subA.item "parsing failed: bad file"]
    ∧ errorLog (processJobWithContext RefJSON.codec ⟨failingService, true⟩ worldA 9 false
        subA.item).redis.store "A" = ["parsing failed: bad file"] :=
  ⟨rfl, by decide, by decide, by decide,
    (C10_failure_marks_failed RefJSON.codec ⟨failingService, true⟩ worldA 9 subA.item
      "parsing failed: bad file" rfl (by decide) (by decide)).2.1⟩

/-- C10, counterexample: the queue is built without an event service (the guard
`q.eventService != nil` fails); the pipeline returns an error, the job is marked
`failed`, and no message at all is sent: no `job-failed` event reaches the user. -/
theorem C10_counterexample :
    (ProcessFile failingService worldA 9 "A" "u1" [1, 2] "a.md" "standard").1
        = some "parsing failed: bad file"
    ∧ statusOf RefJSON.codec
        (processJobWithContext RefJSON.codec ⟨failingService, false⟩ worldA 9 false
          subA.item).redis.store "A" = some "failed"
    ∧ (processJobWithContext RefJSON.codec ⟨failingService, false⟩ worldA 9 false
        subA.item).broadcast = [] := by
  decide

/-! ## Status transitions -/

/-- The operations that write to the store: a `QueueFile` call, one pass of the worker
loop (with the state of the context it observes), and a recovery pass. -/
inductive Op where
  | submit (sub : Submission)
  | work (cancelled : Bool)
  | recover

/-- The world after an operation. -/
def applyOp (J : JSONCodec) (q : JobQueue) (now : Time) (w : World) : Op → World
  | .submit sub =>
    { w with redis := (QueueFile J w.redis sub.now sub.jobID sub.userID sub.file sub.filename
        sub.sourceType).2 }
  | .work cancelled => (workerIteration J q w now cancelled).1
  | .recover => { w with redis := resumeUnprocessedJobs J w.redis now }

theorem statusOf_congr (J : JSONCodec) (s1 s2 : Store) (j : String)
    (h : s1.find (statusKey j) = s2.find (statusKey j)) : statusOf J s1 j = statusOf J s2 j := by
  simp only [statusOf, statusEntry, h]

theorem statusOf_put (J : JSONCodec) (s : Store) (j st : String) (p : Int) (now : Time)
    (hp : p.natAbs ≤ 2 ^ 62) :
    statusOf J (s.put (statusKey j) (.str (statusText J now st p) (24 * 3600))) j = some st := by
  simp [statusOf, statusEntry, Store.find_put, statusText, J.status_roundtrip _ _ _ hp]

theorem reliable_eta (r : RedisClient) (h : r.faults = []) : r = ⟨r.store, []⟩ := by
  cases r with
  | mk st fs => simp only at h; rw [h]

/-- A `QueueFile` call never changes a status entry. -/
theorem submit_keeps_status (J : JSONCodec) (r : RedisClient) (sub : Submission) (j : String)
    (hrel : r.faults = []) :
    statusOf J (QueueFile J r sub.now sub.jobID sub.userID sub.file sub.filename
      sub.sourceType).2.store j = statusOf J r.store j := by
  apply statusOf_congr
  rw [reliable_eta r hrel]
  unfold QueueFile
  cases sub.file with
  | error e => rfl
  | ok data =>
    simp only [Set_reliable, LPush_reliable]
    rw [find_push _ _ _ _ (statusKey_ne_queue j).symm, Store.find_put]
    simp [persistentKey_ne_statusKey]

theorem recoveryOf_acts (J : JSONCodec) (s : Store) (j : String)
    (h : recoveryOf J s (statusKey j) ≠ .skip) : statusOf J s j = some "processing" := by
  unfold recoveryOf at h
  unfold statusOf statusEntry
  by_cases he : isErrorsKey (statusKey j) = true
  · simp [he] at h
  · simp only [he, Bool.false_eq_true, if_false] at h
    cases hk : s.find (statusKey j) with
    | none => simp [hk] at h
    | some val =>
      cases val with
      | list xs => simp [hk] at h
      | str v t =>
        simp only [hk] at h ⊢
        cases hm : J.unmarshalMap v with
        | error e => simp [hm] at h
        | ok m =>
          simp only [hm] at h ⊢
          by_cases hp : m.status = some "processing"
          · exact hp
          · simp [hp] at h

/-- A recovery pass changes a status entry only from `processing`, and then to
`pending` or `failed`. -/
theorem recover_status (J : JSONCodec) (now : Time) (s : Store) (j : String)
    (hj : isErrorsKey (statusKey j) = false) :
    statusOf J (resumeUnprocessedJobs J (RedisClient.reliable s) now).store j = statusOf J s j
    ∨ (statusOf J s j = some "processing"
      ∧ (statusOf J (resumeUnprocessedJobs J (RedisClient.reliable s) now).store j = some "pending"
        ∨ statusOf J (resumeUnprocessedJobs J (RedisClient.reliable s) now).store j
            = some "failed")) := by
  rw [resume_store_eq]
  by_cases hex : (s.find (statusKey j)).isSome = true
  · have h1 := (resume_job J now s j hj hex).1
    rw [statusOf_congr J _ (resumeStore J now s (statusKey j)) j h1]
    unfold resumeStore
    cases hr : recoveryOf J s (statusKey j) with
    | skip => exact Or.inl rfl
    | requeue job =>
      refine Or.inr ⟨recoveryOf_acts J s j (by rw [hr]; simp), Or.inl ?_⟩
      simp only [sliceFrom_statusKey]
      rw [statusOf_congr J _ _ j (find_push _ _ _ _ (statusKey_ne_queue j).symm), statusOf_put _ _ _ _ _ _ (by decide)]
    | lost =>
      refine Or.inr ⟨recoveryOf_acts J s j (by rw [hr]; simp), Or.inr ?_⟩
      simp only [sliceFrom_statusKey]
      rw [statusOf_congr J _ _ j (find_push _ _ _ _
        (isErrorsKey_ne (isErrorsKey_errorsKey j) hj)), statusOf_put _ _ _ _ _ _ (by decide)]
  · left
    apply statusOf_congr
    apply foldl_find_frame
    intro k hk c1
    have hk2 := (mem_jobKeys s k).mp hk
    exact resumeStore_find_status J now c1 k j hk2.2 hj (fun h => hex (h ▸ hk2.1))

/-- A pop over a connection without faults: it fails and changes nothing, or it
returns the right-most element of the queue and changes no other key. -/
theorem BRPop_reliable (s : Store) (timeout : Nat) :
    (∃ e, RedisClient.BRPop ⟨s, []⟩ timeout "job_queue" = (.error e, ⟨s, []⟩))
    ∨ ∃ x s1, (queueOf s).getLast? = some x
        ∧ RedisClient.BRPop ⟨s, []⟩ timeout "job_queue" = (.ok ["job_queue", x], ⟨s1, []⟩)
        ∧ ∀ key, key ≠ "job_queue" → s1.find key = s.find key := by
  unfold RedisClient.BRPop RedisClient.nextFault queueOf Store.listAt
  simp only [Bool.false_eq_true, if_false]
  cases hk : s.find "job_queue" with
  | none => exact Or.inl ⟨_, rfl⟩
  | some val =>
    cases val with
    | str a b => exact Or.inl ⟨_, rfl⟩
    | list xs =>
      simp only
      cases hl : xs.getLast? with
      | none => exact Or.inl ⟨_, rfl⟩
      | some x =>
        right
        by_cases hd : xs.dropLast = []
        · exact ⟨x, s.erase "job_queue", rfl, by simp [hd], fun key hne => by
            rw [Store.find_erase]; simp [Ne.symm hne]⟩
        · exact ⟨x, s.put "job_queue" (.list xs.dropLast), rfl, by simp [hd], fun key hne => by
            rw [Store.find_put]; simp [Ne.symm hne]⟩

/-- The Redis client after a job met a cancelled context: the status entry says
`processing` and the item is pushed again. -/
theorem processJob_cancelled_redis (J : JSONCodec) (q : JobQueue) (w : World) (now : Time)
    (job : JobItem) (s : Store) (hs : w.redis = ⟨s, []⟩) :
    (processJobWithContext J q w now true job).redis =
      ⟨(s.put (statusKey job.JobID) (.str (statusText J now "processing" 0) (24 * 3600))).push
        "job_queue" (J.marshalJob { job with Status := "processing" }), []⟩ := by
  unfold processJobWithContext
  simp only [if_true, hs, updateJobStatus_reliable]
  split <;> simp [JobProgressUpdate, SendToUser, LPush_reliable]

theorem statusOf_erase_persistent (J : JSONCodec) (s : Store) (k j : String) :
    statusOf J (s.erase (persistentKey k)) j = statusOf J s j :=
  statusOf_congr J _ _ j (by rw [Store.find_erase]; simp [persistentKey_ne_statusKey])

theorem statusOf_push_errors (J : JSONCodec) (s : Store) (k v j : String)
    (hj : isErrorsKey (statusKey j) = false) :
    statusOf J (s.push (errorsKey k) v) j = statusOf J s j :=
  statusOf_congr J _ _ j (find_push _ _ _ _ (isErrorsKey_ne (isErrorsKey_errorsKey _) hj))

theorem statusOf_push_queue (J : JSONCodec) (s : Store) (v j : String) :
    statusOf J (s.push "job_queue" v) j = statusOf J s j :=
  statusOf_congr J _ _ j (find_push _ _ _ _ (statusKey_ne_queue j).symm)

/-- One pass of the worker changes a job's status entry only when it dequeues an item
carrying that job ID, and then to `processing` (context cancelled) or to `completed`
or `failed` (pipeline run). -/
theorem work_status (J : JSONCodec) (q : JobQueue) (w : World) (now : Time) (cancelled : Bool)
    (j : String) (hrel : w.redis.faults = []) (hj : isErrorsKey (statusKey j) = false) :
    statusOf J (workerIteration J q w now cancelled).1.redis.store j = statusOf J w.redis.store j
    ∨ ∃ x job, (queueOf w.redis.store).getLast? = some x ∧ J.unmarshalJob x = .ok job
        ∧ job.JobID = j
        ∧ ((cancelled = true
            ∧ statusOf J (workerIteration J q w now cancelled).1.redis.store j
                = some "processing")
          ∨ (cancelled = false
            ∧ (statusOf J (workerIteration J q w now cancelled).1.redis.store j
                  = some "completed"
              ∨ statusOf J (workerIteration J q w now cancelled).1.redis.store j
                  = some "failed"))) := by
  have hs := reliable_eta w.redis hrel
  unfold workerIteration
  rw [hs]
  rcases BRPop_reliable w.redis.store 2 with ⟨e, hpop⟩ | ⟨x, s1, hlast, hpop, hframe⟩
  · rw [hpop]; exact Or.inl rfl
  · rw [hpop]
    have hs1 : statusOf J s1 j = statusOf J w.redis.store j :=
      statusOf_congr J _ _ j (hframe _ (statusKey_ne_queue j))
    simp only [List.length_cons, List.length_nil, Nat.reduceAdd, Nat.lt_irrefl, if_false,
      List.getD_cons_succ, List.getD_cons_zero]
    cases hdec : J.unmarshalJob x with
    | error e => exact Or.inl hs1
    | ok job =>
      simp only
      by_cases hid : job.JobID = j
      · right
        refine ⟨x, job, hlast, hdec, hid, ?_⟩
        cases cancelled with
        | true =>
          left
          rw [processJob_cancelled_redis J q _ now job s1 rfl]
          refine ⟨rfl, ?_⟩
          simp only
          rw [statusOf_push_queue, hid, statusOf_put _ _ _ _ _ _ (by decide)]
        | false =>
          right
          refine ⟨rfl, ?_⟩
          rw [processJob_redis J q _ now job s1 rfl]
          split
          · left
            simp only
            rw [statusOf_erase_persistent, hid, statusOf_put _ _ _ _ _ _ (by decide)]
          · right
            simp only
            rw [statusOf_erase_persistent, statusOf_push_errors _ _ _ _ _ hj, hid, statusOf_put _ _ _ _ _ _ (by decide)]
      · left
        rw [← hs1]
        have hne : statusKey job.JobID ≠ statusKey j := fun h => hid (statusKey_injective h)
        apply statusOf_congr
        cases cancelled with
        | true =>
          rw [processJob_cancelled_redis J q _ now job s1 rfl]
          simp only
          rw [find_push _ _ _ _ (statusKey_ne_queue j).symm, Store.find_put]
          simp [hne]
        | false =>
          rw [processJob_redis J q _ now job s1 rfl]
          split
          · simp only
            rw [Store.find_erase, Store.find_put, Store.find_put]
            simp [persistentKey_ne_statusKey, hne]
          · simp only
            rw [Store.find_erase, find_push _ _ _ _
              (isErrorsKey_ne (isErrorsKey_errorsKey _) hj), Store.find_put, Store.find_put]
            simp [persistentKey_ne_statusKey, hne]

/-- A pop over a connection without faults from a queue that has a right-most element:
it returns that element and changes no other key. -/
theorem BRPop_reliable_some (s : Store) (timeout : Nat) (x : String)
    (h : (queueOf s).getLast? = some x) :
    ∃ s1, RedisClient.BRPop ⟨s, []⟩ timeout "job_queue" = (.ok ["job_queue", x], ⟨s1, []⟩)
      ∧ ∀ key, key ≠ "job_queue" → s1.find key = s.find key := by
  rcases BRPop_reliable s timeout with ⟨e, hpop⟩ | ⟨y, s1, hlast, hpop, hframe⟩
  · exfalso
    unfold RedisClient.BRPop RedisClient.nextFault at hpop
    unfold queueOf Store.listAt at h
    simp only [Bool.false_eq_true, if_false] at hpop
    cases hk : s.find "job_queue" with
    | none => simp [hk] at h
    | some val =>
      cases val with
      | str a b => simp [hk] at h
      | list xs =>
        simp only [hk] at h hpop
        rw [h] at hpop
        simp only at hpop
        split at hpop <;> simp at hpop
  · rw [h] at hlast
    rw [← Option.some.inj hlast] at hpop
    exact ⟨s1, hpop, hframe⟩

/-- A pass of the worker that dequeues an item carrying the job ID `j` ends with the
status entry of `j` at `processing` when the context is cancelled and at `completed`
or `failed` otherwise, whatever the entry was. -/
theorem work_status_dequeued (J : JSONCodec) (q : JobQueue) (w : World) (now : Time)
    (cancelled : Bool) (j x : String) (job : JobItem) (hrel : w.redis.faults = [])
    (hj : isErrorsKey (statusKey j) = false)
    (hlast : (queueOf w.redis.store).getLast? = some x) (hdec : J.unmarshalJob x = .ok job)
    (hid : job.JobID = j) :
    (cancelled = true →
      statusOf J (workerIteration J q w now cancelled).1.redis.store j = some "processing")
    ∧ (cancelled = false →
      (statusOf J (workerIteration J q w now cancelled).1.redis.store j = some "completed"
        ∨ statusOf J (workerIteration J q w now cancelled).1.redis.store j = some "failed")) := by
  have hs := reliable_eta w.redis hrel
  obtain ⟨s1, hpop, _⟩ := BRPop_reliable_some w.redis.store 2 x hlast
  unfold workerIteration
  rw [hs, hpop]
  simp only [List.length_cons, List.length_nil, Nat.reduceAdd, Nat.lt_irrefl, if_false,
    List.getD_cons_succ, List.getD_cons_zero, hdec]
  constructor
  · intro hc
    subst hc
    rw [processJob_cancelled_redis J q _ now job s1 rfl]
    simp only
    rw [statusOf_push_queue, hid, statusOf_put _ _ _ _ _ _ (by decide)]
  · intro hc
    subst hc
    rw [processJob_redis J q _ now job s1 rfl]
    split
    · left
      simp only
      rw [statusOf_erase_persistent, hid, statusOf_put _ _ _ _ _ _ (by decide)]
    · right
      simp only
      rw [statusOf_erase_persistent, statusOf_push_errors _ _ _ _ _ hj, hid,
        statusOf_put _ _ _ _ _ _ (by decide)]

/-- C8 (as amended). Over a connection without faults, for a job whose status key is
not taken for an error-log key, each operation moves the job's status as follows.
A `QueueFile` call leaves it as it is. A recovery pass leaves it as it is or takes it
from `processing` to `pending` or `failed`. A pass of the worker that dequeues an item
carrying this job ID leaves the status at `processing` when the context is cancelled
and at `completed` or `failed` otherwise, whatever the status was before; a pass that
dequeues nothing, or an item that does not decode to this job ID, leaves the status as
it is. No operation replaces `completed` or `failed` by `pending`; the worker replaces
them by `processing` when it dequeues another item with the same job ID under a
cancelled context. -/
theorem C8_status_transitions (J : JSONCodec) (q : JobQueue) (now : Time) (w : World) (op : Op)
    (j : String) (hrel : w.redis.faults = []) (hj : isErrorsKey (statusKey j) = false) :
    (match op with
      | .submit _ =>
        statusOf J (applyOp J q now w op).redis.store j = statusOf J w.redis.store j
      | .recover =>
        statusOf J (applyOp J q now w op).redis.store j = statusOf J w.redis.store j
        ∨ (statusOf J w.redis.store j = some "processing"
          ∧ (statusOf J (applyOp J q now w op).redis.store j = some "pending"
            ∨ statusOf J (applyOp J q now w op).redis.store j = some "failed"))
      | .work cancelled =>
        (∀ x job, (queueOf w.redis.store).getLast? = some x → J.unmarshalJob x = .ok job →
          job.JobID = j →
          (cancelled = true →
            statusOf J (applyOp J q now w op).redis.store j = some "processing")
          ∧ (cancelled = false →
            (statusOf J (applyOp J q now w op).redis.store j = some "completed"
              ∨ statusOf J (applyOp J q now w op).redis.store j = some "failed")))
        ∧ ((∀ x job, (queueOf w.redis.store).getLast? = some x → J.unmarshalJob x = .ok job →
              job.JobID ≠ j) →
            statusOf J (applyOp J q now w op).redis.store j = statusOf J w.redis.store j))
    ∧ ((statusOf J w.redis.store j = some "completed"
          ∨ statusOf J w.redis.store j = some "failed") →
        statusOf J (applyOp J q now w op).redis.store j ≠ some "pending") := by
  have hs := reliable_eta w.redis hrel
  cases op with
  | submit sub =>
    have h := submit_keeps_status J w.redis sub j hrel
    refine ⟨h, ?_⟩
    intro hb
    show statusOf J (QueueFile J w.redis sub.now sub.jobID sub.userID sub.file sub.filename
      sub.sourceType).2.store j ≠ _
    rw [h]
    rcases hb with hb | hb <;> rw [hb] <;> decide
  | recover =>
    have h := recover_status J now w.redis.store j hj
    simp only [RedisClient.reliable, ← hs] at h
    refine ⟨h, ?_⟩
    intro hb
    show statusOf J (resumeUnprocessedJobs J w.redis now).store j ≠ _
    rcases h with h | ⟨h, _⟩
    · rw [h]; rcases hb with hb | hb <;> rw [hb] <;> decide
    · rcases hb with hb | hb <;> rw [hb] at h <;> exact absurd h (by decide)
  | work cancelled =>
    have h := work_status J q w now cancelled j hrel hj
    refine ⟨⟨?_, ?_⟩, ?_⟩
    · intro x job hlast hdec hid
      exact work_status_dequeued J q w now cancelled j x job hrel hj hlast hdec hid
    · intro hother
      show statusOf J (workerIteration J q w now cancelled).1.redis.store j = _
      rcases h with h | ⟨x, job, hlast, hdec, hid, _⟩
      · exact h
      · exact absurd hid (hother x job hlast hdec)
    · intro hb
      show statusOf J (workerIteration J q w now cancelled).1.redis.store j ≠ _
      rcases h with h | ⟨x, job, _, _, _, h⟩
      · rw [h]; rcases hb with hb | hb <;> rw [hb] <;> decide
      · rcases h with ⟨_, h⟩ | ⟨_, h | h⟩ <;> rw [h] <;> decide

/-- A world in which job `A` is `completed` and an item of job `A` is on the queue. -/
def worldDone : World :=
  { redis := RedisClient.reliable
      [(statusKey "A", .str (RefJSON.codec.marshalStatus "completed" 100 (some 5)) (24 * 3600)),
       ("job_queue", .list [RefJSON.codec.marshalJob subA.item])]
    broadcast := [], documents := [], vectors := [] }

/-- Witness for C8: the worker dequeues an item of the completed job `A` under a
cancelled context, and the status entry of `A` reads `processing` afterwards, not
`pending`. -/
theorem C8_status_transitions_witness :
    worldDone.redis.faults = []
    ∧ isErrorsKey (statusKey "A") = false
    ∧ statusOf RefJSON.codec worldDone.redis.store "A" = some "completed"
    ∧ (queueOf worldDone.redis.store).getLast? = some (RefJSON.codec.marshalJob subA.item)
    ∧ RefJSON.codec.unmarshalJob (RefJSON.codec.marshalJob subA.item) = .ok subA.item
    ∧ subA.item.JobID = "A"
    ∧ statusOf RefJSON.codec
        (applyOp RefJSON.codec ⟨okService, true⟩ 9 worldDone (.work true)).redis.store "A"
        = some "processing"
    ∧ statusOf RefJSON.codec
        (applyOp RefJSON.codec ⟨okService, true⟩ 9 worldDone (.work true)).redis.store "A"
        ≠ some "pending" :=
  ⟨rfl, by decide, by decide, by decide, RefJSON.codec.job_roundtrip _, rfl,
    ((C8_status_transitions RefJSON.codec ⟨okService, true⟩ 9 worldDone (.work true) "A" rfl
      (by decide)).1.1 _ subA.item (by decide) (RefJSON.codec.job_roundtrip _) rfl).1 rfl,
    (C8_status_transitions RefJSON.codec ⟨okService, true⟩ 9 worldDone (.work true) "A" rfl
      (by decide)).2 (Or.inl (by decide))⟩

/-- A sequence of operations, applied from left to right. -/
def runOps (J : JSONCodec) (q : JobQueue) (now : Time) (ops : List Op) (w : World) : World :=
  ops.foldl (applyOp J q now) w

/-- The world with an empty store. -/
def emptyWorld : World :=
  { redis := RedisClient.reliable [], broadcast := [], documents := [], vectors := [] }

/-- C8, counterexample: job `A` is submitted once. The worker dequeues it while the
context is cancelled and pushes it back; recovery finds it in `processing` and queues
it again, so the queue holds two items for the job. The worker processes one and the
status is `completed`; it then dequeues the other (the context being cancelled again)
and the status entry reads `processing`: a terminal status was replaced. -/
theorem C8_counterexample :
    statusOf RefJSON.codec
        (runOps RefJSON.codec ⟨okService, true⟩ 9
          [.submit subA, .work true, .recover, .work false] emptyWorld).redis.store "A"
        = some "completed"
    ∧ statusOf RefJSON.codec
        (runOps RefJSON.codec ⟨okService, true⟩ 9
          [.submit subA, .work true, .recover, .work false, .work true]
          emptyWorld).redis.store "A"
        = some "processing" := by
  decide


/-! ## Claim C11: a job that meets a cancelled context -/

/-- A job that meets a cancelled context does not reach the pipeline: no document is
inserted, no vector is upserted, and the only message sent is the progress message
(when the queue has an event service). -/
theorem processJob_cancelled_world (J : JSONCodec) (q : JobQueue) (w : World) (now : Time)
    (job : JobItem) :
    (processJobWithContext J q w now true job).documents = w.documents
    ∧ (processJobWithContext J q w now true job).vectors = w.vectors
    ∧ (processJobWithContext J q w now true job).broadcast
        = w.broadcast ++ (if q.eventService then [progressMessage now job] else []) := by
  unfold processJobWithContext
  simp only [if_true]
  split <;> simp [JobProgressUpdate, SendToUser, progressMessage]

/-- The item pushed back for a job that meets a cancelled context, over a connection
without faults and with the queue key not bound to a plain string: the dequeued item
with its status set to `processing`, at the left end of the queue; the job's status
entry reads `processing`. -/
theorem processJob_cancelled_queue (J : JSONCodec) (q : JobQueue) (w : World) (now : Time)
    (job : JobItem) (hrel : w.redis.faults = [])
    (hq : w.redis.store.holdsString "job_queue" = false) :
    queueOf (processJobWithContext J q w now true job).redis.store
        = J.marshalJob { job with Status := "processing" } :: queueOf w.redis.store
    ∧ statusOf J (processJobWithContext J q w now true job).redis.store job.JobID
        = some "processing" := by
  rw [processJob_cancelled_redis J q w now job _ (reliable_eta w.redis hrel)]
  simp only
  constructor
  · unfold queueOf
    rw [listAt_push_same, listAt_put_other _ _ _ _ (statusKey_ne_queue _)]
    rw [← hq]
    exact holdsString_congr _ _ _ (by rw [Store.find_put]; simp [statusKey_ne_queue])
  · rw [statusOf_push_queue, statusOf_put _ _ _ _ _ _ (by decide)]

/-- C11, the failing run. Job `A` is submitted to an empty store (its item has status
`pending`); the worker dequeues it while the context is cancelled. The pipeline is
not run (no document, no vector) and the status entry reads `processing`, not
`failed`, but the item pushed back is not the item that was dequeued: its status
field is `processing`. -/
theorem C11_requeued_item_has_status_processing :
    (runOps RefJSON.codec ⟨okService, true⟩ 9 [.submit subA] emptyWorld).redis.store.listAt
        "job_queue" = [RefJSON.codec.marshalJob subA.item]
    ∧ subA.item.Status = "pending"
    ∧ queueOf (runOps RefJSON.codec ⟨okService, true⟩ 9 [.submit subA, .work true]
        emptyWorld).redis.store
        = [RefJSON.codec.marshalJob { subA.item with Status := "processing" }]
    ∧ RefJSON.codec.marshalJob { subA.item with Status := "processing" }
        ≠ RefJSON.codec.marshalJob subA.item
    ∧ (runOps RefJSON.codec ⟨okService, true⟩ 9 [.submit subA, .work true]
        emptyWorld).documents = []
    ∧ (runOps RefJSON.codec ⟨okService, true⟩ 9 [.submit subA, .work true]
        emptyWorld).vectors = []
    ∧ statusOf RefJSON.codec (runOps RefJSON.codec ⟨okService, true⟩ 9
        [.submit subA, .work true] emptyWorld).redis.store "A" = some "processing" := by
  decide


/-! ## Claim C12: the events of a successful job -/

/-- The `document:created` message for a document. -/
def createdMessage (now : Time) (userID : String) (doc : Document) : Message :=
  ⟨"document:created", userID, [("document", .doc doc), ("timestamp", .num now)]⟩

/-- The `job-completed` message for a job. -/
def completedMessage (now : Time) (userID jobID : String) : Message :=
  ⟨"job-completed", userID, [("job_id", .str jobID), ("timestamp", .num now)]⟩

/-- The messages of a pipeline run that succeeds, when the document service has an
event service: one `document:created` and then one `job-completed`, the latter sent by
`ProcessFile` itself. -/
theorem ProcessFile_success_events (s : DocumentService) (w : World) (now : Time)
    (jobID userID : String) (file : List Byte) (filename sourceType : String)
    (hev : s.eventService = true)
    (hok : (ProcessFile s w now jobID userID file filename sourceType).1 = none) :
    ∃ doc, (ProcessFile s w now jobID userID file filename sourceType).2.broadcast
      = w.broadcast ++ [createdMessage now userID doc, completedMessage now userID jobID] := by
  unfold ProcessFile at hok ⊢
  cases hparse : s.Parse (selectParser sourceType) file filename with
  | error e => rw [hparse] at hok; simp at hok
  | ok p =>
    obtain ⟨chunks, metadata⟩ := p
    rw [hparse] at hok
    simp only at hok ⊢
    cases hoid : s.ObjectIDFromHex userID with
    | error e => rw [hoid] at hok; simp at hok
    | ok uid =>
      rw [hoid] at hok
      simp only at hok ⊢
      cases hins : s.InsertOne w.documents _ with
      | error e => rw [hins] at hok; simp at hok
      | ok insertedID =>
        rw [hins] at hok
        simp only [hev, if_true] at hok ⊢
        refine ⟨⟨insertedID, uid, getTitle metadata filename, sourceType, chunks.length, now,
          metadata, "processing_chunks"⟩, ?_⟩
        generalize hw1 : DocumentCreated _ now userID _ = w1 at hok ⊢
        have hb1 : w1.broadcast = w.broadcast ++ [createdMessage now userID
            ⟨insertedID, uid, getTitle metadata filename, sourceType, chunks.length, now,
              metadata, "processing_chunks"⟩] := by
          rw [← hw1]; rfl
        obtain ⟨_, hf2, _⟩ := processChunks_frame s now userID insertedID sourceType chunks 0 w1
        generalize processChunks s now userID insertedID sourceType chunks 0 w1 = res
          at hok hf2 ⊢
        obtain ⟨err, w2⟩ := res
        simp only at hf2
        cases err with
        | some e => simp at hok
        | none =>
          simp only at hok ⊢
          cases hup : s.UpdateOne insertedID with
          | some e => rw [hup] at hok; simp at hok
          | none =>
            simp only [JobCompleted, SendToUser, hf2, hb1, completedMessage,
              List.append_assoc, List.singleton_append]

/-- The messages sent while a job whose pipeline succeeds goes through the worker,
when both the queue and the document service have their event service: the progress
message, `document:created`, and then `job-completed` twice, once from `ProcessFile`
and once from `processJobWithContext`. -/
theorem processJob_broadcast_completed (J : JSONCodec) (q : JobQueue) (w : World) (now : Time)
    (job : JobItem) (hev : q.eventService = true) (hdev : q.documentService.eventService = true)
    (hok : (ProcessFile q.documentService w now job.JobID job.UserID job.FileData job.Filename
      job.SourceType).1 = none) :
    ∃ doc, (processJobWithContext J q w now false job).broadcast
      = w.broadcast ++ [progressMessage now job, createdMessage now job.UserID doc,
          completedMessage now job.UserID job.JobID, completedMessage now job.UserID job.JobID] := by
  have hcongr := ProcessFile_error_congr q.documentService (startedWorld J q w now job) w now
    job.JobID job.UserID job.FileData job.Filename job.SourceType
    (startedWorld_documents J q w now job)
  rw [← hcongr] at hok
  obtain ⟨doc, hb⟩ := ProcessFile_success_events q.documentService (startedWorld J q w now job)
    now job.JobID job.UserID job.FileData job.Filename job.SourceType hdev hok
  refine ⟨doc, ?_⟩
  unfold processJobWithContext
  unfold startedWorld at hb hok
  simp only [Bool.false_eq_true, if_false, hev, if_true] at hb hok ⊢
  generalize ProcessFile q.documentService _ now job.JobID job.UserID job.FileData job.Filename
    job.SourceType = res at hb hok ⊢
  obtain ⟨err1, w2⟩ := res
  simp only at hb hok
  subst hok
  simp [JobCompleted, SendToUser, hb, JobProgressUpdate, progressMessage, completedMessage]

/-- C12, the failing run. Job `A` goes through the worker with a pipeline that succeeds,
the queue and the document service sharing an event service as `main` wires them.
The messages sent to the job's user are the progress message, `document:created`, and
`job-completed` twice: the completion event does not occur once. -/
theorem C12_job_completed_is_sent_twice :
    (ProcessFile okService worldA 9 "A" "u1" [1, 2] "a.md" "standard").1 = none
    ∧ (processJobWithContext RefJSON.codec ⟨okService, true⟩ worldA 9 false subA.item).broadcast
      = [progressMessage 9 subA.item,
         createdMessage 9 "u1" ⟨"d1", "u1", "a.md", "standard", 1, 9, [], "processing_chunks"⟩,
         completedMessage 9 "u1" "A", completedMessage 9 "u1" "A"] := by
  decide


/-! ## Claim C13: the chunk loop -/

/-- The vector `processChunk` builds for a chunk (with no components when the
embedding fails, a case in which it is never used). -/
def chunkVector (s : DocumentService) (now : Time) (userID docID sourceType content : String)
    (index : Nat) : Vector :=
  { ID := docID ++ "_" ++ toString index
    Values := match s.GenerateEmbedding content with
      | .ok embedding => embedding
      | .error _ => []
    Metadata :=
      [("user_id", .str userID), ("document_id", .str docID), ("content", .str content),
       ("chunk_index", .num index), ("created_at", .num now), ("source_type", .str sourceType)] }

/-- The error with which embedding or upserting a chunk fails, if either does. -/
def chunkFails (s : DocumentService) (now : Time) (userID docID sourceType content : String)
    (index : Nat) : Option Error :=
  match s.GenerateEmbedding content with
  | .error err => some err
  | .ok _ => s.Upsert (chunkVector s now userID docID sourceType content index)

/-- The world with further vectors upserted. -/
def addVectors (w : World) (vs : List Vector) : World :=
  { w with vectors := w.vectors ++ vs }

theorem processChunk_eq (s : DocumentService) (w : World) (now : Time)
    (userID docID content : String) (index : Nat) (sourceType : String) :
    processChunk s w now userID docID content index sourceType =
      match chunkFails s now userID docID sourceType content index with
      | some err => (some err, w)
      | none => (none, addVectors w [chunkVector s now userID docID sourceType content index]) := by
  unfold processChunk chunkFails chunkVector addVectors
  cases hg : s.GenerateEmbedding content with
  | error e => rfl
  | ok emb =>
    simp only

/-- The vectors of a run of chunks that starts at index `i`. -/
def chunkVectors (s : DocumentService) (now : Time) (userID docID sourceType : String)
    (chunks : List String) (i : Nat) : List Vector :=
  (chunks.enumFrom i).map (fun p => chunkVector s now userID docID sourceType p.2 p.1)

/-- The loop stops at the first chunk that fails: the chunks before it are upserted
in order, the error is returned, and what follows the failing chunk plays no part. -/
theorem processChunks_first_failure (s : DocumentService) (now : Time)
    (userID docID sourceType : String) (pre : List String) (c : String) (rest : List String)
    (err : Error) (i : Nat) (w : World)
    (hpre : ∀ k content, pre.get? k = some content →
      chunkFails s now userID docID sourceType content (i + k) = none)
    (hfail : chunkFails s now userID docID sourceType c (i + pre.length) = some err) :
    processChunks s now userID docID sourceType (pre ++ c :: rest) i w
      = (some err, addVectors w (chunkVectors s now userID docID sourceType pre i)) := by
  induction pre generalizing i w with
  | nil =>
    simp only [List.nil_append, processChunks, processChunk_eq]
    simp only [List.length_nil, Nat.add_zero] at hfail
    rw [hfail]
    simp [chunkVectors, addVectors]
  | cons p pre ih =>
    have hp := hpre 0 p rfl
    simp only [Nat.add_zero] at hp
    simp only [List.cons_append, processChunks, processChunk_eq, hp]
    show processChunks s now userID docID sourceType (pre ++ c :: rest) (i + 1) _ = _
    rw [ih (i + 1)]
    · simp [chunkVectors, List.enumFrom_cons, addVectors]
    · intro k content hk
      have := hpre (k + 1) content (by simpa using hk)
      rw [← this]; congr 1; omega
    · rw [← hfail]; congr 1; simp; omega

/-- When no chunk fails the loop upserts one vector per chunk, in order. -/
theorem processChunks_all_succeed (s : DocumentService) (now : Time)
    (userID docID sourceType : String) (chunks : List String) (i : Nat) (w : World)
    (hall : ∀ k content, chunks.get? k = some content →
      chunkFails s now userID docID sourceType content (i + k) = none) :
    processChunks s now userID docID sourceType chunks i w
      = (none, addVectors w (chunkVectors s now userID docID sourceType chunks i)) := by
  induction chunks generalizing i w with
  | nil => simp [processChunks, chunkVectors, addVectors]
  | cons p rest ih =>
    have hp := hall 0 p rfl
    simp only [Nat.add_zero] at hp
    simp only [processChunks, processChunk_eq, hp]
    rw [ih (i + 1)]
    · simp [chunkVectors, List.enumFrom_cons, addVectors]
    · intro k content hk
      have := hall (k + 1) content (by simpa using hk)
      rw [← this]; congr 1; omega

/-- The IDs of the vectors of a run of chunks: `<docID>_<index>` for the successive
indices. -/
theorem chunkVectors_ids (s : DocumentService) (now : Time) (userID docID sourceType : String)
    (chunks : List String) (i : Nat) :
    (chunkVectors s now userID docID sourceType chunks i).map (fun v => v.ID)
      = (List.range' i chunks.length).map (fun k => docID ++ "_" ++ toString k) := by
  induction chunks generalizing i with
  | nil => simp [chunkVectors]
  | cons p rest ih =>
    have := ih (i + 1)
    simp only [chunkVectors, List.enumFrom_cons, List.map_cons, List.length_cons,
      List.range'_succ] at this ⊢
    rw [this]
    simp [chunkVector]

/-- C13. For every list of chunks that the parser yields, once the user ID is valid
and the document is inserted with ID `docID`, `ProcessFile` handles the chunks in
increasing index order from 0 and stops at the first failure. If the chunks before
`c` succeed and embedding or upserting `c` (at index `pre.length`) fails with `err`,
`ProcessFile` returns `err`, and the vectors upserted are exactly those of the chunks
before `c`, in order, with IDs `<docID>_0 … <docID>_(k-1)`; the chunks after `c` play
no part in the result. If no chunk fails, exactly one vector `<docID>_i` is upserted
for each index `i`, in order. -/
theorem C13_chunks_in_order_until_first_failure (s : DocumentService) (w : World) (now : Time)
    (jobID userID : String) (file : List Byte) (filename sourceType : String)
    (chunks : List String) (metadata : List (String × MVal)) (uid docID : String)
    (hparse : s.Parse (selectParser sourceType) file filename = .ok (chunks, metadata))
    (hoid : s.ObjectIDFromHex userID = .ok uid)
    (hins : s.InsertOne w.documents ⟨"", uid, getTitle metadata filename, sourceType,
      chunks.length, now, metadata, "processing_chunks"⟩ = .ok docID) :
    (∀ pre c rest err, chunks = pre ++ c :: rest →
      (∀ k content, pre.get? k = some content →
        chunkFails s now userID docID sourceType content (0 + k) = none) →
      chunkFails s now userID docID sourceType c (0 + pre.length) = some err →
      (ProcessFile s w now jobID userID file filename sourceType).1 = some err
      ∧ (ProcessFile s w now jobID userID file filename sourceType).2.vectors
          = w.vectors ++ chunkVectors s now userID docID sourceType pre 0
      ∧ (chunkVectors s now userID docID sourceType pre 0).map (fun v => v.ID)
          = (List.range' 0 pre.length).map (fun k => docID ++ "_" ++ toString k))
    ∧ ((∀ k content, chunks.get? k = some content →
        chunkFails s now userID docID sourceType content (0 + k) = none) →
      (ProcessFile s w now jobID userID file filename sourceType).2.vectors
          = w.vectors ++ chunkVectors s now userID docID sourceType chunks 0
      ∧ (chunkVectors s now userID docID sourceType chunks 0).map (fun v => v.ID)
          = (List.range' 0 chunks.length).map (fun k => docID ++ "_" ++ toString k)) := by
  constructor
  · intro pre c rest err hsplit hpre hfail
    refine ⟨?_, ?_, chunkVectors_ids _ _ _ _ _ _ _⟩
    all_goals
      unfold ProcessFile
      simp only [hparse, hoid, hins]
      rw [hsplit, processChunks_first_failure s now userID docID sourceType pre c rest err 0 _
        hpre hfail]
    · simp only [addVectors]
      split <;> rfl
  · intro hall
    refine ⟨?_, chunkVectors_ids _ _ _ _ _ _ _⟩
    unfold ProcessFile
    simp only [hparse, hoid, hins]
    rw [processChunks_all_succeed s now userID docID sourceType chunks 0 _ hall]
    simp only [addVectors]
    cases s.UpdateOne docID with
    | some e => simp only; split <;> rfl
    | none => simp only; split <;> rfl

/-- A document service whose parser yields the chunks `one`, `two`, `three` and whose
embedding provider fails on `two`. -/
def flakyService : DocumentService :=
  { okService with
    Parse := fun _ _ _ => .ok (["one", "two", "three"], [])
    GenerateEmbedding := fun content =>
      if content = "two" then .error "embedding failed" else .ok [1] }

/-- Witness for C13: the second of three chunks fails; the error is returned and only
the vector `d1_0` is upserted. -/
theorem C13_chunks_in_order_until_first_failure_witness :
    flakyService.Parse (selectParser "standard") [1, 2] "a.md" = .ok (["one", "two", "three"], [])
    ∧ flakyService.ObjectIDFromHex "u1" = .ok "u1"
    ∧ flakyService.InsertOne worldA.documents
        ⟨"", "u1", getTitle [] "a.md", "standard", 3, 9, [], "processing_chunks"⟩ = .ok "d1"
    ∧ (ProcessFile flakyService worldA 9 "A" "u1" [1, 2] "a.md" "standard").1
        = some "embedding failed"
    ∧ (ProcessFile flakyService worldA 9 "A" "u1" [1, 2] "a.md" "standard").2.vectors
        = [chunkVector flakyService 9 "u1" "d1" "standard" "one" 0] :=
  ⟨rfl, rfl, rfl,
    ((C13_chunks_in_order_until_first_failure flakyService worldA 9 "A" "u1" [1, 2] "a.md"
      "standard" ["one", "two", "three"] [] "u1" "d1" rfl rfl rfl).1 ["one"] "two" ["three"]
      "embedding failed" rfl
      (fun k content h => by
        cases k with
        | zero => simp at h; subst h; decide
        | succ n => simp at h)
      (by decide)).1,
    by decide⟩


/-! ## Claim C19: the status point read -/

/-- The job record with everything but the given fields at its zero value. -/
def jobRecord (jobID userID status : String) (progress : Int) : Job :=
  { ID := jobID, UserID := userID, Status := status, Progress := progress, TotalChunks := 0,
    ProcessedChunks := 0, Errors := [], CreatedAt := 0, CompletedAt := none }

/-- The point read after a status write, over a connection without faults: it
returns the status written and the progress as it comes back through `float64`. -/
theorem GetJobStatus_updateJobStatus (J : JSONCodec) (s : Store) (now : Time)
    (j st u : String) (p : Int) (hp : p.natAbs ≤ 2 ^ 62) :
    (GetJobStatus J (updateJobStatus J (RedisClient.reliable s) now j st p) j u).1
      = .ok (jobRecord j u st (float64OfInt p)) := by
  simp only [RedisClient.reliable, updateJobStatus_reliable, GetJobStatus, RedisClient.Get,
    RedisClient.nextFault, Store.find_put, statusText, J.status_roundtrip _ _ _ hp,
    Bool.false_eq_true, if_false, if_true, jobRecord]

/-- The position of the leading bit of a number between two powers of two. -/
theorem log2_of_bounds (a k : Nat) (h1 : 2 ^ k ≤ a) (h2 : a < 2 ^ (k + 1)) :
    Nat.log2 a = k := by
  rw [Nat.log2_eq_log_two]
  exact Nat.log_eq_of_pow_le_of_lt_pow h1 h2

theorem float64OfNat_two_pow_53 : float64OfNat (2 ^ 53) = 2 ^ 53 := by
  unfold float64OfNat
  rw [log2_of_bounds (2 ^ 53) 53 (by norm_num) (by norm_num)]
  norm_num

/-- Integers up to `2 ^ 53` are represented exactly. -/
theorem float64OfNat_le (a : Nat) (h : a ≤ 2 ^ 53) : float64OfNat a = a := by
  by_cases hlt : a < 2 ^ 53
  · unfold float64OfNat
    rw [if_pos hlt]
  · have : a = 2 ^ 53 := by omega
    subst this
    exact float64OfNat_two_pow_53

/-- Integers of absolute value up to `2 ^ 53` come back unchanged. -/
theorem float64OfInt_exact (p : Int) (h : p.natAbs ≤ 2 ^ 53) : float64OfInt p = p := by
  have h3 : float64Round p = p := by
    unfold float64Round
    rw [float64OfNat_le _ h]
    split <;> omega
  unfold float64OfInt
  rw [h3, if_pos (by constructor <;> omega)]

/-- The first integer that does not come back: `2 ^ 53 + 1` is read as `2 ^ 53`. -/
theorem float64OfInt_first_inexact : float64OfInt (2 ^ 53 + 1) = 2 ^ 53 := by
  have h : float64OfNat (2 ^ 53 + 1) = 2 ^ 53 := by
    unfold float64OfNat
    rw [log2_of_bounds (2 ^ 53 + 1) 53 (by norm_num) (by norm_num)]
    norm_num
  have hn : ((2 : Int) ^ 53 + 1).natAbs = 2 ^ 53 + 1 := by norm_num
  have h3 : float64Round (2 ^ 53 + 1) = 2 ^ 53 := by
    unfold float64Round
    rw [if_pos (by norm_num), hn, h]
    norm_num
  unfold float64OfInt
  rw [h3, if_pos (by norm_num)]

/-- The largest `int` is rounded to `2 ^ 63`, which no `int` holds: it comes back as the
smallest `int`. -/
theorem float64OfInt_largest : float64OfInt (2 ^ 63 - 1) = -(2 ^ 63) := by
  have h : float64OfNat (2 ^ 63 - 1) = 2 ^ 63 := by
    unfold float64OfNat
    rw [log2_of_bounds (2 ^ 63 - 1) 62 (by norm_num) (by norm_num)]
    norm_num
  have hn : ((2 : Int) ^ 63 - 1).natAbs = 2 ^ 63 - 1 := by norm_num
  have h3 : float64Round (2 ^ 63 - 1) = 2 ^ 63 := by
    unfold float64Round
    rw [if_pos (by norm_num), hn, h]
    norm_num
  unfold float64OfInt
  rw [h3, if_neg (by norm_num)]

/-- A point read without a status entry fails, whatever the connection does. -/
theorem GetJobStatus_absent (J : JSONCodec) (r : RedisClient) (j u : String)
    (h : r.store.find (statusKey j) = none) :
    ∃ e, (GetJobStatus J r j u).1 = .error e := by
  unfold GetJobStatus RedisClient.Get
  simp only [h]
  cases r.nextFault with
  | mk f fs => cases f <;> exact ⟨_, rfl⟩

/-- Claim C19. Over a connection without faults, for every job ID `j`, status string
`s` and progress value `p` of absolute value at most `2 ^ 53`: after
`updateJobStatus(j, s, p)` the point read `GetJobStatus(j, u)` succeeds for every user
ID `u` and returns the job with ID `j`, user `u`, status `s` and progress `p`; and
whatever the connection does, the point read returns an error and no job when the
store has no status entry for `j`. The bound is the range in which a number passes
unchanged through the `float64` the read decodes it into; `updateJobStatus` is not
exported and the program calls it with the progress values 0 and 100 only. -/
theorem C19_point_read_returns_status_written (J : JSONCodec) (s : Store) (now : Time)
    (j st u : String) (p : Int) (hp : p.natAbs ≤ 2 ^ 53) :
    (GetJobStatus J (updateJobStatus J (RedisClient.reliable s) now j st p) j u).1
        = .ok (jobRecord j u st p)
      ∧ ∀ r : RedisClient, r.store.find (statusKey j) = none →
          ∃ e, (GetJobStatus J r j u).1 = .error e := by
  refine ⟨?_, fun r h => GetJobStatus_absent J r j u h⟩
  have h62 : p.natAbs ≤ 2 ^ 62 := le_trans hp (by norm_num)
  rw [GetJobStatus_updateJobStatus J s now j st u p h62, float64OfInt_exact p hp]

/-- Claim C19 applied to the write `("j1", "processing", 100)` on the empty store. -/
theorem C19_point_read_returns_status_written_witness :
    (100 : Int).natAbs ≤ 2 ^ 53
      ∧ ((GetJobStatus RefJSON.codec
            (updateJobStatus RefJSON.codec (RedisClient.reliable []) 7 "j1" "processing" 100)
            "j1" "u1").1 = .ok (jobRecord "j1" "u1" "processing" 100)
        ∧ ∀ r : RedisClient, r.store.find (statusKey "j1") = none →
            ∃ e, (GetJobStatus RefJSON.codec r "j1" "u1").1 = .error e) :=
  ⟨by decide,
   C19_point_read_returns_status_written RefJSON.codec [] 7 "j1" "processing" "u1" 100
     (by decide)⟩

/-- Beyond the bound the progress written need not come back: for the value
`2 ^ 53 + 1`, which no call in the program passes, the entry holds the number
`9007199254740993`, which the point read decodes into a `float64` and converts back to
the integer `9007199254740992`. -/
theorem point_read_rounds_large_progress :
    (GetJobStatus RefJSON.codec
        (updateJobStatus RefJSON.codec (RedisClient.reliable []) 7 "j1" "processing"
          9007199254740993) "j1" "u1").1
      = .ok (jobRecord "j1" "u1" "processing" 9007199254740992)
    ∧ jobRecord "j1" "u1" "processing" 9007199254740992
        ≠ jobRecord "j1" "u1" "processing" 9007199254740993 := by
  refine ⟨?_, by decide⟩
  rw [GetJobStatus_updateJobStatus RefJSON.codec [] 7 "j1" "processing" "u1"
    9007199254740993 (by decide)]
  have h := float64OfInt_first_inexact
  norm_num at h
  rw [h]

/-! ## Claim C20: what the recovery pass leaves alone -/

/-- A push leaves a key that holds a plain string as it is. -/
theorem find_push_str (s : Store) (k v key val : String) (t : Nat)
    (h : s.find key = some (.str val t)) : (s.push k v).find key = some (.str val t) := by
  by_cases hk : k = key
  · subst hk
    unfold Store.push
    rw [h]
    exact h
  · rw [find_push _ _ _ _ hk, h]

/-- The loop body skips a key whose status entry does not read `processing`. -/
theorem recoveryOf_settled (J : JSONCodec) (s : Store) (key v : String) (t : Nat) (m : StatusMap)
    (hf : s.find key = some (.str v t)) (hm : J.unmarshalMap v = .ok m)
    (hst : m.status ≠ some "processing") : recoveryOf J s key = .skip := by
  unfold recoveryOf
  split
  · rfl
  · simp only [hf, hm, hst, if_false]

/-- What the loop body read when it decides to re-queue: a recoverable copy that decodes. -/
theorem recoveryOf_requeue (J : JSONCodec) (s : Store) (key : String) (job : JobItem)
    (h : recoveryOf J s key = .requeue job) :
    ∃ copy, persistentCopy s (sliceFrom key 4) = some copy ∧ J.unmarshalJob copy = .ok job := by
  unfold recoveryOf at h
  unfold persistentCopy
  by_cases he : isErrorsKey key = true
  · simp [he] at h
  · simp only [he, Bool.false_eq_true, if_false] at h
    cases hk : s.find key with
    | none => simp [hk] at h
    | some val =>
      cases val with
      | list xs => simp [hk] at h
      | str v t =>
        simp only [hk] at h
        cases hm : J.unmarshalMap v with
        | error e => simp [hm] at h
        | ok m =>
          simp only [hm] at h
          by_cases hp : m.status = some "processing"
          · simp only [hp, if_true] at h
            cases hc : s.find (persistentKey (sliceFrom key 4)) with
            | none => simp [hc] at h
            | some val =>
              cases val with
              | list xs => simp [hc] at h
              | str copy t1 =>
                simp only [hc] at h
                cases hu : J.unmarshalJob copy with
                | error e => simp [hu] at h
                | ok job1 =>
                  simp only [hu, Recovery.requeue.injEq] at h
                  exact ⟨copy, rfl, by rw [hu, h]⟩
          · simp [hp] at h

/-- The loop body for any job key leaves alone the status entry and the error log of a
job whose status entry does not read `processing`. -/
theorem resumeStore_settled (J : JSONCodec) (now : Time) (c : Store) (key j v : String)
    (t : Nat) (m : StatusMap) (hkey : key = statusKey (sliceFrom key 4))
    (hf : c.find (statusKey j) = some (.str v t)) (hm : J.unmarshalMap v = .ok m)
    (hst : m.status ≠ some "processing") :
    (resumeStore J now c key).find (statusKey j) = c.find (statusKey j)
      ∧ (resumeStore J now c key).find (errorsKey j) = c.find (errorsKey j) := by
  by_cases hne : key = statusKey j
  · subst hne
    unfold resumeStore
    rw [recoveryOf_settled J c _ v t m hf hm hst]
    exact ⟨rfl, rfl⟩
  · refine ⟨?_, resumeStore_find_errors J now c key j hkey hne⟩
    have hput : ∀ val, (c.put (statusKey (sliceFrom key 4)) val).find (statusKey j)
        = some (.str v t) := by
      intro val
      rw [Store.find_put, if_neg (by rw [← hkey]; exact hne), hf]
    unfold resumeStore
    cases recoveryOf J c key with
    | skip => rfl
    | requeue job => simp only; rw [find_push_str _ _ _ _ _ _ (hput _), hf]
    | lost => simp only; rw [find_push_str _ _ _ _ _ _ (hput _), hf]

/-- The whole loop leaves alone the status entry and the error log of a job whose
status entry does not read `processing`. -/
theorem foldl_resumeStore_settled (J : JSONCodec) (now : Time) (ks : List String) (c : Store)
    (j v : String) (t : Nat) (m : StatusMap) (hks : ∀ k ∈ ks, k = statusKey (sliceFrom k 4))
    (hf : c.find (statusKey j) = some (.str v t)) (hm : J.unmarshalMap v = .ok m)
    (hst : m.status ≠ some "processing") :
    (ks.foldl (resumeStore J now) c).find (statusKey j) = c.find (statusKey j)
      ∧ (ks.foldl (resumeStore J now) c).find (errorsKey j) = c.find (errorsKey j) := by
  induction ks generalizing c with
  | nil => exact ⟨rfl, rfl⟩
  | cons k ks ih =>
    have h1 := resumeStore_settled J now c k j v t m (hks k (by simp)) hf hm hst
    have h2 := ih (resumeStore J now c k) (fun k1 hk1 => hks k1 (by simp [hk1]))
      (by rw [h1.1, hf])
    rw [List.foldl_cons, h2.1, h2.2]
    exact h1

theorem foldl_resumeStore_holdsString_queue (J : JSONCodec) (now : Time) (ks : List String)
    (c : Store) :
    (ks.foldl (resumeStore J now) c).holdsString "job_queue" = c.holdsString "job_queue" := by
  induction ks generalizing c with
  | nil => rfl
  | cons k ks ih => rw [List.foldl_cons, ih, resumeStore_holdsString_queue]

theorem listAt_of_holdsString (s : Store) (k : String) (h : s.holdsString k = true) :
    s.listAt k = [] := by
  unfold Store.holdsString at h
  unfold Store.listAt
  cases hk : s.find k with
  | none => rfl
  | some val =>
    cases val with
    | list xs => simp [hk] at h
    | str v t => rfl

/-- Every text the recovery pass re-queues is the re-encoded recoverable copy of a job
whose status entry reads `processing`. -/
theorem requeued_origin (J : JSONCodec) (s : Store) (x : String)
    (hx : x ∈ (jobKeys s).filterMap (requeued J s)) :
    ∃ j1 copy job, statusOf J s j1 = some "processing" ∧ persistentCopy s j1 = some copy
      ∧ J.unmarshalJob copy = .ok job ∧ x = J.marshalJob { job with Status := "pending" } := by
  rw [List.mem_filterMap] at hx
  obtain ⟨k, hk, hr⟩ := hx
  have hkey := ((mem_jobKeys s k).mp hk).2
  unfold requeued at hr
  cases hrec : recoveryOf J s k with
  | skip => simp [hrec] at hr
  | lost => simp [hrec] at hr
  | requeue job =>
    simp only [hrec, Option.some.injEq] at hr
    obtain ⟨copy, hc, hu⟩ := recoveryOf_requeue J s k job hrec
    refine ⟨sliceFrom k 4, copy, job, ?_, hc, hu, hr.symm⟩
    apply recoveryOf_acts
    rw [← hkey, hrec]
    exact fun h => Recovery.noConfusion h

/-- Claim C20. Over a connection without faults, the recovery pass only adds to the
work queue and only acts on jobs in `processing`: the queue afterwards is the queue as
it was with the added items in front of it (the end the worker does not pop), every
added item is the re-encoded recoverable copy of a job whose status entry reads
`processing`, and a job `j` whose status entry reads anything else (`pending`,
`completed`, `failed`, ...) keeps what is stored under its status key, its error-log
key and its recoverable-copy key, and is not the job of any added item. -/
theorem C20_recovery_only_adds_and_skips_settled_jobs (J : JSONCodec) (now : Time) (s : Store)
    (j st : String) (hst : statusOf J s j = some st) (hne : st ≠ "processing") :
    (∃ added,
        queueOf (resumeUnprocessedJobs J (RedisClient.reliable s) now).store
          = added ++ queueOf s
        ∧ ∀ x ∈ added, ∃ j1 copy job, j1 ≠ j ∧ statusOf J s j1 = some "processing"
            ∧ persistentCopy s j1 = some copy ∧ J.unmarshalJob copy = .ok job
            ∧ x = J.marshalJob { job with Status := "pending" })
      ∧ (resumeUnprocessedJobs J (RedisClient.reliable s) now).store.find (statusKey j)
          = s.find (statusKey j)
      ∧ (resumeUnprocessedJobs J (RedisClient.reliable s) now).store.find (errorsKey j)
          = s.find (errorsKey j)
      ∧ (resumeUnprocessedJobs J (RedisClient.reliable s) now).store.find (persistentKey j)
          = s.find (persistentKey j) := by
  obtain ⟨v, t, m, hf, hm, hms⟩ := statusOf_eq_some J s j st hst
  have hproc : m.status ≠ some "processing" := by
    rw [hms]
    intro h
    exact hne (Option.some.inj h)
  have hframe := foldl_resumeStore_settled J now (jobKeys s) s j v t m
    (fun k hk => ((mem_jobKeys s k).mp hk).2) hf hm hproc
  refine ⟨?_, ?_, ?_, ?_⟩
  · by_cases hq : s.holdsString "job_queue" = true
    · refine ⟨[], ?_, fun x hx => absurd hx (List.not_mem_nil x)⟩
      rw [resume_store_eq]
      unfold queueOf
      rw [listAt_of_holdsString _ _ hq, listAt_of_holdsString _ _
        (by rw [foldl_resumeStore_holdsString_queue, hq])]
      rfl
    · refine ⟨((jobKeys s).filterMap (requeued J s)).reverse,
        resume_queue J now s (by simpa using hq), ?_⟩
      intro x hx
      obtain ⟨j1, copy, job, h1, h2, h3, h4⟩ := requeued_origin J s x (List.mem_reverse.mp hx)
      refine ⟨j1, copy, job, ?_, h1, h2, h3, h4⟩
      intro h
      rw [h, hst] at h1
      exact hne (Option.some.inj h1)
  · rw [resume_store_eq]; exact hframe.1
  · rw [resume_store_eq]; exact hframe.2
  · rw [resume_store_eq]; exact resume_persistent J now s j

/-- A store in which job `A` is in `processing` with the recoverable copy `QueueFile`
wrote for `subA`, job `B` is `completed` with an error log and a recoverable copy, and
one item waits on the queue. -/
def storeSettled : Store :=
  [(statusKey "A", processingEntry),
   (persistentKey "A", .str (RefJSON.codec.marshalJob subA.item) (7 * 24 * 3600)),
   (statusKey "B", .str (RefJSON.codec.marshalStatus "completed" 100 (some 5)) (24 * 3600)),
   (errorsKey "B", .list ["earlier message"]),
   (persistentKey "B", .str (RefJSON.codec.marshalJob subB.item) (7 * 24 * 3600)),
   ("job_queue", .list ["waiting item"])]

/-- Claim C20 applied to the completed job `B` of `storeSettled`. -/
theorem C20_recovery_only_adds_and_skips_settled_jobs_witness :
    statusOf RefJSON.codec storeSettled "B" = some "completed"
      ∧ "completed" ≠ "processing"
      ∧ ((∃ added,
          queueOf (resumeUnprocessedJobs RefJSON.codec (RedisClient.reliable storeSettled) 9).store
            = added ++ queueOf storeSettled
          ∧ ∀ x ∈ added, ∃ j1 copy job, j1 ≠ "B"
              ∧ statusOf RefJSON.codec storeSettled j1 = some "processing"
              ∧ persistentCopy storeSettled j1 = some copy
              ∧ RefJSON.codec.unmarshalJob copy = .ok job
              ∧ x = RefJSON.codec.marshalJob { job with Status := "pending" })
        ∧ (resumeUnprocessedJobs RefJSON.codec (RedisClient.reliable storeSettled) 9).store.find
            (statusKey "B") = storeSettled.find (statusKey "B")
        ∧ (resumeUnprocessedJobs RefJSON.codec (RedisClient.reliable storeSettled) 9).store.find
            (errorsKey "B") = storeSettled.find (errorsKey "B")
        ∧ (resumeUnprocessedJobs RefJSON.codec (RedisClient.reliable storeSettled) 9).store.find
            (persistentKey "B") = storeSettled.find (persistentKey "B")) :=
  ⟨by decide, by decide,
   C20_recovery_only_adds_and_skips_settled_jobs RefJSON.codec 9 storeSettled "B" "completed"
     (by decide) (by decide)⟩

/-! ## The event hub (`websocket/hub.go`) -/

/-- A buffered Go channel of messages: the values queued in it (oldest first), the
capacity it was made with, and whether `close` has been called on it. -/
structure Chan where
  buf : List Message
  cap : Nat
  closed : Bool
  deriving DecidableEq, Repr

/-- The channel after a send went through. -/
def Chan.offer (ch : Chan) (message : Message) : Chan :=
  ⟨ch.buf ++ [message], ch.cap, ch.closed⟩

/-- The channel after `close`. -/
def Chan.shut (ch : Chan) : Chan := ⟨ch.buf, ch.cap, true⟩

/-- Whether a send on the open channel goes through without waiting. -/
def Chan.hasRoom (ch : Chan) : Bool := decide (ch.buf.length < ch.cap)

/-- A pointer `*websocket.Client` as `hub.go` uses it: a key of the per-user sets, with
the field `UserID` read through it (`id` tells the clients of one user apart). The
channel `client.Send` is kept in the hub state, `Hub.send`, because the loop changes
it. -/
structure Client where
  id : Nat
  UserID : String
  deriving DecidableEq, Repr

/-- The map `map[string]map[*Client]bool`: user ID to the set of its clients. -/
abbrev Registry := List (String × List Client)

namespace Registry

/-- The lookup `clients, ok := h.clients[userID]`. -/
def get : Registry → String → Option (List Client)
  | [], _ => none
  | (k, v) :: rest, u => if k = u then some v else get rest u

/-- The map with the set of `u` replaced by `cs` (added when `u` has none). -/
def set : Registry → String → List Client → Registry
  | [], u, cs => [(u, cs)]
  | (k, v) :: rest, u, cs => if k = u then (k, cs) :: rest else (k, v) :: set rest u cs

/-- The call `delete(h.clients, userID)`. -/
def delete (r : Registry) (u : String) : Registry := r.filter (fun e => decide (e.1 ≠ u))

end Registry

/-- The state the loop `Hub.Run` works on: the map `clients`, the channel `Send` of
every client, and whether the loop has died of a panic (a send on a closed channel or
a second `close`). `closes` and `removed` are history variables: the clients whose
channel the loop closed and the clients it deleted from a set, in the order of the
calls. -/
structure Hub where
  clients : Registry
  send : Client → Chan
  panicked : Bool
  closes : List Client
  removed : List Client

/-- What the loop takes from its three channels: `client := <-h.Register`,
`client := <-h.Unregister`, `message := <-h.broadcast`. -/
inductive HubEvent where
  | register (client : Client)
  | unregister (client : Client)
  | message (message : Message)
  deriving DecidableEq, Repr

namespace Hub

/-- The hub of `NewHub`, with the channel every client is made with in
`HandleWebSocket`: `make(chan ws.Message, 256)`. -/
def NewHub : Hub :=
  { clients := [], send := fun _ => ⟨[], 256, false⟩, panicked := false, closes := [],
    removed := [] }

/-- The set of the clients of `u` (empty when `h.clients` has no entry for `u`). -/
def members (h : Hub) (u : String) : List Client := (h.clients.get u).getD []

/-- Whether `client` is in the registry: the two lookups of the `Unregister` case. -/
def has (h : Hub) (client : Client) : Bool := decide (client ∈ h.members client.UserID)

/-- The state after `client.Send <- message` went through. -/
def enqueue (h : Hub) (client : Client) (message : Message) : Hub :=
  { h with send := Function.update h.send client ((h.send client).offer message) }

/-- The state after `close(client.Send)` on a channel that was not closed. -/
def closeSend (h : Hub) (client : Client) : Hub :=
  { h with
    send := Function.update h.send client (h.send client).shut,
    closes := h.closes ++ [client] }

/-- The state after `delete(clients, client)`, `clients` being the set of `u`. -/
def deleteClient (h : Hub) (u : String) (client : Client) : Hub :=
  { h with
    clients := h.clients.set u ((h.members u).filter (fun c => decide (c ≠ client))),
    removed := h.removed ++ [client] }

/-- One round of the loop `for client := range clients` over the set of `u`:
the statement `select { case client.Send <- message: default: close(client.Send);
delete(clients, client) }`. A send on a closed channel panics; a channel with room
takes the message; otherwise the `default` branch runs. -/
def deliver (message : Message) (u : String) (h : Hub) (client : Client) : Hub :=
  if h.panicked then h
  else if (h.send client).closed then { h with panicked := true }
  else if (h.send client).hasRoom then h.enqueue client message
  else (h.closeSend client).deleteClient u client

/-- One iteration of the loop of `Hub.Run`, for the event the `select` received. -/
def handle (h : Hub) (e : HubEvent) : Hub :=
  if h.panicked then h
  else
    match e with
    | .register client =>
      let cs := h.members client.UserID
      { h with clients := h.clients.set client.UserID (if client ∈ cs then cs else cs ++ [client]) }
    | .unregister client =>
      match h.clients.get client.UserID with
      | some clients =>
        if client ∈ clients then
          let h := h.deleteClient client.UserID client
          if (h.send client).closed then { h with panicked := true }
          else
            let h := h.closeSend client
            if (h.members client.UserID).length = 0 then
              { h with clients := h.clients.delete client.UserID }
            else h
        else h
      | none => h
    | .message message =>
      if message.UserID ≠ "" then
        match h.clients.get message.UserID with
        | some clients => clients.foldl (deliver message message.UserID) h
        | none => h
      else
        h.clients.foldl (fun h e => e.2.foldl (deliver message e.1) h) h

/-- The loop of `Hub.Run` over the events it receives, in the order it receives them. -/
def Run (h : Hub) (events : List HubEvent) : Hub := events.foldl handle h

/-- The message `Hub.SendToUser` builds and hands to the loop through `h.broadcast`. -/
def SendToUser (userID messageType : String) (payload : List (String × PVal)) : HubEvent :=
  .message ⟨messageType, userID, payload⟩

/-- The states the loop keeps to: it has not panicked, no user ID has two entries,
a set holds no client twice and only clients of its user, and the channel of a
registered client is not closed. -/
structure WF (h : Hub) : Prop where
  running : h.panicked = false
  keys : (h.clients.map Prod.fst).Nodup
  nodup : ∀ e ∈ h.clients, e.2.Nodup
  owner : ∀ e ∈ h.clients, ∀ c ∈ e.2, c.UserID = e.1
  live : ∀ e ∈ h.clients, ∀ c ∈ e.2, (h.send c).closed = false

/-- Whether a sequence of events never registers a client that the loop, started in
`h`, has removed from the registry by then. -/
def neverReregisters (h : Hub) : List HubEvent → Bool
  | [] => true
  | e :: es =>
    (match e with
      | .register client => decide (client ∉ h.removed)
      | _ => true)
    && neverReregisters (h.handle e) es

end Hub

/-! ## Lemmas on the registry -/

namespace Registry

theorem get_set (r : Registry) (u u1 : String) (cs : List Client) :
    (r.set u cs).get u1 = if u = u1 then some cs else r.get u1 := by
  induction r with
  | nil =>
    by_cases h : u = u1 <;> simp [set, get, h]
  | cons e rest ih =>
    obtain ⟨k, v⟩ := e
    by_cases hk : k = u
    · subst hk
      by_cases h : k = u1 <;> simp [set, get, h]
    · by_cases h : k = u1
      · subst h
        have hne : ¬ u = k := fun h1 => hk h1.symm
        simp [set, get, hk, hne]
      · simp [set, get, hk, h, ih]

theorem get_delete (r : Registry) (u u1 : String) :
    (r.delete u).get u1 = if u = u1 then none else r.get u1 := by
  induction r with
  | nil => simp [delete, get]
  | cons e rest ih =>
    obtain ⟨k, v⟩ := e
    unfold delete at ih ⊢
    by_cases hk : k = u
    · subst hk
      by_cases h : k = u1
      · simpa [List.filter, get, h] using ih
      · simpa [List.filter, get, h] using ih
    · by_cases h : k = u1
      · subst h
        have hne : ¬ u = k := fun h1 => hk h1.symm
        simp [List.filter, get, hk, hne]
      · simpa [List.filter, get, hk, h] using ih

theorem get_mem (r : Registry) (u : String) (cs : List Client) (h : r.get u = some cs) :
    (u, cs) ∈ r := by
  induction r with
  | nil => simp [get] at h
  | cons e rest ih =>
    obtain ⟨k, v⟩ := e
    by_cases hk : k = u
    · subst hk
      simp only [get, if_true, Option.some.injEq] at h
      simp [h]
    · simp only [get, hk, if_false] at h
      exact List.mem_cons_of_mem _ (ih h)

theorem mem_get (r : Registry) (e : String × List Client) (hk : (r.map Prod.fst).Nodup)
    (h : e ∈ r) : r.get e.1 = some e.2 := by
  induction r with
  | nil => simp at h
  | cons e1 rest ih =>
    obtain ⟨k, v⟩ := e1
    rw [List.map_cons, List.nodup_cons] at hk
    rcases List.mem_cons.mp h with h1 | h1
    · subst h1
      simp [get]
    · have hne : k ≠ e.1 := by
        intro h2
        apply hk.1
        rw [h2]
        exact List.mem_map.mpr ⟨e, h1, rfl⟩
      simp only [get, hne, if_false]
      exact ih hk.2 h1

theorem mem_set (r : Registry) (u : String) (cs : List Client) (e : String × List Client)
    (hn : (r.map Prod.fst).Nodup) (h : e ∈ r.set u cs) : e = (u, cs) ∨ (e ∈ r ∧ e.1 ≠ u) := by
  induction r with
  | nil =>
    left
    simpa [set] using h
  | cons e1 rest ih =>
    obtain ⟨k, v⟩ := e1
    rw [List.map_cons, List.nodup_cons] at hn
    by_cases hk : k = u
    · subst hk
      simp only [set, if_true, List.mem_cons] at h
      rcases h with h | h
      · exact Or.inl h
      · refine Or.inr ⟨List.mem_cons_of_mem _ h, ?_⟩
        intro he
        apply hn.1
        rw [← he]
        exact List.mem_map.mpr ⟨e, h, rfl⟩
    · simp only [set, hk, if_false, List.mem_cons] at h
      rcases h with h | h
      · right
        subst h
        exact ⟨List.mem_cons_self _ _, hk⟩
      · rcases ih hn.2 h with h1 | ⟨h1, h2⟩
        · exact Or.inl h1
        · exact Or.inr ⟨List.mem_cons_of_mem _ h1, h2⟩

theorem mem_keys_set (r : Registry) (u k : String) (cs : List Client)
    (h : k ∈ (r.set u cs).map Prod.fst) : k = u ∨ k ∈ r.map Prod.fst := by
  induction r with
  | nil =>
    left
    simpa [set] using h
  | cons e1 rest ih =>
    obtain ⟨k1, v⟩ := e1
    by_cases hk : k1 = u
    · subst hk
      simp only [set, if_true, List.map_cons, List.mem_cons] at h
      simp only [List.map_cons, List.mem_cons]
      rcases h with h | h
      · exact Or.inl h
      · exact Or.inr (Or.inr h)
    · simp only [set, hk, if_false, List.map_cons, List.mem_cons] at h
      simp only [List.map_cons, List.mem_cons]
      rcases h with h | h
      · exact Or.inr (Or.inl h)
      · rcases ih h with h1 | h1
        · exact Or.inl h1
        · exact Or.inr (Or.inr h1)

theorem keys_set (r : Registry) (u : String) (cs : List Client)
    (hn : (r.map Prod.fst).Nodup) : ((r.set u cs).map Prod.fst).Nodup := by
  induction r with
  | nil => simp [set]
  | cons e1 rest ih =>
    obtain ⟨k, v⟩ := e1
    rw [List.map_cons, List.nodup_cons] at hn
    by_cases hk : k = u
    · subst hk
      simp only [set, if_true, List.map_cons, List.nodup_cons]
      exact hn
    · simp only [set, hk, if_false, List.map_cons, List.nodup_cons]
      refine ⟨?_, ih hn.2⟩
      intro h
      rcases mem_keys_set rest u k cs h with h1 | h1
      · exact hk h1
      · exact hn.1 h1

theorem keys_delete (r : Registry) (u : String)
    (hn : (r.map Prod.fst).Nodup) : ((r.delete u).map Prod.fst).Nodup :=
  hn.sublist ((List.filter_sublist _).map _)

theorem mem_delete (r : Registry) (u : String) (e : String × List Client) :
    e ∈ r.delete u ↔ e ∈ r ∧ e.1 ≠ u := by
  simp [delete, List.mem_filter]

end Registry

/-! ## Lemmas on one delivery -/

namespace Hub

/-- The channel of a client after the `select` statement of the delivery loop, when
the channel was not closed: it took the message, or it was full and is closed. -/
def afterSelect (ch : Chan) (message : Message) : Chan :=
  if ch.hasRoom then ch.offer message else ch.shut

theorem mem_members (h : Hub) (u : String) (c : Client) (hc : c ∈ h.members u) :
    ∃ e ∈ h.clients, e.1 = u ∧ c ∈ e.2 := by
  unfold members at hc
  cases hg : h.clients.get u with
  | none => simp [hg] at hc
  | some cs =>
    simp only [hg, Option.getD_some] at hc
    exact ⟨(u, cs), Registry.get_mem _ _ _ hg, rfl, hc⟩

theorem members_of_mem (h : Hub) (hk : (h.clients.map Prod.fst).Nodup)
    (e : String × List Client) (he : e ∈ h.clients) : h.members e.1 = e.2 := by
  unfold members
  rw [Registry.mem_get _ e hk he]
  rfl

theorem WF.members_nodup {h : Hub} (hw : h.WF) (u : String) : (h.members u).Nodup := by
  unfold members
  cases hg : h.clients.get u with
  | none => simp
  | some cs => exact hw.nodup _ (Registry.get_mem _ _ _ hg)

theorem WF.members_owner {h : Hub} (hw : h.WF) {u : String} {c : Client}
    (hc : c ∈ h.members u) : c.UserID = u := by
  obtain ⟨e, he, hu, hce⟩ := mem_members h u c hc
  rw [← hu]
  exact hw.owner e he c hce

theorem WF.members_live {h : Hub} (hw : h.WF) {u : String} {c : Client}
    (hc : c ∈ h.members u) : (h.send c).closed = false := by
  obtain ⟨e, he, _, hce⟩ := mem_members h u c hc
  exact hw.live e he c hce

theorem deliver_eq (m : Message) (u : String) (h : Hub) (c : Client)
    (hr : h.panicked = false) (ho : (h.send c).closed = false) :
    deliver m u h c
      = if (h.send c).hasRoom then h.enqueue c m else (h.closeSend c).deleteClient u c := by
  simp [deliver, hr, ho]

theorem deliver_send (m : Message) (u : String) (h : Hub) (c x : Client)
    (hr : h.panicked = false) (ho : (h.send c).closed = false) :
    (deliver m u h c).send x = if x = c then afterSelect (h.send c) m else h.send x := by
  rw [deliver_eq m u h c hr ho]
  unfold afterSelect
  by_cases hroom : (h.send c).hasRoom = true
  · simp only [hroom, if_true, enqueue]
    by_cases hx : x = c
    · subst hx; simp
    · simp [hx]
  · simp only [hroom, if_false, closeSend, deleteClient, Bool.false_eq_true]
    by_cases hx : x = c
    · subst hx; simp
    · simp [hx]

theorem deliver_logs (m : Message) (u : String) (h : Hub) (c : Client)
    (hr : h.panicked = false) (ho : (h.send c).closed = false) :
    (deliver m u h c).removed = h.removed ++ (if (h.send c).hasRoom then [] else [c])
      ∧ (deliver m u h c).closes = h.closes ++ (if (h.send c).hasRoom then [] else [c]) := by
  rw [deliver_eq m u h c hr ho]
  by_cases hroom : (h.send c).hasRoom = true
  · simp [hroom, enqueue]
  · simp [hroom, closeSend, deleteClient]

theorem deliver_members (m : Message) (h : Hub) (c : Client) (u : String)
    (hw : h.WF) (ho : (h.send c).closed = false) :
    (deliver m c.UserID h c).members u
      = (h.members u).filter (fun x => !(decide (x = c) && !(h.send c).hasRoom)) := by
  rw [deliver_eq m _ h c hw.running ho]
  by_cases hroom : (h.send c).hasRoom = true
  · simp [hroom, enqueue, members]
  · simp only [hroom, if_false, Bool.false_eq_true, Bool.not_false, Bool.and_true]
    by_cases hu : c.UserID = u
    · subst hu
      simp only [members, deleteClient, closeSend, Registry.get_set, if_true, Option.getD_some]
      apply List.filter_congr
      intro x _
      simp
    · have hnot : c ∉ h.members u := fun hc => hu (hw.members_owner hc)
      have h1 : (((h.closeSend c).deleteClient c.UserID c).members u) = h.members u := by
        simp [members, deleteClient, closeSend, Registry.get_set, hu]
      rw [h1]
      symm
      rw [List.filter_eq_self]
      intro x hx
      have : x ≠ c := fun hxc => hnot (hxc ▸ hx)
      simp [this]

theorem deliver_WF (m : Message) (h : Hub) (c : Client) (hw : h.WF)
    (ho : (h.send c).closed = false) : (deliver m c.UserID h c).WF := by
  have hsend := fun x => deliver_send m c.UserID h c x hw.running ho
  rw [deliver_eq m _ h c hw.running ho] at hsend ⊢
  by_cases hroom : (h.send c).hasRoom = true
  · simp only [hroom, if_true] at hsend ⊢
    refine ⟨hw.running, hw.keys, hw.nodup, hw.owner, ?_⟩
    intro e he x hx
    rw [hsend x]
    by_cases hxc : x = c
    · subst hxc
      simp [afterSelect, hroom, Chan.offer, ho]
    · simp only [hxc, if_false]
      exact hw.live e he x hx
  · simp only [hroom, if_false, Bool.false_eq_true] at hsend ⊢
    have hmem : ∀ e ∈ ((h.closeSend c).deleteClient c.UserID c).clients,
        e = (c.UserID, (h.members c.UserID).filter (fun x => decide (x ≠ c)))
          ∨ (e ∈ h.clients ∧ e.1 ≠ c.UserID) := by
      intro e he
      exact Registry.mem_set h.clients _ _ e hw.keys he
    refine ⟨hw.running, Registry.keys_set _ _ _ hw.keys, ?_, ?_, ?_⟩
    · intro e he
      rcases hmem e he with h1 | ⟨h1, _⟩
      · rw [h1]
        exact (hw.members_nodup _).filter _
      · exact hw.nodup e h1
    · intro e he x hx
      rcases hmem e he with h1 | ⟨h1, _⟩
      · rw [h1] at hx ⊢
        exact hw.members_owner (List.mem_filter.mp hx).1
      · exact hw.owner e h1 x hx
    · intro e he x hx
      rw [hsend x]
      rcases hmem e he with h1 | ⟨h1, h2⟩
      · rw [h1] at hx
        have hx2 := List.mem_filter.mp hx
        have hxc : x ≠ c := by simpa using hx2.2
        simp only [hxc, if_false]
        exact hw.members_live hx2.1
      · have hxc : x ≠ c := by
          intro hxc
          apply h2
          rw [← hw.owner e h1 x hx, hxc]
        simp only [hxc, if_false]
        exact hw.live e h1 x hx

end Hub

/-! ## The delivery loops -/

namespace Hub

/-- The delivery statement run for each client of `ts` in turn, each under the key
of its own user. -/
def deliverAll (m : Message) (h : Hub) (ts : List Client) : Hub :=
  ts.foldl (fun h c => deliver m c.UserID h c) h

/-- The clients the loop visits for a message: the set of the addressed user, or the
sets of all users when the message has no user ID. -/
def targets (h : Hub) (m : Message) : List Client :=
  if m.UserID ≠ "" then h.members m.UserID else h.clients.flatMap (fun e => e.2)

/-- The effect of the deliveries to distinct clients with open channels, started in a
well-formed state: every visited channel took the message or was closed, the clients
with a full channel (and only they) left their sets, and both histories grew by these
clients. -/
theorem deliverAll_spec (m : Message) (ts : List Client) (h : Hub) (hw : h.WF)
    (hn : ts.Nodup) (ho : ∀ c ∈ ts, (h.send c).closed = false) :
    (deliverAll m h ts).WF
    ∧ (∀ x, (deliverAll m h ts).send x
        = if x ∈ ts then afterSelect (h.send x) m else h.send x)
    ∧ (∀ u, (deliverAll m h ts).members u
        = (h.members u).filter (fun x => !(decide (x ∈ ts) && !(h.send x).hasRoom)))
    ∧ (deliverAll m h ts).removed = h.removed ++ ts.filter (fun x => !(h.send x).hasRoom)
    ∧ (deliverAll m h ts).closes = h.closes ++ ts.filter (fun x => !(h.send x).hasRoom) := by
  induction ts generalizing h with
  | nil =>
    refine ⟨hw, fun x => by simp [deliverAll], fun u => ?_, by simp [deliverAll],
      by simp [deliverAll]⟩
    simp [deliverAll]
  | cons c rest ih =>
    rw [List.nodup_cons] at hn
    have hoc := ho c (List.mem_cons_self _ _)
    have hs := fun x => deliver_send m c.UserID h c x hw.running hoc
    have hrest : ∀ x ∈ rest, x ≠ c := fun x hx hxc => hn.1 (hxc ▸ hx)
    have ho1 : ∀ x ∈ rest, ((deliver m c.UserID h c).send x).closed = false := by
      intro x hx
      rw [hs x, if_neg (hrest x hx)]
      exact ho x (List.mem_cons_of_mem _ hx)
    obtain ⟨i1, i2, i3, i4, i5⟩ := ih (deliver m c.UserID h c) (deliver_WF m h c hw hoc) hn.2 ho1
    have hfold : deliverAll m h (c :: rest) = deliverAll m (deliver m c.UserID h c) rest := rfl
    have hlog : rest.filter (fun x => !((deliver m c.UserID h c).send x).hasRoom)
        = rest.filter (fun x => !(h.send x).hasRoom) := by
      apply List.filter_congr
      intro x hx
      rw [hs x, if_neg (hrest x hx)]
    rw [hfold]
    refine ⟨i1, ?_, ?_, ?_, ?_⟩
    · intro x
      rw [i2 x]
      by_cases hxc : x = c
      · subst hxc
        simp [hn.1, hs]
      · simp [hxc, hs]
    · intro u
      rw [i3 u, deliver_members m h c u hw hoc, List.filter_filter]
      apply List.filter_congr
      intro x _
      by_cases hxc : x = c
      · subst hxc
        simp [hn.1]
      · simp [hxc, hs]
    · rw [i4, (deliver_logs m c.UserID h c hw.running hoc).1, hlog, List.filter_cons]
      by_cases hroom : (h.send c).hasRoom = true <;> simp [hroom]
    · rw [i5, (deliver_logs m c.UserID h c hw.running hoc).2, hlog, List.filter_cons]
      by_cases hroom : (h.send c).hasRoom = true <;> simp [hroom]

theorem foldl_deliver_eq (m : Message) (u : String) (cs : List Client) (h : Hub)
    (hu : ∀ c ∈ cs, c.UserID = u) : cs.foldl (deliver m u) h = deliverAll m h cs := by
  induction cs generalizing h with
  | nil => rfl
  | cons c rest ih =>
    have hc := hu c (List.mem_cons_self _ _)
    simp only [List.foldl_cons, deliverAll]
    rw [ih _ (fun x hx => hu x (List.mem_cons_of_mem _ hx)), hc]
    rfl

theorem foldl_entries_eq (m : Message) (es : List (String × List Client)) (h : Hub)
    (hu : ∀ e ∈ es, ∀ c ∈ e.2, c.UserID = e.1) :
    es.foldl (fun h e => e.2.foldl (deliver m e.1) h) h
      = deliverAll m h (es.flatMap (fun e => e.2)) := by
  induction es generalizing h with
  | nil => rfl
  | cons e rest ih =>
    simp only [List.foldl_cons, List.flatMap_cons]
    rw [ih _ (fun e1 he1 => hu e1 (List.mem_cons_of_mem _ he1)),
      foldl_deliver_eq m e.1 e.2 h (hu e (List.mem_cons_self _ _))]
    unfold deliverAll
    rw [List.foldl_append]

/-- In a well-formed state the `message` case of the loop is the delivery to the
targets of the message. -/
theorem handle_message (h : Hub) (m : Message) (hw : h.WF) :
    h.handle (.message m) = deliverAll m h (h.targets m) := by
  unfold handle targets
  simp only [hw.running, Bool.false_eq_true, if_false]
  by_cases hu : m.UserID = ""
  · simp only [hu, ne_eq, not_true_eq_false, if_false]
    exact foldl_entries_eq m h.clients h hw.owner
  · simp only [ne_eq, hu, not_false_eq_true, if_true]
    cases hg : h.clients.get m.UserID with
    | none => simp [members, hg, deliverAll]
    | some cs =>
      simp only [members, hg, Option.getD_some]
      apply foldl_deliver_eq
      intro c hc
      exact hw.owner _ (Registry.get_mem _ _ _ hg) c hc

/-- The targets of a message in a well-formed state are distinct clients. -/
theorem targets_nodup (h : Hub) (m : Message) (hw : h.WF) : (h.targets m).Nodup := by
  unfold targets
  split
  · exact hw.members_nodup _
  · rw [List.nodup_flatMap]
    refine ⟨hw.nodup, ?_⟩
    have hk := hw.keys
    have ho := hw.owner
    generalize h.clients = r at hk ho
    induction r with
    | nil => exact List.Pairwise.nil
    | cons e rest ih =>
      rw [List.map_cons, List.nodup_cons] at hk
      refine List.Pairwise.cons ?_ (ih hk.2 (fun e1 he1 => ho e1 (List.mem_cons_of_mem _ he1)))
      intro e1 he1 x hx hx1
      apply hk.1
      have h1 := ho e (List.mem_cons_self _ _) x hx
      have h2 := ho e1 (List.mem_cons_of_mem _ he1) x hx1
      rw [← h1, h2]
      exact List.mem_map.mpr ⟨e1, he1, rfl⟩

/-- The targets of a message are registered clients. -/
theorem targets_registered (h : Hub) (m : Message) (c : Client) (hc : c ∈ h.targets m) :
    ∃ e ∈ h.clients, c ∈ e.2 := by
  unfold targets at hc
  split at hc
  · obtain ⟨e, he, _, hce⟩ := mem_members h _ c hc
    exact ⟨e, he, hce⟩
  · exact List.mem_flatMap.mp hc

theorem targets_live (h : Hub) (m : Message) (hw : h.WF) :
    ∀ c ∈ h.targets m, (h.send c).closed = false := by
  intro c hc
  obtain ⟨e, he, hce⟩ := targets_registered h m c hc
  exact hw.live e he c hce

end Hub

/-! ## The `Register` and `Unregister` cases -/

namespace Hub

/-- The state after the removal of a client: its channel closed, the client out of
the set of its user. -/
def drop (h : Hub) (c : Client) : Hub := (h.deleteClient c.UserID c).closeSend c

theorem drop_members (h : Hub) (c : Client) (u : String) (hw : h.WF) :
    (h.drop c).members u = (h.members u).filter (fun x => decide (x ≠ c)) := by
  by_cases hu : c.UserID = u
  · subst hu
    simp [drop, members, deleteClient, closeSend, Registry.get_set]
  · have hnot : c ∉ h.members u := fun hc => hu (hw.members_owner hc)
    have h1 : (h.drop c).members u = h.members u := by
      simp [drop, members, deleteClient, closeSend, Registry.get_set, hu]
    rw [h1]
    symm
    rw [List.filter_eq_self]
    intro x hx
    have : x ≠ c := fun hxc => hnot (hxc ▸ hx)
    simp [this]

theorem drop_send (h : Hub) (c x : Client) :
    (h.drop c).send x = if x = c then (h.send c).shut else h.send x := by
  by_cases hx : x = c
  · subst hx; simp [drop, deleteClient, closeSend]
  · simp [drop, deleteClient, closeSend, hx]

theorem drop_WF (h : Hub) (c : Client) (hw : h.WF) : (h.drop c).WF := by
  have hmem : ∀ e ∈ (h.drop c).clients,
      e = (c.UserID, (h.members c.UserID).filter (fun x => decide (x ≠ c)))
        ∨ (e ∈ h.clients ∧ e.1 ≠ c.UserID) := by
    intro e he
    exact Registry.mem_set h.clients _ _ e hw.keys he
  refine ⟨hw.running, Registry.keys_set _ _ _ hw.keys, ?_, ?_, ?_⟩
  · intro e he
    rcases hmem e he with h1 | ⟨h1, _⟩
    · rw [h1]
      exact (hw.members_nodup _).filter _
    · exact hw.nodup e h1
  · intro e he x hx
    rcases hmem e he with h1 | ⟨h1, _⟩
    · rw [h1] at hx ⊢
      exact hw.members_owner (List.mem_filter.mp hx).1
    · exact hw.owner e h1 x hx
  · intro e he x hx
    rw [drop_send]
    rcases hmem e he with h1 | ⟨h1, h2⟩
    · rw [h1] at hx
      have hx2 := List.mem_filter.mp hx
      have hxc : x ≠ c := by simpa using hx2.2
      simp only [hxc, if_false]
      exact hw.members_live hx2.1
    · have hxc : x ≠ c := by
        intro hxc
        apply h2
        rw [← hw.owner e h1 x hx, hxc]
      simp only [hxc, if_false]
      exact hw.live e h1 x hx

/-- The state after `delete(h.clients, u)`. -/
def deleteUser (h : Hub) (u : String) : Hub := { h with clients := h.clients.delete u }

theorem deleteUser_WF (h : Hub) (u : String) (hw : h.WF) : (h.deleteUser u).WF := by
  have hmem : ∀ e ∈ (h.deleteUser u).clients, e ∈ h.clients := by
    intro e he
    exact ((Registry.mem_delete _ _ _).mp he).1
  exact ⟨hw.running, Registry.keys_delete _ _ hw.keys, fun e he => hw.nodup e (hmem e he),
    fun e he => hw.owner e (hmem e he), fun e he => hw.live e (hmem e he)⟩

theorem deleteUser_members (h : Hub) (u u1 : String) (hu : h.members u = []) :
    (h.deleteUser u).members u1 = h.members u1 := by
  by_cases h1 : u = u1
  · subst h1
    rw [hu]
    simp [deleteUser, members, Registry.get_delete]
  · simp [deleteUser, members, Registry.get_delete, h1]

/-- The state after the `Unregister` case for a registered client. -/
def unregistered (h : Hub) (c : Client) : Hub :=
  if ((h.drop c).members c.UserID).length = 0 then (h.drop c).deleteUser c.UserID else h.drop c

theorem handle_unregister_present (h : Hub) (c : Client) (hw : h.WF)
    (hc : c ∈ h.members c.UserID) : h.handle (.unregister c) = h.unregistered c := by
  have ho := hw.members_live hc
  unfold members at hc
  cases hg : h.clients.get c.UserID with
  | none => simp [hg] at hc
  | some cs =>
    simp only [hg, Option.getD_some] at hc
    simp only [handle, hw.running, Bool.false_eq_true, if_false, hg, hc, if_true, unregistered]
    have h1 : ((h.deleteClient c.UserID c).send c).closed = false := ho
    simp only [h1, Bool.false_eq_true, if_false]
    rfl

theorem handle_unregister_absent (h : Hub) (c : Client) (hc : h.has c = false) :
    h.handle (.unregister c) = h := by
  unfold has members at hc
  unfold handle
  split
  · rfl
  · cases hg : h.clients.get c.UserID with
    | none => simp only [hg]
    | some cs =>
      simp only [hg, Option.getD_some, decide_eq_false_iff_not] at hc
      simp only [hg, hc, if_false]

theorem unregistered_spec (h : Hub) (c : Client) (hw : h.WF) :
    (h.unregistered c).WF
    ∧ (∀ x, (h.unregistered c).send x = if x = c then (h.send c).shut else h.send x)
    ∧ (∀ u, (h.unregistered c).members u = (h.members u).filter (fun x => decide (x ≠ c)))
    ∧ (h.unregistered c).removed = h.removed ++ [c]
    ∧ (h.unregistered c).closes = h.closes ++ [c] := by
  unfold unregistered
  by_cases hl : ((h.drop c).members c.UserID).length = 0
  · simp only [hl, if_true]
    refine ⟨deleteUser_WF _ _ (drop_WF h c hw), fun x => drop_send h c x, fun u => ?_, rfl, rfl⟩
    rw [deleteUser_members _ _ _ (List.length_eq_zero.mp hl), drop_members h c u hw]
  · simp only [hl, if_false]
    exact ⟨drop_WF h c hw, fun x => drop_send h c x, fun u => drop_members h c u hw, rfl, rfl⟩

/-- The set of the user of `c` with `c` in it: `h.clients[client.UserID][client] = true`. -/
def added (h : Hub) (c : Client) : List Client :=
  if c ∈ h.members c.UserID then h.members c.UserID else h.members c.UserID ++ [c]

/-- The state after the `Register` case. -/
def registered (h : Hub) (c : Client) : Hub :=
  { h with clients := h.clients.set c.UserID (h.added c) }

theorem handle_register (h : Hub) (c : Client) (hr : h.panicked = false) :
    h.handle (.register c) = h.registered c := by
  simp [handle, hr, registered, added]

theorem registered_members (h : Hub) (c : Client) (u : String) :
    (h.registered c).members u
      = if c.UserID = u then
          (if c ∈ h.members u then h.members u else h.members u ++ [c])
        else h.members u := by
  by_cases hu : c.UserID = u
  · subst hu
    simp [registered, added, members, Registry.get_set]
  · simp [registered, added, members, Registry.get_set, hu]

theorem registered_WF (h : Hub) (c : Client) (hw : h.WF) (ho : (h.send c).closed = false) :
    (h.registered c).WF := by
  have hmem : ∀ e ∈ (h.registered c).clients,
      e = (c.UserID, h.added c) ∨ (e ∈ h.clients ∧ e.1 ≠ c.UserID) := by
    intro e he
    exact Registry.mem_set h.clients _ _ e hw.keys he
  have hin : ∀ x ∈ h.added c, x ∈ h.members c.UserID ∨ x = c := by
    intro x hx
    unfold added at hx
    split at hx
    · exact Or.inl hx
    · simpa using hx
  refine ⟨hw.running, Registry.keys_set _ _ _ hw.keys, ?_, ?_, ?_⟩
  · intro e he
    rcases hmem e he with h1 | ⟨h1, _⟩
    · rw [h1]
      unfold added
      by_cases hc : c ∈ h.members c.UserID
      · simp only [hc, if_true]
        exact hw.members_nodup _
      · simp only [hc, if_false]
        exact List.Nodup.append (hw.members_nodup _) (List.nodup_singleton c)
          (by simpa using hc)
    · exact hw.nodup e h1
  · intro e he x hx
    rcases hmem e he with h1 | ⟨h1, _⟩
    · rw [h1] at hx ⊢
      rcases hin x hx with h2 | h2
      · exact hw.members_owner h2
      · rw [h2]
    · exact hw.owner e h1 x hx
  · intro e he x hx
    show (h.send x).closed = false
    rcases hmem e he with h1 | ⟨h1, _⟩
    · rw [h1] at hx
      rcases hin x hx with h2 | h2
      · exact hw.members_live h2
      · rw [h2]; exact ho
    · exact hw.live e h1 x hx

end Hub

/-! ## A closed channel stays as it is -/

namespace Hub

theorem deliver_send_closed (m : Message) (u : String) (h : Hub) (c x : Client)
    (hx : (h.send x).closed = true) : (deliver m u h c).send x = h.send x := by
  unfold deliver
  split
  · rfl
  · split
    · rfl
    · rename_i hc
      have hne : x ≠ c := by
        intro hxc
        rw [hxc] at hx
        exact hc hx
      split
      · simp [enqueue, hne]
      · simp [closeSend, deleteClient, hne]

theorem foldl_deliver_send_closed (m : Message) (u : String) (cs : List Client) (h : Hub)
    (x : Client) (hx : (h.send x).closed = true) :
    (cs.foldl (deliver m u) h).send x = h.send x := by
  induction cs generalizing h with
  | nil => rfl
  | cons c rest ih =>
    have h1 := deliver_send_closed m u h c x hx
    rw [List.foldl_cons, ih _ (by rw [h1]; exact hx), h1]

theorem foldl_entries_send_closed (m : Message) (es : List (String × List Client)) (h : Hub)
    (x : Client) (hx : (h.send x).closed = true) :
    (es.foldl (fun h e => e.2.foldl (deliver m e.1) h) h).send x = h.send x := by
  induction es generalizing h with
  | nil => rfl
  | cons e rest ih =>
    have h1 := foldl_deliver_send_closed m e.1 e.2 h x hx
    rw [List.foldl_cons, ih _ (by rw [h1]; exact hx), h1]

/-- No iteration of the loop changes a channel that is closed: nothing is added to
its buffer (a send on it panics) and it is not closed again. -/
theorem handle_send_closed (h : Hub) (e : HubEvent) (x : Client)
    (hx : (h.send x).closed = true) : (h.handle e).send x = h.send x := by
  unfold handle
  split
  · rfl
  · cases e with
    | register c => rfl
    | unregister c =>
      simp only
      split
      · split
        · split
          · rfl
          · rename_i hc
            have hne : x ≠ c := by
              intro hxc
              rw [hxc] at hx
              exact hc hx
            split <;> simp [closeSend, deleteClient, hne]
        · rfl
      · rfl
    | message m =>
      simp only
      split
      · split
        · exact foldl_deliver_send_closed m _ _ h x hx
        · rfl
      · exact foldl_entries_send_closed m _ h x hx

theorem Run_send_closed (h : Hub) (es : List HubEvent) (x : Client)
    (hx : (h.send x).closed = true) : (h.Run es).send x = h.send x := by
  induction es generalizing h with
  | nil => rfl
  | cons e rest ih =>
    have h1 := handle_send_closed h e x hx
    show ((h.handle e).Run rest).send x = h.send x
    rw [ih _ (by rw [h1]; exact hx), h1]

end Hub

/-! ## Claim C14: register, send, unregister -/

namespace Hub

theorem NewHub_WF : NewHub.WF :=
  ⟨rfl, List.nodup_nil, fun _ he => absurd he (List.not_mem_nil _),
    fun _ he => absurd he (List.not_mem_nil _), fun _ he => absurd he (List.not_mem_nil _)⟩

theorem mem_targets_own (h : Hub) (m : Message) (c : Client) (hc : c ∈ h.members c.UserID)
    (hm : m.UserID = c.UserID ∨ m.UserID = "") : c ∈ h.targets m := by
  unfold targets
  by_cases hu : m.UserID = ""
  · simp only [hu, ne_eq, not_true_eq_false, if_false]
    obtain ⟨e, he, _, hce⟩ := mem_members h _ c hc
    exact List.mem_flatMap.mpr ⟨e, he, hce⟩
  · simp only [ne_eq, hu, not_false_eq_true, if_true]
    rcases hm with hm | hm
    · rw [hm]; exact hc
    · exact absurd hm hu

theorem Run_append (h : Hub) (es1 es2 : List HubEvent) :
    h.Run (es1 ++ es2) = (h.Run es1).Run es2 := by
  unfold Run
  rw [List.foldl_append]

/-- The message case for a registered client, in a well-formed state: what becomes of
the channel and of the membership of a client the message is for. -/
theorem handle_message_target (h : Hub) (m : Message) (c : Client) (hw : h.WF)
    (hc : c ∈ h.members c.UserID) (hm : m.UserID = c.UserID ∨ m.UserID = "") :
    (h.handle (.message m)).WF
    ∧ (h.handle (.message m)).send c = afterSelect (h.send c) m
    ∧ (c ∈ (h.handle (.message m)).members c.UserID ↔ (h.send c).hasRoom = true) := by
  have ht := mem_targets_own h m c hc hm
  obtain ⟨s1, s2, s3, _, _⟩ :=
    deliverAll_spec m (h.targets m) h hw (targets_nodup h m hw) (targets_live h m hw)
  rw [handle_message h m hw]
  refine ⟨s1, ?_, ?_⟩
  · rw [s2 c, if_pos ht]
  · rw [s3 c.UserID, List.mem_filter]
    simp [hc, ht]

end Hub

/-- Claim C14. In a state the loop keeps to, for a client `c` whose channel is open
and has room: after the loop has handled `Register(c)` and the message of
`SendToUser(c.UserID, t, p)`, the buffer of `c` is the buffer as it was followed by
exactly one message, with type `t` and payload `p`, and `c` is registered; after the
loop has then handled `Unregister(c)`, `c` is not in the registry, and whatever events
follow (any further `SendToUser` among them) the buffer of `c` stays as it is. -/
theorem C14_register_send_unregister (h : Hub) (c : Client) (t : String)
    (p : List (String × PVal)) (hw : h.WF) (ho : (h.send c).closed = false)
    (hroom : (h.send c).hasRoom = true) :
    ((h.Run [.register c, Hub.SendToUser c.UserID t p]).send c).buf
        = (h.send c).buf ++ [⟨t, c.UserID, p⟩]
    ∧ (h.Run [.register c, Hub.SendToUser c.UserID t p]).has c = true
    ∧ (h.Run [.register c, Hub.SendToUser c.UserID t p, .unregister c]).has c = false
    ∧ ∀ es : List HubEvent,
        ((h.Run ([.register c, Hub.SendToUser c.UserID t p, .unregister c] ++ es)).send c).buf
          = (h.send c).buf ++ [⟨t, c.UserID, p⟩] := by
  have hw1 := Hub.registered_WF h c hw ho
  have hc1 : c ∈ (h.registered c).members c.UserID := by
    rw [Hub.registered_members, if_pos rfl]
    split
    · assumption
    · simp
  have hs1 : (h.registered c).send c = h.send c := rfl
  obtain ⟨hw2, hs2, hm2⟩ := Hub.handle_message_target (h.registered c) ⟨t, c.UserID, p⟩ c hw1 hc1
    (Or.inl rfl)
  have hc2 := hm2.mpr (by rw [hs1]; exact hroom)
  obtain ⟨_, hs3, hm3, _, _⟩ :=
    Hub.unregistered_spec ((h.registered c).handle (.message ⟨t, c.UserID, p⟩)) c hw2
  have hrun2 : h.Run [.register c, Hub.SendToUser c.UserID t p]
      = (h.registered c).handle (.message ⟨t, c.UserID, p⟩) := by
    simp only [Hub.Run, List.foldl_cons, List.foldl_nil, Hub.SendToUser]
    rw [Hub.handle_register h c hw.running]
  have hrun3 : h.Run [.register c, Hub.SendToUser c.UserID t p, .unregister c]
      = ((h.registered c).handle (.message ⟨t, c.UserID, p⟩)).unregistered c := by
    simp only [Hub.Run, List.foldl_cons, List.foldl_nil, Hub.SendToUser]
    rw [Hub.handle_register h c hw.running]
    exact Hub.handle_unregister_present _ c hw2 hc2
  have hbuf2 : (((h.registered c).handle (.message ⟨t, c.UserID, p⟩)).send c).buf
      = (h.send c).buf ++ [⟨t, c.UserID, p⟩] := by
    rw [hs2, hs1]
    simp [Hub.afterSelect, hroom, Chan.offer]
  refine ⟨?_, ?_, ?_, ?_⟩
  · rw [hrun2, hbuf2]
  · rw [hrun2]
    simpa [Hub.has] using hc2
  · rw [hrun3]
    simp [Hub.has, hm3]
  · intro es
    rw [Hub.Run_append, hrun3, Hub.Run_send_closed _ es c (by rw [hs3]; simp [Chan.shut]),
      hs3, if_pos rfl]
    exact hbuf2

/-- A client of user `u1`. -/
def clientA : Client := ⟨1, "u1"⟩

/-- Claim C14 applied to the fresh hub, the client `clientA` and the message with type
`x` and payload `a: 1`. -/
theorem C14_register_send_unregister_witness :
    Hub.NewHub.WF
    ∧ (Hub.NewHub.send clientA).closed = false
    ∧ (Hub.NewHub.send clientA).hasRoom = true
    ∧ (((Hub.NewHub.Run [.register clientA,
            Hub.SendToUser clientA.UserID "x" [("a", .num 1)]]).send clientA).buf
          = (Hub.NewHub.send clientA).buf ++ [⟨"x", clientA.UserID, [("a", .num 1)]⟩]
      ∧ (Hub.NewHub.Run [.register clientA,
            Hub.SendToUser clientA.UserID "x" [("a", .num 1)]]).has clientA = true
      ∧ (Hub.NewHub.Run [.register clientA, Hub.SendToUser clientA.UserID "x" [("a", .num 1)],
            .unregister clientA]).has clientA = false
      ∧ ∀ es : List HubEvent,
          ((Hub.NewHub.Run ([.register clientA,
              Hub.SendToUser clientA.UserID "x" [("a", .num 1)], .unregister clientA]
                ++ es)).send clientA).buf
            = (Hub.NewHub.send clientA).buf ++ [⟨"x", clientA.UserID, [("a", .num 1)]⟩]) :=
  ⟨Hub.NewHub_WF, by decide, by decide,
   C14_register_send_unregister Hub.NewHub clientA "x" [("a", .num 1)] Hub.NewHub_WF
     (by decide) (by decide)⟩

/-! ## Claim C15: a full buffer -/

/-- Claim C15. In a state the loop keeps to, for a registered client `c` whose buffer
is full when the loop handles a message for the user of `c` or a broadcast: in that
iteration the channel of `c` is closed (its buffer as it was) and `c` leaves the set
of its user; every other client of that user whose buffer has room gets the message
at the end of its buffer and stays registered; and whatever events follow, the
channel of `c` stays as it is, so no message is enqueued to it again. -/
theorem C15_full_buffer_drops_connection (h : Hub) (m : Message) (c : Client) (hw : h.WF)
    (hc : c ∈ h.members c.UserID) (hm : m.UserID = c.UserID ∨ m.UserID = "")
    (hfull : (h.send c).hasRoom = false) :
    ((h.handle (.message m)).send c).closed = true
    ∧ ((h.handle (.message m)).send c).buf = (h.send c).buf
    ∧ c ∉ (h.handle (.message m)).members c.UserID
    ∧ (∀ c1 ∈ h.members c.UserID, (h.send c1).hasRoom = true →
        ((h.handle (.message m)).send c1).buf = (h.send c1).buf ++ [m]
        ∧ ((h.handle (.message m)).send c1).closed = false
        ∧ c1 ∈ (h.handle (.message m)).members c.UserID)
    ∧ ∀ es : List HubEvent,
        ((h.handle (.message m)).Run es).send c = (h.handle (.message m)).send c := by
  obtain ⟨_, hs, hmem⟩ := Hub.handle_message_target h m c hw hc hm
  have hclosed : ((h.handle (.message m)).send c).closed = true := by
    rw [hs]
    simp [Hub.afterSelect, hfull, Chan.shut]
  refine ⟨hclosed, ?_, ?_, ?_, fun es => Hub.Run_send_closed _ es c hclosed⟩
  · rw [hs]
    simp [Hub.afterSelect, hfull, Chan.shut]
  · intro hin
    rw [hmem.mp hin] at hfull
    exact Bool.noConfusion hfull
  · intro c1 hc1 hroom
    have hu : c1.UserID = c.UserID := hw.members_owner hc1
    have hc1own : c1 ∈ h.members c1.UserID := by rw [hu]; exact hc1
    obtain ⟨_, hs1, hmem1⟩ := Hub.handle_message_target h m c1 hw hc1own (by rw [hu]; exact hm)
    refine ⟨?_, ?_, ?_⟩
    · rw [hs1]
      simp [Hub.afterSelect, hroom, Chan.offer]
    · rw [hs1]
      simp [Hub.afterSelect, hroom, Chan.offer, hw.members_live hc1]
    · rw [← hu]
      exact hmem1.mpr hroom

/-- A second client of user `u1`. -/
def clientB : Client := ⟨2, "u1"⟩

/-- A hub with two clients of user `u1`: `clientA`, whose buffer of capacity 1 is
full, and `clientB`, whose buffer is empty. -/
def hubFull : Hub :=
  { clients := [("u1", [clientA, clientB])]
    send := fun c => if c = clientA then ⟨[⟨"old", "u1", []⟩], 1, false⟩ else ⟨[], 256, false⟩
    panicked := false
    closes := []
    removed := [] }

theorem hubFull_WF : hubFull.WF :=
  ⟨rfl, by decide, by decide, by decide, by decide⟩

/-- Claim C15 applied to `hubFull` and a message for user `u1`. -/
theorem C15_full_buffer_drops_connection_witness :
    hubFull.WF
    ∧ clientA ∈ hubFull.members clientA.UserID
    ∧ ((⟨"x", "u1", []⟩ : Message).UserID = clientA.UserID
        ∨ (⟨"x", "u1", []⟩ : Message).UserID = "")
    ∧ (hubFull.send clientA).hasRoom = false
    ∧ (((hubFull.handle (.message ⟨"x", "u1", []⟩)).send clientA).closed = true
      ∧ ((hubFull.handle (.message ⟨"x", "u1", []⟩)).send clientA).buf
          = (hubFull.send clientA).buf
      ∧ clientA ∉ (hubFull.handle (.message ⟨"x", "u1", []⟩)).members clientA.UserID
      ∧ (∀ c1 ∈ hubFull.members clientA.UserID, (hubFull.send c1).hasRoom = true →
          ((hubFull.handle (.message ⟨"x", "u1", []⟩)).send c1).buf
            = (hubFull.send c1).buf ++ [⟨"x", "u1", []⟩]
          ∧ ((hubFull.handle (.message ⟨"x", "u1", []⟩)).send c1).closed = false
          ∧ c1 ∈ (hubFull.handle (.message ⟨"x", "u1", []⟩)).members clientA.UserID)
      ∧ ∀ es : List HubEvent,
          ((hubFull.handle (.message ⟨"x", "u1", []⟩)).Run es).send clientA
            = (hubFull.handle (.message ⟨"x", "u1", []⟩)).send clientA) :=
  ⟨hubFull_WF, by decide, by decide, by decide,
   C15_full_buffer_drops_connection hubFull ⟨"x", "u1", []⟩ clientA hubFull_WF
     (by decide) (by decide) (by decide)⟩

/-! ## Claim C17: who a message reaches -/

/-- Claim C17. In a state the loop keeps to, when the loop handles a message: if the
user ID `u` of the message is not empty, the channel of every client outside the set
of `u` is as before, the set of every other user is as before, and every client of
another user keeps its channel and its place in the registry; if the user ID is
empty, every registered client of every user whose buffer has room gets the message
at the end of its buffer and stays registered. -/
theorem C17_targeted_and_broadcast_delivery (h : Hub) (m : Message) (hw : h.WF) :
    (m.UserID ≠ "" →
      (∀ c, c ∉ h.members m.UserID → (h.handle (.message m)).send c = h.send c)
      ∧ (∀ u, u ≠ m.UserID → (h.handle (.message m)).members u = h.members u)
      ∧ (∀ c : Client, c.UserID ≠ m.UserID →
          (h.handle (.message m)).send c = h.send c
          ∧ (h.handle (.message m)).has c = h.has c))
    ∧ (m.UserID = "" →
      ∀ u, ∀ c ∈ h.members u, (h.send c).hasRoom = true →
        (h.handle (.message m)).send c = (h.send c).offer m
        ∧ c ∈ (h.handle (.message m)).members u) := by
  constructor
  · intro hu
    obtain ⟨_, s2, s3, _, _⟩ :=
      Hub.deliverAll_spec m (h.targets m) h hw (Hub.targets_nodup h m hw) (Hub.targets_live h m hw)
    have ht : h.targets m = h.members m.UserID := by
      simp [Hub.targets, hu]
    rw [Hub.handle_message h m hw]
    rw [ht] at s2 s3 ⊢
    have ha : ∀ c, c ∉ h.members m.UserID →
        (Hub.deliverAll m h (h.members m.UserID)).send c = h.send c := by
      intro c hc
      rw [s2 c, if_neg hc]
    have hb : ∀ u, u ≠ m.UserID →
        (Hub.deliverAll m h (h.members m.UserID)).members u = h.members u := by
      intro u hne
      rw [s3 u, List.filter_eq_self]
      intro x hx
      have hx1 : x ∉ h.members m.UserID := by
        intro hx2
        apply hne
        rw [← hw.members_owner hx, hw.members_owner hx2]
      simp [hx1]
    refine ⟨ha, hb, ?_⟩
    intro c hc
    have hc1 : c ∉ h.members m.UserID := fun hin => hc (hw.members_owner hin)
    refine ⟨ha c hc1, ?_⟩
    unfold Hub.has
    rw [hb c.UserID hc]
  · intro hu u c hc hroom
    have hown : c.UserID = u := hw.members_owner hc
    have hc1 : c ∈ h.members c.UserID := by rw [hown]; exact hc
    obtain ⟨_, s2, s3⟩ := Hub.handle_message_target h m c hw hc1 (Or.inr hu)
    refine ⟨?_, ?_⟩
    · rw [s2]
      simp [Hub.afterSelect, hroom]
    · rw [← hown]
      exact s3.mpr hroom

/-- A client of user `u2`. -/
def clientC : Client := ⟨3, "u2"⟩

/-- A hub with the clients `clientA` and `clientB` of user `u1` and the client
`clientC` of user `u2`, all with empty buffers. -/
def hubTwoUsers : Hub :=
  { clients := [("u1", [clientA, clientB]), ("u2", [clientC])]
    send := fun _ => ⟨[], 256, false⟩
    panicked := false
    closes := []
    removed := [] }

theorem hubTwoUsers_WF : hubTwoUsers.WF :=
  ⟨rfl, by decide, by decide, by decide, by decide⟩

/-- Claim C17 applied to `hubTwoUsers` and a message for user `u1`. -/
theorem C17_targeted_and_broadcast_delivery_witness :
    hubTwoUsers.WF
    ∧ (((⟨"x", "u1", []⟩ : Message).UserID ≠ "" →
        (∀ c, c ∉ hubTwoUsers.members (⟨"x", "u1", []⟩ : Message).UserID →
          (hubTwoUsers.handle (.message ⟨"x", "u1", []⟩)).send c = hubTwoUsers.send c)
        ∧ (∀ u, u ≠ (⟨"x", "u1", []⟩ : Message).UserID →
            (hubTwoUsers.handle (.message ⟨"x", "u1", []⟩)).members u = hubTwoUsers.members u)
        ∧ (∀ c : Client, c.UserID ≠ (⟨"x", "u1", []⟩ : Message).UserID →
            (hubTwoUsers.handle (.message ⟨"x", "u1", []⟩)).send c = hubTwoUsers.send c
            ∧ (hubTwoUsers.handle (.message ⟨"x", "u1", []⟩)).has c = hubTwoUsers.has c))
      ∧ ((⟨"x", "u1", []⟩ : Message).UserID = "" →
        ∀ u, ∀ c ∈ hubTwoUsers.members u, (hubTwoUsers.send c).hasRoom = true →
          (hubTwoUsers.handle (.message ⟨"x", "u1", []⟩)).send c
            = (hubTwoUsers.send c).offer ⟨"x", "u1", []⟩
          ∧ c ∈ (hubTwoUsers.handle (.message ⟨"x", "u1", []⟩)).members u)) :=
  ⟨hubTwoUsers_WF,
   C17_targeted_and_broadcast_delivery hubTwoUsers ⟨"x", "u1", []⟩ hubTwoUsers_WF⟩

/-! ## Claim C18: a message for a user without connections -/

/-- Claim C18. In every hub state in which user `u` has no registered client (no
entry, or an entry with an empty set), the iteration of the loop for a message
addressed to `u`, that is with the non-empty user ID `u`, returns the state it
started in: the registry, every channel and the panic flag are as before. (A
message with an empty user ID is addressed to nobody: it is a broadcast to the
clients of all users.) -/
theorem C18_message_for_absent_user_is_noop (h : Hub) (u t : String)
    (p : List (String × PVal)) (hu : u ≠ "") (hno : h.members u = []) :
    h.handle (Hub.SendToUser u t p) = h := by
  unfold Hub.handle Hub.SendToUser
  split
  · rfl
  · simp only [ne_eq, hu, not_false_eq_true, if_true]
    unfold Hub.members at hno
    cases hg : h.clients.get u with
    | none => rfl
    | some cs =>
      simp only [hg, Option.getD_some] at hno
      simp only [hno, List.foldl_nil]

/-- Claim C18 applied to `hubTwoUsers` and a message for user `u3`. -/
theorem C18_message_for_absent_user_is_noop_witness :
    "u3" ≠ "" ∧ hubTwoUsers.members "u3" = []
    ∧ hubTwoUsers.handle (Hub.SendToUser "u3" "x" [("a", .num 1)]) = hubTwoUsers :=
  ⟨by decide, by decide,
   C18_message_for_absent_user_is_noop hubTwoUsers "u3" "x" [("a", .num 1)] (by decide)
     (by decide)⟩

/-! ## Claim C16: one removal, one close -/

namespace Hub

/-- The states the loop keeps to when no removed client is registered again: a
well-formed state in which the two histories agree, no client was removed twice, and
the closed channels are those of the removed clients. -/
structure Inv (h : Hub) : Prop where
  wf : h.WF
  same : h.closes = h.removed
  once : h.removed.Nodup
  closed_iff : ∀ c, (h.send c).closed = true ↔ c ∈ h.removed

theorem NewHub_Inv : NewHub.Inv :=
  ⟨NewHub_WF, rfl, List.nodup_nil, fun _ => by simp [NewHub]⟩

theorem Inv.live_of_fresh {h : Hub} (hi : h.Inv) {c : Client} (hc : c ∉ h.removed) :
    (h.send c).closed = false := by
  cases hcl : (h.send c).closed with
  | false => rfl
  | true => exact absurd ((hi.closed_iff c).mp hcl) hc

theorem Inv.fresh_of_live {h : Hub} (hi : h.Inv) {c : Client}
    (hc : (h.send c).closed = false) : c ∉ h.removed := by
  intro hin
  rw [(hi.closed_iff c).mpr hin] at hc
  exact Bool.noConfusion hc

theorem registered_Inv (h : Hub) (c : Client) (hi : h.Inv) (hc : c ∉ h.removed) :
    (h.registered c).Inv :=
  ⟨registered_WF h c hi.wf (hi.live_of_fresh hc), hi.same, hi.once, hi.closed_iff⟩

theorem unregistered_Inv (h : Hub) (c : Client) (hi : h.Inv) (hc : c ∈ h.members c.UserID) :
    (h.unregistered c).Inv := by
  obtain ⟨s1, s2, _, s4, s5⟩ := unregistered_spec h c hi.wf
  have hfresh : c ∉ h.removed := hi.fresh_of_live (hi.wf.members_live hc)
  refine ⟨s1, by rw [s4, s5, hi.same], ?_, ?_⟩
  · rw [s4]
    exact List.Nodup.append hi.once (List.nodup_singleton c) (by simpa using hfresh)
  · intro x
    rw [s2 x, s4]
    by_cases hx : x = c
    · subst hx
      simp [Chan.shut]
    · simp only [hx, if_false, List.mem_append, List.mem_singleton, or_false]
      exact hi.closed_iff x

theorem deliverAll_Inv (m : Message) (h : Hub) (hi : h.Inv) :
    (deliverAll m h (h.targets m)).Inv := by
  have hn := targets_nodup h m hi.wf
  have hl := targets_live h m hi.wf
  obtain ⟨s1, s2, _, s4, s5⟩ := deliverAll_spec m (h.targets m) h hi.wf hn hl
  refine ⟨s1, by rw [s4, s5, hi.same], ?_, ?_⟩
  · rw [s4]
    refine List.Nodup.append hi.once (hn.filter _) ?_
    intro x hx1 hx2
    exact hi.fresh_of_live (hl x (List.mem_filter.mp hx2).1) hx1
  · intro x
    rw [s2 x, s4, List.mem_append, List.mem_filter]
    by_cases hx : x ∈ h.targets m
    · have hfresh := hi.fresh_of_live (hl x hx)
      simp only [hx, if_true, hfresh, false_or, true_and]
      unfold afterSelect
      by_cases hroom : (h.send x).hasRoom = true
      · simp [hroom, Chan.offer, hl x hx]
      · simp [hroom, Chan.shut]
    · simp only [hx, if_false, false_and, or_false]
      exact hi.closed_iff x

/-- One iteration of the loop keeps the invariant, when the event is not the
registration of a client already removed. -/
theorem handle_Inv (h : Hub) (e : HubEvent) (hi : h.Inv)
    (hfresh : ∀ c, e = .register c → c ∉ h.removed) : (h.handle e).Inv := by
  cases e with
  | register c =>
    rw [handle_register h c hi.wf.running]
    exact registered_Inv h c hi (hfresh c rfl)
  | unregister c =>
    by_cases hc : c ∈ h.members c.UserID
    · rw [handle_unregister_present h c hi.wf hc]
      exact unregistered_Inv h c hi hc
    · rw [handle_unregister_absent h c (by simpa [has] using hc)]
      exact hi
  | message m =>
    rw [handle_message h m hi.wf]
    exact deliverAll_Inv m h hi

theorem Run_Inv (h : Hub) (es : List HubEvent) (hi : h.Inv)
    (hfresh : h.neverReregisters es = true) : (h.Run es).Inv := by
  induction es generalizing h with
  | nil => exact hi
  | cons e rest ih =>
    unfold neverReregisters at hfresh
    rw [Bool.and_eq_true] at hfresh
    show ((h.handle e).Run rest).Inv
    apply ih _ _ hfresh.2
    apply handle_Inv h e hi
    intro c hc
    subst hc
    simpa using hfresh.1

end Hub

/-- Claim C16. From a state the loop keeps to, over every sequence of register,
unregister and message events in which no client is registered after the loop has
removed it: the loop does not panic, every client's channel is closed at most once and
every client is deleted from the registry at most once; and an `Unregister` for a
client that is not in the registry (never registered, already unregistered, or
already dropped for a full buffer) leaves the whole state, the registry and that
channel included, as it is. -/
theorem C16_removed_and_closed_at_most_once (h : Hub) (es : List HubEvent) (hi : h.Inv)
    (hfresh : h.neverReregisters es = true) :
    (h.Run es).panicked = false
    ∧ (∀ c, (h.Run es).closes.count c ≤ 1 ∧ (h.Run es).removed.count c ≤ 1)
    ∧ ∀ c, (h.Run es).has c = false → (h.Run es).handle (.unregister c) = h.Run es := by
  have hinv := Hub.Run_Inv h es hi hfresh
  refine ⟨hinv.wf.running, fun c => ?_, fun c hc => Hub.handle_unregister_absent _ c hc⟩
  have h1 := List.nodup_iff_count_le_one.mp hinv.once c
  rw [hinv.same]
  exact ⟨h1, h1⟩

/-- A run of the loop: two clients register, a message goes out, `clientA` is
unregistered twice, and another message goes out. -/
def eventsA : List HubEvent :=
  [.register clientA, .register clientB, .message ⟨"x", "u1", []⟩, .unregister clientA,
    .unregister clientA, .message ⟨"y", "", []⟩]

/-- Claim C16 applied to the fresh hub and the run `eventsA`. -/
theorem C16_removed_and_closed_at_most_once_witness :
    Hub.NewHub.Inv
    ∧ Hub.NewHub.neverReregisters eventsA = true
    ∧ ((Hub.NewHub.Run eventsA).panicked = false
      ∧ (∀ c, (Hub.NewHub.Run eventsA).closes.count c ≤ 1
          ∧ (Hub.NewHub.Run eventsA).removed.count c ≤ 1)
      ∧ ∀ c, (Hub.NewHub.Run eventsA).has c = false →
          (Hub.NewHub.Run eventsA).handle (.unregister c) = Hub.NewHub.Run eventsA) :=
  ⟨Hub.NewHub_Inv, by decide,
   C16_removed_and_closed_at_most_once Hub.NewHub eventsA Hub.NewHub_Inv (by decide)⟩

/-! ## Claim C30: the point read and the user ID -/

/-- The point read does not depend on the user ID but for the field `UserID` of the job
it returns: the read for `u2` is the read for `u1` with that field replaced. -/
theorem GetJobStatus_user (J : JSONCodec) (r : RedisClient) (j u1 u2 : String) :
    GetJobStatus J r j u2
      = ((GetJobStatus J r j u1).1.map (fun job => { job with UserID := u2 }),
         (GetJobStatus J r j u1).2) := by
  unfold GetJobStatus
  simp only
  rcases r.Get (statusKey j) with ⟨res, r1⟩
  cases res with
  | error e => rfl
  | ok data =>
    simp only
    cases J.unmarshalMap data with
    | error e => rfl
    | ok m =>
      obtain ⟨st, pr⟩ := m
      cases st <;> cases pr <;> rfl

/-- Claim C30. `GetJobStatus` performs no ownership check: for every client state, job
ID `j` and user IDs `u1`, `u2`, the reads `GetJobStatus(j, u1)` and
`GetJobStatus(j, u2)` fail with the same error or succeed with jobs that have the same
`Status` and `Progress` (and every other field) and differ only in `UserID`, which is
the argument. -/
theorem C30_point_read_ignores_user (J : JSONCodec) (r : RedisClient) (j u1 u2 : String) :
    (∀ e, (GetJobStatus J r j u1).1 = .error e ↔ (GetJobStatus J r j u2).1 = .error e)
    ∧ (∀ job1, (GetJobStatus J r j u1).1 = .ok job1 →
        job1.UserID = u1
        ∧ (GetJobStatus J r j u2).1 = .ok { job1 with UserID := u2 })
    ∧ (∀ job1 job2, (GetJobStatus J r j u1).1 = .ok job1 →
        (GetJobStatus J r j u2).1 = .ok job2 →
        job2.Status = job1.Status ∧ job2.Progress = job1.Progress ∧ job2.ID = job1.ID
        ∧ job2.UserID = u2) := by
  have h12 := GetJobStatus_user J r j u1 u2
  have h21 := GetJobStatus_user J r j u2 u1
  have hown : ∀ job1, (GetJobStatus J r j u1).1 = .ok job1 → job1.UserID = u1 := by
    intro job1 h
    have h11 := GetJobStatus_user J r j "" u1
    rw [h11] at h
    cases hres : (GetJobStatus J r j "").1 with
    | error e => rw [hres] at h; simp [Except.map] at h
    | ok job0 =>
      rw [hres] at h
      simp only [Except.map, Except.ok.injEq] at h
      rw [← h]
  refine ⟨fun e => ?_, fun job1 h => ⟨hown job1 h, ?_⟩, fun job1 job2 h1 h2 => ?_⟩
  · constructor
    · intro h; rw [h12, h]; rfl
    · intro h; rw [h21, h]; rfl
  · rw [h12, h]; rfl
  · rw [h12, h1] at h2
    simp only [Except.map, Except.ok.injEq] at h2
    rw [← h2]
    exact ⟨rfl, rfl, rfl, rfl⟩

/-! ## Commands over any connection: the keys they leave alone -/

theorem LPush_find_other (r : RedisClient) (k v key : String) (h : k ≠ key) :
    (r.LPush k v).2.store.find key = r.store.find key := by
  unfold RedisClient.LPush RedisClient.nextFault
  rcases hf : r.faults with _ | ⟨f, fs⟩
  · simp only [Bool.false_eq_true, if_false]
    cases hk : r.store.find k with
    | none => simp [Store.find_put, h]
    | some val => cases val <;> simp [Store.find_put, h]
  · cases f
    · simp only [Bool.false_eq_true, if_false]
      cases hk : r.store.find k with
      | none => simp [Store.find_put, h]
      | some val => cases val <;> simp [Store.find_put, h]
    · simp

theorem Del_find_other (r : RedisClient) (k key : String) (h : k ≠ key) :
    (r.Del k).2.store.find key = r.store.find key := by
  unfold RedisClient.Del RedisClient.nextFault
  rcases hf : r.faults with _ | ⟨f, fs⟩
  · simp [Store.find_erase, h]
  · cases f <;> simp [Store.find_erase, h]

/-- A `Set` that returns an error has not reached the server: the key space is as it
was. -/
theorem Set_failure (r : RedisClient) (k v : String) (t : Nat) (h : (r.Set k v t).1 ≠ none) :
    (r.Set k v t).2.store = r.store := by
  unfold RedisClient.Set RedisClient.nextFault at h ⊢
  rcases hf : r.faults with _ | ⟨f, fs⟩
  · rw [hf] at h; simp at h
  · cases f
    · rw [hf] at h; simp at h
    · simp

/-! ## Claim C22: a submission whose copy cannot be stored -/

/-- Claim C22. When the file is read and storing the recoverable copy fails, nothing is
stored, `QueueFile` goes on to push the item and returns what that push returns; if it
returns no error the item is at the left end of the queue and no recoverable copy has
been written. When reading the file fails, `QueueFile` returns that error and the
client, with its key space, is as it was: no copy stored, nothing pushed. -/
theorem C22_copy_failure_is_not_fatal (J : JSONCodec) (r : RedisClient) (sub : Submission)
    (data : List Byte) (hfile : sub.file = .ok data)
    (hset : (r.Set (persistentKey sub.jobID) (J.marshalJob sub.item) (7 * 24 * 3600)).1 ≠ none) :
    (r.Set (persistentKey sub.jobID) (J.marshalJob sub.item) (7 * 24 * 3600)).2.store = r.store
    ∧ QueueFile J r sub.now sub.jobID sub.userID sub.file sub.filename sub.sourceType
        = (r.Set (persistentKey sub.jobID) (J.marshalJob sub.item) (7 * 24 * 3600)).2.LPush
            "job_queue" (J.marshalJob sub.item)
    ∧ (∀ r1, QueueFile J r sub.now sub.jobID sub.userID sub.file sub.filename sub.sourceType
          = (none, r1) →
        queueOf r1.store = J.marshalJob sub.item :: queueOf r.store
        ∧ r1.store.find (persistentKey sub.jobID) = r.store.find (persistentKey sub.jobID))
    ∧ (∀ (err : Error) (r0 : RedisClient),
        QueueFile J r0 sub.now sub.jobID sub.userID (.error err) sub.filename sub.sourceType
          = (some err, r0)) := by
  have hq : QueueFile J r sub.now sub.jobID sub.userID sub.file sub.filename sub.sourceType
      = (r.Set (persistentKey sub.jobID) (J.marshalJob sub.item) (7 * 24 * 3600)).2.LPush
          "job_queue" (J.marshalJob sub.item) := by
    unfold QueueFile
    rw [hfile]
    simp only [Submission.item, hfile]
  refine ⟨Set_failure r _ _ _ hset, hq, ?_, fun err r0 => rfl⟩
  intro r1 h1
  refine ⟨QueueFile_success J r r1 sub h1, ?_⟩
  rw [hq] at h1
  have h2 := LPush_find_other
    (r.Set (persistentKey sub.jobID) (J.marshalJob sub.item) (7 * 24 * 3600)).2
    "job_queue" (J.marshalJob sub.item) (persistentKey sub.jobID) (persistentKey_ne_queue _).symm
  rw [h1] at h2
  rw [h2, Set_failure r _ _ _ hset]

/-- Claim C22 applied to the submission `subA` on an empty store, over a connection
that fails for the first command and works afterwards. -/
theorem C22_copy_failure_is_not_fatal_witness :
    subA.file = .ok [1, 2]
    ∧ ((⟨[], [true]⟩ : RedisClient).Set (persistentKey subA.jobID)
        (RefJSON.codec.marshalJob subA.item) (7 * 24 * 3600)).1 ≠ none
    ∧ QueueFile RefJSON.codec ⟨[], [true]⟩ subA.now subA.jobID subA.userID subA.file
        subA.filename subA.sourceType
        = (none, ⟨[("job_queue", .list [RefJSON.codec.marshalJob subA.item])], []⟩)
    ∧ (∀ r1, QueueFile RefJSON.codec ⟨[], [true]⟩ subA.now subA.jobID subA.userID subA.file
          subA.filename subA.sourceType = (none, r1) →
        queueOf r1.store = RefJSON.codec.marshalJob subA.item :: queueOf []
        ∧ r1.store.find (persistentKey subA.jobID)
            = Store.find [] (persistentKey subA.jobID)) :=
  ⟨rfl, by decide, by decide,
   (C22_copy_failure_is_not_fatal RefJSON.codec ⟨[], [true]⟩ subA [1, 2] rfl
     (by decide)).2.2.1⟩

/-! ## Claim C21: what a job through the worker leaves alone -/

theorem updateJobStatus_find_other (J : JSONCodec) (r : RedisClient) (now : Time)
    (j st : String) (p : Int) (key : String) (h : statusKey j ≠ key) :
    (updateJobStatus J r now j st p).store.find key = r.store.find key := by
  unfold updateJobStatus
  exact Set_find_other r _ _ _ key h

theorem addJobError_find_other (r : RedisClient) (j msg key : String) (h : errorsKey j ≠ key) :
    (addJobError r j msg).store.find key = r.store.find key := by
  unfold addJobError
  exact LPush_find_other r _ _ key h

/-- The Redis client after a job went through the worker without cancellation, over any
connection: the commands the worker issues, in order. -/
theorem processJob_redis_commands (J : JSONCodec) (q : JobQueue) (w : World) (now : Time)
    (job : JobItem) :
    (processJobWithContext J q w now false job).redis =
      match (ProcessFile q.documentService w now job.JobID job.UserID job.FileData job.Filename
        job.SourceType).1 with
      | none =>
        ((updateJobStatus J (updateJobStatus J w.redis now job.JobID "processing" 0) now
          job.JobID "completed" 100).Del (persistentKey job.JobID)).2
      | some err =>
        ((addJobError (updateJobStatus J (updateJobStatus J w.redis now job.JobID "processing" 0)
          now job.JobID "failed" 100) job.JobID err).Del (persistentKey job.JobID)).2 := by
  have hcongr := ProcessFile_error_congr q.documentService (startedWorld J q w now job) w now
    job.JobID job.UserID job.FileData job.Filename job.SourceType
    (startedWorld_documents J q w now job)
  obtain ⟨evs, hr, _, _, _⟩ := ProcessFile_spec q.documentService (startedWorld J q w now job)
    now job.JobID job.UserID job.FileData job.Filename job.SourceType
  rw [startedWorld_redis] at hr
  rw [← hcongr]
  unfold processJobWithContext
  unfold startedWorld at hr ⊢
  simp only [Bool.false_eq_true, if_false]
  generalize ProcessFile q.documentService _ now job.JobID job.UserID job.FileData job.Filename
    job.SourceType = res at hr ⊢
  obtain ⟨err, w2⟩ := res
  simp only at hr
  cases err with
  | none =>
    simp only
    split <;> simp [JobCompleted, SendToUser, hr]
  | some e =>
    simp only
    split <;> simp [JobFailed, SendToUser, hr]

/-- Whatever the connection does and whether the pipeline succeeds or fails, a job
through the worker leaves every key alone but the job's status key, error-log key and
recoverable-copy key. -/
theorem processJob_find_other (J : JSONCodec) (q : JobQueue) (w : World) (now : Time)
    (job : JobItem) (key : String) (h1 : statusKey job.JobID ≠ key)
    (h2 : errorsKey job.JobID ≠ key) (h3 : persistentKey job.JobID ≠ key) :
    (processJobWithContext J q w now false job).redis.store.find key
      = w.redis.store.find key := by
  rw [processJob_redis_commands]
  cases (ProcessFile q.documentService w now job.JobID job.UserID job.FileData job.Filename
      job.SourceType).1 with
  | none =>
    simp only
    rw [Del_find_other _ _ _ h3, updateJobStatus_find_other _ _ _ _ _ _ _ h1,
      updateJobStatus_find_other _ _ _ _ _ _ _ h1]
  | some err =>
    simp only
    rw [Del_find_other _ _ _ h3, addJobError_find_other _ _ _ _ h2,
      updateJobStatus_find_other _ _ _ _ _ _ _ h1, updateJobStatus_find_other _ _ _ _ _ _ _ h1]

/-- Claim C21. For every job `J` that `processJobWithContext` handles under a context
that is not cancelled, over any connection and whether the pipeline succeeds or fails:
the queue `job_queue` is as it was, contents and order, and for every other job ID
`j` what is stored under its status key, its error-log key and its recoverable-copy
key is as it was. Job IDs are taken to be such that no status key has the shape of an
error-log key (no ID ends in `:errors`), as is the case for the IDs `Upload` makes. -/
theorem C21_worker_touches_only_its_job (J : JSONCodec) (q : JobQueue) (w : World) (now : Time)
    (job : JobItem) (j : String) (hne : j ≠ job.JobID)
    (hJ : isErrorsKey (statusKey job.JobID) = false) (hj : isErrorsKey (statusKey j) = false) :
    queueOf (processJobWithContext J q w now false job).redis.store = queueOf w.redis.store
    ∧ (processJobWithContext J q w now false job).redis.store.find (statusKey j)
        = w.redis.store.find (statusKey j)
    ∧ (processJobWithContext J q w now false job).redis.store.find (errorsKey j)
        = w.redis.store.find (errorsKey j)
    ∧ (processJobWithContext J q w now false job).redis.store.find (persistentKey j)
        = w.redis.store.find (persistentKey j) := by
  have hs : statusKey job.JobID ≠ statusKey j := fun h => hne (statusKey_injective h).symm
  have he : errorsKey job.JobID ≠ errorsKey j := fun h => hne (errorsKey_injective h).symm
  have hp : persistentKey job.JobID ≠ persistentKey j :=
    fun h => hne (persistentKey_injective h).symm
  refine ⟨?_, ?_, ?_, ?_⟩
  · unfold queueOf Store.listAt
    rw [processJob_find_other J q w now job "job_queue" (statusKey_ne_queue _)
      (errorsKey_ne_queue _) (persistentKey_ne_queue _)]
  · exact processJob_find_other J q w now job _ hs
      (isErrorsKey_ne (isErrorsKey_errorsKey _) hj) (persistentKey_ne_statusKey _ _)
  · exact processJob_find_other J q w now job _
      (isErrorsKey_ne (isErrorsKey_errorsKey _) hJ).symm he (persistentKey_ne_errorsKey _ _)
  · exact processJob_find_other J q w now job _ (persistentKey_ne_statusKey _ _).symm
      (persistentKey_ne_errorsKey _ _).symm hp

/-- A world whose store is `storeSettled`: job `A` in `processing` with its recoverable
copy, job `B` completed with an error log and a copy, and one item on the queue. -/
def worldSettled : World :=
  { redis := RedisClient.reliable storeSettled, broadcast := [], documents := [], vectors := [] }

/-- Claim C21 applied to job `A` going through a pipeline that fails, and to the other
job `B`. -/
theorem C21_worker_touches_only_its_job_witness :
    "B" ≠ subA.item.JobID
    ∧ isErrorsKey (statusKey subA.item.JobID) = false
    ∧ isErrorsKey (statusKey "B") = false
    ∧ (queueOf (processJobWithContext RefJSON.codec ⟨failingService, true⟩ worldSettled 9 false
          subA.item).redis.store = queueOf worldSettled.redis.store
      ∧ (processJobWithContext RefJSON.codec ⟨failingService, true⟩ worldSettled 9 false
          subA.item).redis.store.find (statusKey "B")
          = worldSettled.redis.store.find (statusKey "B")
      ∧ (processJobWithContext RefJSON.codec ⟨failingService, true⟩ worldSettled 9 false
          subA.item).redis.store.find (errorsKey "B")
          = worldSettled.redis.store.find (errorsKey "B")
      ∧ (processJobWithContext RefJSON.codec ⟨failingService, true⟩ worldSettled 9 false
          subA.item).redis.store.find (persistentKey "B")
          = worldSettled.redis.store.find (persistentKey "B")) :=
  ⟨by decide, by decide, by decide,
   C21_worker_touches_only_its_job RefJSON.codec ⟨failingService, true⟩ worldSettled 9
     subA.item "B" (by decide) (by decide) (by decide)⟩

/-! ## Claim C29: cancellation followed by recovery -/

/-- Claim C29. Over a connection without faults (the queue key not bound to a plain
string, the job's status key not of the shape of an error-log key), for a job whose
recoverable copy is stored and decodes to an item with the job's ID: when
`processJobWithContext` meets a cancelled context, the status entry is left at
`processing`, the copy is kept and the item is pushed back; the next run of
`resumeUnprocessedJobs` then pushes the copy again, so that the queue holds two items
with that job ID, the one re-queued by recovery to the left of the one pushed back on
cancellation, both in front of the queue as it was. -/
theorem C29_cancel_then_recover_duplicates (J : JSONCodec) (q : JobQueue) (w : World)
    (now now2 : Time) (job copyJob : JobItem) (copy : String)
    (hrel : w.redis.faults = [])
    (hq : w.redis.store.holdsString "job_queue" = false)
    (hj : isErrorsKey (statusKey job.JobID) = false)
    (hc : persistentCopy w.redis.store job.JobID = some copy)
    (hd : J.unmarshalJob copy = .ok copyJob) (hid : copyJob.JobID = job.JobID) :
    statusOf J (processJobWithContext J q w now true job).redis.store job.JobID
        = some "processing"
    ∧ persistentCopy (processJobWithContext J q w now true job).redis.store job.JobID
        = some copy
    ∧ queueOf (processJobWithContext J q w now true job).redis.store
        = J.marshalJob { job with Status := "processing" } :: queueOf w.redis.store
    ∧ (∃ pre mid,
        queueOf (resumeUnprocessedJobs J (processJobWithContext J q w now true job).redis
            now2).store
          = pre ++ J.marshalJob { copyJob with Status := "pending" }
              :: (mid ++ J.marshalJob { job with Status := "processing" }
                :: queueOf w.redis.store))
    ∧ (∃ item1, J.unmarshalJob (J.marshalJob { copyJob with Status := "pending" }) = .ok item1
        ∧ item1.JobID = job.JobID)
    ∧ (∃ item2, J.unmarshalJob (J.marshalJob { job with Status := "processing" }) = .ok item2
        ∧ item2.JobID = job.JobID) := by
  obtain ⟨hqueue, hstatus⟩ := processJob_cancelled_queue J q w now job hrel hq
  have hredis := processJob_cancelled_redis J q w now job _ (reliable_eta w.redis hrel)
  have hfind : (processJobWithContext J q w now true job).redis.store.find
      (persistentKey job.JobID) = w.redis.store.find (persistentKey job.JobID) := by
    rw [hredis]
    simp only
    rw [find_push _ _ _ _ (persistentKey_ne_queue _).symm, Store.find_put]
    simp [(persistentKey_ne_statusKey job.JobID job.JobID).symm]
  have hcopy : persistentCopy (processJobWithContext J q w now true job).redis.store job.JobID
      = some copy := by
    unfold persistentCopy at hc ⊢
    rw [hfind]
    exact hc
  have hq1 : (processJobWithContext J q w now true job).redis.store.holdsString "job_queue"
      = false := by
    rw [hredis]
    simp only
    rw [holdsString_push, ← hq]
    exact holdsString_congr _ _ _ (by rw [Store.find_put]; simp [statusKey_ne_queue])
  have hrel1 : (processJobWithContext J q w now true job).redis
      = RedisClient.reliable (processJobWithContext J q w now true job).redis.store := by
    rw [hredis]
    rfl
  refine ⟨hstatus, hcopy, hqueue, ?_, ⟨_, J.job_roundtrip _, hid⟩, ⟨_, J.job_roundtrip _, rfl⟩⟩
  have hr := recoveryOf_processing J _ job.JobID hj hstatus
  rw [hcopy] at hr
  simp only [hd] at hr
  have hreq : requeued J (processJobWithContext J q w now true job).redis.store
      (statusKey job.JobID) = some (J.marshalJob { copyJob with Status := "pending" }) := by
    simp [requeued, hr]
  obtain ⟨v, t, m, hk, _, _⟩ := statusOf_eq_some J _ job.JobID _ hstatus
  have hmem : statusKey job.JobID
      ∈ jobKeys (processJobWithContext J q w now true job).redis.store := by
    rw [mem_jobKeys]
    exact ⟨by simp [hk], by rw [sliceFrom_statusKey]⟩
  have hin : J.marshalJob { copyJob with Status := "pending" }
      ∈ ((jobKeys (processJobWithContext J q w now true job).redis.store).filterMap
          (requeued J (processJobWithContext J q w now true job).redis.store)).reverse := by
    rw [List.mem_reverse, List.mem_filterMap]
    exact ⟨_, hmem, hreq⟩
  obtain ⟨pre, mid, hsplit⟩ := List.append_of_mem hin
  refine ⟨pre, mid, ?_⟩
  rw [hrel1, resume_queue J now2 _ hq1, hsplit, hqueue]
  simp

/-- Claim C29 applied to job `A`, whose copy is the only entry of the store. -/
theorem C29_cancel_then_recover_duplicates_witness :
    worldA.redis.faults = []
    ∧ worldA.redis.store.holdsString "job_queue" = false
    ∧ isErrorsKey (statusKey subA.item.JobID) = false
    ∧ persistentCopy worldA.redis.store subA.item.JobID
        = some (RefJSON.codec.marshalJob subA.item)
    ∧ subA.item.JobID = subA.item.JobID
    ∧ queueOf (resumeUnprocessedJobs RefJSON.codec
          (processJobWithContext RefJSON.codec ⟨okService, true⟩ worldA 9 true subA.item).redis
          10).store
        = [RefJSON.codec.marshalJob subA.item,
           RefJSON.codec.marshalJob { subA.item with Status := "processing" }]
    ∧ statusOf RefJSON.codec (processJobWithContext RefJSON.codec ⟨okService, true⟩ worldA 9 true
        subA.item).redis.store subA.item.JobID = some "processing" :=
  ⟨rfl, by decide, by decide, by decide, rfl, by decide,
   (C29_cancel_then_recover_duplicates RefJSON.codec ⟨okService, true⟩ worldA 9 10 subA.item
     subA.item (RefJSON.codec.marshalJob subA.item) rfl (by decide) (by decide) (by decide)
     (RefJSON.codec.job_roundtrip _) rfl).1⟩

/-! ## The hub and the connection handler (`api/websocket_handler.go`) -/

namespace Hub

end Hub

/-- The predicate `unicode.IsSpace`: the code points with the Unicode property
White_Space. -/
def IsSpace (r : Char) : Bool :=
  (decide (9 ≤ r.toNat) && decide (r.toNat ≤ 13)) || r.toNat == 0x20 || r.toNat == 0x85
    || r.toNat == 0xA0 || r.toNat == 0x1680
    || (decide (0x2000 ≤ r.toNat) && decide (r.toNat ≤ 0x200A))
    || r.toNat == 0x2028 || r.toNat == 0x2029 || r.toNat == 0x202F || r.toNat == 0x205F
    || r.toNat == 0x3000

/-- The ASCII part of `unicode.IsPunct` (categories Pc, Pd, Ps, Pe, Pi, Pf, Po): the
code points 21-23, 25-2A, 2C-2F, 3A, 3B, 3F, 40, 5B-5D, 5F, 7B and 7D (hexadecimal).
The signs `$`, `+`, `<`, `=`, `>`, `^`, `|` and `~` are symbols, not punctuation. -/
def asciiPunct (r : Char) : Bool :=
  (decide (0x21 ≤ r.toNat) && decide (r.toNat ≤ 0x23))
    || (decide (0x25 ≤ r.toNat) && decide (r.toNat ≤ 0x2A))
    || (decide (0x2C ≤ r.toNat) && decide (r.toNat ≤ 0x2F))
    || r.toNat == 0x3A || r.toNat == 0x3B || r.toNat == 0x3F || r.toNat == 0x40
    || (decide (0x5B ≤ r.toNat) && decide (r.toNat ≤ 0x5D))
    || r.toNat == 0x5F || r.toNat == 0x7B || r.toNat == 0x7D

/-- The table of package `unicode` that depends on the Unicode version the program is
built with: `IsPunct` is `unicode.IsPunct`, of which only the ASCII part is fixed
here. -/
structure Unicode where
  IsPunct : Char → Bool
  punct_ascii : ∀ r : Char, r.toNat < 128 → IsPunct r = asciiPunct r

/-- A table with the ASCII punctuation and no other: it stands for `unicode.IsPunct` in
the examples, whose texts are ASCII. -/
def RefUnicode : Unicode := ⟨asciiPunct, fun _ _ => rfl⟩

/-- The length `len(s)` of a string in bytes. -/
def len (s : String) : Nat := (s.data.map Char.utf8Size).sum

/-- The function `strings.TrimSpace`: the string without its leading and trailing
white space. -/
def TrimSpace (s : String) : String := ⟨List.rdropWhile IsSpace (s.data.dropWhile IsSpace)⟩

/-- The scan of `strings.Split(s, sep)`: `skip` characters of a separator just found
are still to be passed over, `cur` holds the current piece backwards. -/
def splitLoop (sep : List Char) : List Char → Nat → List Char → List (List Char)
  | [], _, cur => [cur.reverse]
  | _ :: rest, skip + 1, cur => splitLoop sep rest skip cur
  | c :: rest, 0, cur =>
    if sep.isPrefixOf (c :: rest) then cur.reverse :: splitLoop sep rest (sep.length - 1) []
    else splitLoop sep rest 0 (c :: cur)

/-- The function `strings.Split` for a separator that is not empty (the program splits
at `"\n\n"` and `"\n\n\n"`): the pieces between the occurrences of `sep`, found from
the left without overlap. -/
def Split (s sep : String) : List String := (splitLoop sep.data s.data 0 []).map String.mk

/-- The scan of `strings.ReplaceAll(s, old, new)`. -/
def replaceLoop (old new : List Char) : List Char → Nat → List Char
  | [], _ => []
  | _ :: rest, skip + 1 => replaceLoop old new rest skip
  | c :: rest, 0 =>
    if old.isPrefixOf (c :: rest) then new ++ replaceLoop old new rest (old.length - 1)
    else c :: replaceLoop old new rest 0

/-- The function `strings.ReplaceAll` for an `old` that is not empty. -/
def ReplaceAll (s old new : String) : String := ⟨replaceLoop old.data new.data s.data 0⟩

/-- The loop `for _, r := range text` of `countWords` with its variables `words` and
`inWord`, followed by the count of the last word. -/
def countWordsLoop (U : Unicode) : List Char → Nat → Bool → Nat
  | [], words, inWord => if inWord then words + 1 else words
  | r :: rest, words, inWord =>
    if IsSpace r || U.IsPunct r then
      if inWord then countWordsLoop U rest (words + 1) false
      else countWordsLoop U rest words inWord
    else countWordsLoop U rest words true

/-- The function `countWords`. -/
def countWords (U : Unicode) (text : String) : Nat :=
  if text = "" then 0 else countWordsLoop U text.data 0 false

/-- The inner loop of `splitIntoParagraphs`: the trimmed pieces that are not empty are
appended to `result`. -/
def appendTrimmed (result : List String) (subParagraphs : List String) : List String :=
  subParagraphs.foldl
    (fun result sp => if TrimSpace sp ≠ "" then result ++ [TrimSpace sp] else result) result

/-- The function `splitIntoParagraphs`. -/
def splitIntoParagraphs (text : String) : List String :=
  let text := ReplaceAll text "\r\n" "\n"
  let text := ReplaceAll text "\r" "\n"
  let paragraphs := Split text "\n\n"
  paragraphs.foldl (fun result p => appendTrimmed result (Split p "\n\n\n")) []

/-- The variables of the loop of `ChunkByParagraphs`: `chunks`, the content of the
builder `currentChunk`, and `currentWordCount`. -/
structure ChunkState where
  chunks : List String
  currentChunk : String
  currentWordCount : Nat
  deriving DecidableEq, Repr

/-- The first `if` of the loop body: a chunk that the paragraph would take beyond 3000
bytes is finalized. -/
def flushIfLong (st : ChunkState) (paragraph : String) : ChunkState :=
  if len st.currentChunk > 0 ∧ len st.currentChunk + len paragraph > 3000 then
    ⟨st.chunks ++ [TrimSpace st.currentChunk], "", 0⟩
  else st

/-- The builder after the paragraph is written to it, after `"\n\n"` when it was not
empty. -/
def writeParagraph (currentChunk paragraph : String) : String :=
  (if len currentChunk > 0 then currentChunk ++ "\n\n" else currentChunk) ++ paragraph

/-- The body of the loop `for _, paragraph := range paragraphs` of `ChunkByParagraphs`. -/
def chunkStep (U : Unicode) (minWords : Int) (st : ChunkState) (paragraph : String) :
    ChunkState :=
  let paragraph := TrimSpace paragraph
  if paragraph = "" then st
  else
    let wordCount := countWords U paragraph
    let st := flushIfLong st paragraph
    let currentChunk := writeParagraph st.currentChunk paragraph
    let currentWordCount := st.currentWordCount + wordCount
    if (currentWordCount : Int) ≥ minWords then ⟨st.chunks ++ [TrimSpace currentChunk], "", 0⟩
    else ⟨st.chunks, currentChunk, currentWordCount⟩

/-- The function `ChunkByParagraphs`. -/
def ChunkByParagraphs (U : Unicode) (text : String) (minWords : Int) : List String :=
  let minWords := if minWords ≤ 0 then 100 else minWords
  let paragraphs := splitIntoParagraphs text
  let st := paragraphs.foldl (chunkStep U minWords) ⟨[], "", 0⟩
  if len st.currentChunk > 0 then st.chunks ++ [TrimSpace st.currentChunk] else st.chunks

/-! ## Claim C24: `countWords` counts the runs of word characters -/

/-- Whether `countWords` takes a character for a separator. -/
def isSeparator (U : Unicode) (r : Char) : Bool := IsSpace r || U.IsPunct r

/-- The number of maximal runs of consecutive characters that are neither white space
nor punctuation: the pieces between separators that are not empty. -/
def runsOf (U : Unicode) (l : List Char) : Nat :=
  ((l.splitOnP (isSeparator U)).filter (fun run => !run.isEmpty)).length

/-- The number of words of a text as the specification counts them. -/
def wordRuns (U : Unicode) (text : String) : Nat := runsOf U text.data

theorem countWordsLoop_sep (U : Unicode) (r : Char) (rest : List Char) (words : Nat)
    (inWord : Bool) (hr : isSeparator U r = true) :
    countWordsLoop U (r :: rest) words inWord
      = countWordsLoop U rest (if inWord then words + 1 else words) false := by
  unfold isSeparator at hr
  cases inWord <;> simp [countWordsLoop, hr]

theorem countWordsLoop_word (U : Unicode) (r : Char) (rest : List Char) (words : Nat)
    (inWord : Bool) (hr : isSeparator U r = false) :
    countWordsLoop U (r :: rest) words inWord = countWordsLoop U rest words true := by
  unfold isSeparator at hr
  simp [countWordsLoop, hr]

theorem runsOf_nil (U : Unicode) : runsOf U [] = 0 := by
  simp [runsOf, List.splitOnP_nil]

theorem runsOf_cons_sep (U : Unicode) (r : Char) (l : List Char)
    (hr : isSeparator U r = true) : runsOf U (r :: l) = runsOf U l := by
  simp [runsOf, List.splitOnP_cons, hr]

theorem runsOf_word_sep (U : Unicode) (x r : Char) (l : List Char)
    (hx : isSeparator U x = false) (hr : isSeparator U r = true) :
    runsOf U (x :: r :: l) = 1 + runsOf U l := by
  simp [runsOf, List.splitOnP_cons, hr, hx, List.modifyHead]
  omega

theorem runsOf_word_word (U : Unicode) (x r : Char) (l : List Char)
    (hx : isSeparator U x = false) (hr : isSeparator U r = false) :
    runsOf U (x :: r :: l) = runsOf U (r :: l) := by
  have hne := List.splitOnP_ne_nil (isSeparator U) l
  cases hs : l.splitOnP (isSeparator U) with
  | nil => exact absurd hs hne
  | cons h t => simp [runsOf, List.splitOnP_cons, hr, hx, List.modifyHead, hs]

theorem runsOf_single (U : Unicode) (x : Char) (hx : isSeparator U x = false) :
    runsOf U [x] = 1 := by
  simp [runsOf, List.splitOnP_cons, List.splitOnP_nil, hx, List.modifyHead]

/-- The loop of `countWords` adds to `words` the runs that are still to come; a word
that is open when the rest begins counts as one run with the rest's first run. -/
theorem countWordsLoop_runs (U : Unicode) (l : List Char) :
    (∀ words, countWordsLoop U l words false = words + runsOf U l)
    ∧ (∀ words x, isSeparator U x = false →
        countWordsLoop U l words true = words + runsOf U (x :: l)) := by
  induction l with
  | nil =>
    refine ⟨fun words => by simp [countWordsLoop, runsOf_nil], fun words x hx => ?_⟩
    simp [countWordsLoop, runsOf_single U x hx]
  | cons r rest ih =>
    cases hr : isSeparator U r with
    | true =>
      refine ⟨fun words => ?_, fun words x hx => ?_⟩
      · rw [countWordsLoop_sep U r rest words false hr, runsOf_cons_sep U r rest hr]
        exact ih.1 words
      · rw [countWordsLoop_sep U r rest words true hr, runsOf_word_sep U x r rest hx hr]
        simp only [if_true]
        rw [ih.1]
        omega
    | false =>
      refine ⟨fun words => ?_, fun words x hx => ?_⟩
      · rw [countWordsLoop_word U r rest words false hr]
        exact ih.2 words r hr
      · rw [countWordsLoop_word U r rest words true hr, runsOf_word_word U x r rest hx hr]
        exact ih.2 words r hr

theorem countWords_eq_loop (U : Unicode) (text : String) :
    countWords U text = countWordsLoop U text.data 0 false := by
  unfold countWords
  split
  · rename_i h
    rw [h]
    rfl
  · rfl

theorem countWords_eq_wordRuns (U : Unicode) (text : String) :
    countWords U text = wordRuns U text := by
  rw [countWords_eq_loop, (countWordsLoop_runs U text.data).1]
  simp [wordRuns]

/-- Separators at the end of a text do not change the count. -/
theorem countWordsLoop_append_seps (U : Unicode) (l seps : List Char)
    (hs : ∀ r ∈ seps, isSeparator U r = true) (words : Nat) (inWord : Bool) :
    countWordsLoop U (l ++ seps) words inWord = countWordsLoop U l words inWord := by
  induction l generalizing words inWord with
  | nil =>
    simp only [List.nil_append]
    induction seps generalizing words inWord with
    | nil => rfl
    | cons r rest ih =>
      rw [countWordsLoop_sep U r rest words inWord (hs r (List.mem_cons_self _ _)),
        ih (fun x hx => hs x (List.mem_cons_of_mem _ hx))]
      cases inWord <;> simp [countWordsLoop]
  | cons r rest ih =>
    cases hr : isSeparator U r with
    | true =>
      rw [List.cons_append, countWordsLoop_sep U r _ words inWord hr,
        countWordsLoop_sep U r _ words inWord hr, ih]
    | false =>
      rw [List.cons_append, countWordsLoop_word U r _ words inWord hr,
        countWordsLoop_word U r _ words inWord hr, ih]

/-- Separators at the start of a text do not change the count. -/
theorem countWordsLoop_seps_append (U : Unicode) (seps l : List Char)
    (hs : ∀ r ∈ seps, isSeparator U r = true) (words : Nat) :
    countWordsLoop U (seps ++ l) words false = countWordsLoop U l words false := by
  induction seps with
  | nil => rfl
  | cons r rest ih =>
    rw [List.cons_append, countWordsLoop_sep U r _ words false (hs r (List.mem_cons_self _ _))]
    exact ih (fun x hx => hs x (List.mem_cons_of_mem _ hx))

/-- What the loop has counted when it meets a separator after the text `a`: the
count of `a`, no word being open. -/
theorem countWordsLoop_append_sep (U : Unicode) (a : List Char) (s : Char) (b : List Char)
    (hs : isSeparator U s = true) (words : Nat) (inWord : Bool) :
    countWordsLoop U (a ++ s :: b) words inWord
      = countWordsLoop U b (countWordsLoop U a words inWord) false := by
  induction a generalizing words inWord with
  | nil =>
    rw [List.nil_append, countWordsLoop_sep U s b words inWord hs]
    cases inWord <;> simp [countWordsLoop]
  | cons r rest ih =>
    cases hr : isSeparator U r with
    | true =>
      rw [List.cons_append, countWordsLoop_sep U r _ words inWord hr,
        countWordsLoop_sep U r _ words inWord hr, ih]
    | false =>
      rw [List.cons_append, countWordsLoop_word U r _ words inWord hr,
        countWordsLoop_word U r _ words inWord hr, ih]

theorem countWordsLoop_add (U : Unicode) (l : List Char) (words : Nat) :
    countWordsLoop U l words false = words + countWordsLoop U l 0 false := by
  rw [(countWordsLoop_runs U l).1, (countWordsLoop_runs U l).1]
  omega

/-- The count of two texts with separators between them is the sum of their counts. -/
theorem countWords_append_seps_append (U : Unicode) (a b : String) (s : Char)
    (seps : List Char) (hs : isSeparator U s = true)
    (hseps : ∀ r ∈ seps, isSeparator U r = true) :
    countWords U (a ++ ⟨s :: seps⟩ ++ b) = countWords U a + countWords U b := by
  rw [countWords_eq_loop, countWords_eq_loop, countWords_eq_loop]
  simp only [String.data_append, List.append_assoc, List.cons_append]
  rw [countWordsLoop_append_sep U a.data s _ hs, countWordsLoop_seps_append U seps _ hseps,
    countWordsLoop_add]

theorem countWords_congr (U V : Unicode) (text : String)
    (h : ∀ r ∈ text.data, U.IsPunct r = V.IsPunct r) : countWords U text = countWords V text := by
  rw [countWords_eq_loop, countWords_eq_loop]
  generalize (0 : Nat) = words
  generalize false = inWord
  generalize text.data = l at h ⊢
  induction l generalizing words inWord with
  | nil => rfl
  | cons r rest ih =>
    have hr := h r (List.mem_cons_self _ _)
    have hrest := fun w i => ih w i (fun x hx => h x (List.mem_cons_of_mem _ hx))
    simp only [countWordsLoop, hr, hrest]

/-- The count of an ASCII text does not depend on the version of the tables. -/
theorem countWords_ascii (U : Unicode) (text : String) (h : ∀ r ∈ text.data, r.toNat < 128) :
    countWords U text = countWords RefUnicode text :=
  countWords_congr U RefUnicode text
    (fun r hr => by rw [U.punct_ascii r (h r hr), RefUnicode.punct_ascii r (h r hr)])

/-- Claim C24. For every string, `countWords` returns the number of maximal runs of
consecutive characters that are neither white space nor punctuation (`wordRuns`): it
is 0 for the empty string and for a string made only of separators; separators in
front of a text or behind it do not change the count, nor does a further separator
next to one; and the count is 5 for `Hello, world! How are you?` and 3 for
`  hello   world  test  `, whatever the version of the Unicode tables. -/
theorem C24_countWords_counts_word_runs (U : Unicode) :
    (∀ text : String, countWords U text = wordRuns U text)
    ∧ countWords U "" = 0
    ∧ (∀ text : String, (∀ r ∈ text.data, isSeparator U r = true) → countWords U text = 0)
    ∧ (∀ a text b : String, (∀ r ∈ a.data, isSeparator U r = true) →
        (∀ r ∈ b.data, isSeparator U r = true) →
        countWords U (a ++ text ++ b) = countWords U text)
    ∧ (∀ (a b : String) (s s1 : Char), isSeparator U s = true → isSeparator U s1 = true →
        countWords U (a ++ String.mk [s, s1] ++ b) = countWords U (a ++ String.mk [s] ++ b))
    ∧ countWords U "Hello, world! How are you?" = 5
    ∧ countWords U "  hello   world  test  " = 3 := by
  refine ⟨countWords_eq_wordRuns U, rfl, ?_, ?_, ?_, ?_, ?_⟩
  · intro text h
    rw [countWords_eq_loop]
    have h1 := countWordsLoop_append_seps U [] text.data h 0 false
    rw [List.nil_append] at h1
    rw [h1]
    rfl
  · intro a text b ha hb
    rw [countWords_eq_loop, countWords_eq_loop]
    simp only [String.data_append, List.append_assoc]
    rw [countWordsLoop_seps_append U a.data _ ha, countWordsLoop_append_seps U _ b.data hb]
  · intro a b s s1 hs hs1
    rw [countWords_eq_loop, countWords_eq_loop]
    simp only [String.data_append, List.append_assoc, List.cons_append, List.nil_append]
    rw [countWordsLoop_append_sep U a.data s _ hs, countWordsLoop_append_sep U a.data s _ hs,
      countWordsLoop_sep U s1 _ _ false hs1]
    rfl
  · rw [countWords_ascii U _ (by decide)]
    decide
  · rw [countWords_ascii U _ (by decide)]
    decide

/-! ## Lemmas on trimming, joining and lengths -/

/-- A sequence of characters with no white space at either end. -/
def Clean (l : List Char) : Prop :=
  ∀ h : l ≠ [], IsSpace (l.head h) = false ∧ IsSpace (l.getLast h) = false

/-- A paragraph as `splitIntoParagraphs` returns them: trimmed and not empty. -/
def Para (p : String) : Prop := TrimSpace p = p ∧ p ≠ ""

/-- The paragraphs of a group joined with blank lines between them. -/
def joinParagraphs (g : List String) : String := "\n\n".intercalate g

/-- The words of the paragraphs of a group, counted paragraph by paragraph. -/
def wordsOf (U : Unicode) (g : List String) : Nat := (g.map (countWords U)).sum

theorem trim_of_clean (l : List Char) (h : Clean l) :
    List.rdropWhile IsSpace (l.dropWhile IsSpace) = l := by
  have h1 : l.dropWhile IsSpace = l := by
    rw [List.dropWhile_eq_self_iff]
    intro hl
    have hne : l ≠ [] := by
      intro h0; rw [h0] at hl; exact absurd hl (by simp)
    have h2 := (h hne).1
    cases l with
    | nil => exact absurd rfl hne
    | cons c rest => simpa using h2
  rw [h1, List.rdropWhile_eq_self_iff]
  intro hl
  rw [(h hl).2]
  exact Bool.false_ne_true

theorem clean_trim (l : List Char) : Clean (List.rdropWhile IsSpace (l.dropWhile IsSpace)) := by
  intro h
  constructor
  · have hpre := List.rdropWhile_prefix IsSpace (l.dropWhile IsSpace)
    rw [hpre.head h]
    exact List.head_dropWhile_not IsSpace l _
  · have := List.rdropWhile_last_not IsSpace (l.dropWhile IsSpace) h
    simpa using this

theorem clean_append (a mid b : List Char) (ha : Clean a) (hb : Clean b) (hane : a ≠ [])
    (hbne : b ≠ []) : Clean (a ++ (mid ++ b)) := by
  intro h
  constructor
  · rw [List.head_append_of_ne_nil hane]
    exact (ha hane).1
  · have h1 : a ++ (mid ++ b) = (a ++ mid) ++ b := by simp
    have h2 : (a ++ (mid ++ b)).getLast h = b.getLast hbne := by
      simp only [h1]
      exact List.getLast_append_of_ne_nil hbne
    rw [h2]
    exact (hb hbne).2

theorem Para.clean {p : String} (h : Para p) : Clean p.data := by
  have h1 := congrArg String.data h.1
  simp only [TrimSpace] at h1
  rw [← h1]
  exact clean_trim p.data

theorem Para.data_ne {p : String} (h : Para p) : p.data ≠ [] := by
  intro h0
  apply h.2
  exact String.ext h0

theorem para_of_clean (p : String) (hc : Clean p.data) (hne : p.data ≠ []) : Para p := by
  constructor
  · apply String.ext
    simp only [TrimSpace]
    exact trim_of_clean p.data hc
  · intro h
    rw [h] at hne
    exact hne rfl

/-- A trimmed string that is not empty is a paragraph: trimming it again gives it back. -/
theorem para_TrimSpace (s : String) (h : TrimSpace s ≠ "") : Para (TrimSpace s) := by
  apply para_of_clean
  · exact clean_trim s.data
  · intro h0
    apply h
    exact String.ext h0

theorem len_pos_iff (s : String) : 0 < len s ↔ s ≠ "" := by
  obtain ⟨l⟩ := s
  cases l with
  | nil => simp [len]
  | cons c rest =>
    constructor
    · intro _ h
      have := congrArg String.data h
      simp at this
    · intro _
      have := Char.utf8Size_pos c
      simp only [len, List.map_cons, List.sum_cons]
      omega

theorem intercalate_go_snoc (acc s : String) (g : List String) (p : String) :
    String.intercalate.go acc s (g ++ [p]) = String.intercalate.go acc s g ++ s ++ p := by
  induction g generalizing acc with
  | nil => rfl
  | cons a rest ih =>
    show String.intercalate.go (acc ++ s ++ a) s (rest ++ [p]) = _
    rw [ih]
    rfl

theorem joinParagraphs_nil : joinParagraphs [] = "" := rfl

theorem joinParagraphs_single (p : String) : joinParagraphs [p] = p := rfl

theorem joinParagraphs_snoc (g : List String) (p : String) (hg : g ≠ []) :
    joinParagraphs (g ++ [p]) = joinParagraphs g ++ "\n\n" ++ p := by
  cases g with
  | nil => exact absurd rfl hg
  | cons a rest => exact intercalate_go_snoc a "\n\n" rest p

/-- The join of a group that is not empty is itself trimmed and not empty. -/
theorem para_joinParagraphs (g : List String) (hg : g ≠ []) (hp : ∀ x ∈ g, Para x) :
    Para (joinParagraphs g) := by
  induction g using List.reverseRecOn with
  | nil => exact absurd rfl hg
  | append_singleton l a ih =>
    have ha := hp a (by simp)
    by_cases hl : l = []
    · subst hl
      exact ha
    · have hjl := ih hl (fun x hx => hp x (by simp [hx]))
      rw [joinParagraphs_snoc l a hl]
      apply para_of_clean
      · simp only [String.data_append, List.append_assoc]
        exact clean_append _ _ _ hjl.clean ha.clean hjl.data_ne ha.data_ne
      · simp only [String.data_append, List.append_assoc]
        intro h0
        exact hjl.data_ne (List.append_eq_nil.mp h0).1

theorem joinParagraphs_eq_empty_iff (g : List String) (hp : ∀ x ∈ g, Para x) :
    joinParagraphs g = "" ↔ g = [] := by
  constructor
  · intro h
    by_contra hg
    exact (para_joinParagraphs g hg hp).2 h
  · intro h
    rw [h]
    rfl

theorem wordsOf_snoc (U : Unicode) (g : List String) (p : String) :
    wordsOf U (g ++ [p]) = wordsOf U g + countWords U p := by
  simp [wordsOf]

theorem isSeparator_newline (U : Unicode) : isSeparator U '\n' = true := by
  have h : IsSpace '\n' = true := by decide
  simp [isSeparator, h]

/-- The words of a chunk are the words of its paragraphs. -/
theorem countWords_joinParagraphs (U : Unicode) (g : List String) :
    countWords U (joinParagraphs g) = wordsOf U g := by
  induction g using List.reverseRecOn with
  | nil => rfl
  | append_singleton l a ih =>
    by_cases hl : l = []
    · subst hl
      simp [joinParagraphs_single, wordsOf]
    · rw [joinParagraphs_snoc l a hl, wordsOf_snoc, ← ih]
      exact countWords_append_seps_append U (joinParagraphs l) a '\n' ['\n']
        (isSeparator_newline U) (fun r hr => by
          rw [List.mem_singleton] at hr
          rw [hr]
          exact isSeparator_newline U)

/-! ## The loop of `ChunkByParagraphs` as a grouping of the paragraphs -/

/-- The paragraphs the loop has gone through, as it has grouped them: the groups that
were finalized (the latest first) and the group of the chunk under construction. -/
structure Grouping where
  closed : List (List String)
  current : List String
  deriving DecidableEq, Repr

namespace Grouping

/-- The variables of the loop for a grouping: a chunk for each finalized group, the
builder holding the join of the current group, and the words of that group. -/
def state (U : Unicode) (G : Grouping) : ChunkState :=
  ⟨G.closed.reverse.map joinParagraphs, joinParagraphs G.current, wordsOf U G.current⟩

/-- The grouping after the first `if` of the loop body. -/
def flush (G : Grouping) (p : String) : Grouping :=
  if G.current ≠ [] ∧ len (joinParagraphs G.current) + len p > 3000 then
    ⟨G.current :: G.closed, []⟩
  else G

/-- The grouping after the loop body for a paragraph. -/
def step (U : Unicode) (minWords : Int) (G : Grouping) (p : String) : Grouping :=
  if ((wordsOf U ((G.flush p).current ++ [p]) : Nat) : Int) ≥ minWords then
    ⟨((G.flush p).current ++ [p]) :: (G.flush p).closed, []⟩
  else ⟨(G.flush p).closed, (G.flush p).current ++ [p]⟩

/-- The groups of a grouping in the order of the text. -/
def groups (G : Grouping) : List (List String) :=
  G.closed.reverse ++ (if G.current = [] then [] else [G.current])

/-- The paragraphs of a grouping are paragraphs: trimmed and not empty. -/
def Sound (G : Grouping) : Prop :=
  (∀ g ∈ G.closed, g ≠ [] ∧ ∀ x ∈ g, Para x) ∧ ∀ x ∈ G.current, Para x

end Grouping

theorem flush_sound (G : Grouping) (p : String) (hG : G.Sound) : (G.flush p).Sound := by
  unfold Grouping.flush
  split
  · rename_i h
    refine ⟨?_, fun x hx => absurd hx (List.not_mem_nil x)⟩
    intro g hg
    rcases List.mem_cons.mp hg with h1 | h1
    · rw [h1]
      exact ⟨h.1, hG.2⟩
    · exact hG.1 g h1
  · exact hG

theorem step_sound (U : Unicode) (minWords : Int) (G : Grouping) (p : String) (hG : G.Sound)
    (hp : Para p) : (G.step U minWords p).Sound := by
  have hf := flush_sound G p hG
  have hcur : ∀ x ∈ (G.flush p).current ++ [p], Para x := by
    intro x hx
    rcases List.mem_append.mp hx with h1 | h1
    · exact hf.2 x h1
    · rw [List.mem_singleton.mp h1]
      exact hp
  unfold Grouping.step
  split
  · refine ⟨?_, fun x hx => absurd hx (List.not_mem_nil x)⟩
    intro g hg
    rcases List.mem_cons.mp hg with h1 | h1
    · rw [h1]
      exact ⟨by simp, hcur⟩
    · exact hf.1 g h1
  · exact ⟨hf.1, hcur⟩

theorem flush_state (U : Unicode) (G : Grouping) (p : String) (hG : G.Sound) :
    flushIfLong (G.state U) p = (G.flush p).state U := by
  unfold flushIfLong Grouping.flush
  have hpos : 0 < len (G.state U).currentChunk ↔ G.current ≠ [] := by
    rw [len_pos_iff]
    exact not_congr (joinParagraphs_eq_empty_iff G.current hG.2)
  by_cases hc : G.current ≠ [] ∧ len (joinParagraphs G.current) + len p > 3000
  · have hc1 : len (G.state U).currentChunk > 0
        ∧ len (G.state U).currentChunk + len p > 3000 := ⟨hpos.mpr hc.1, hc.2⟩
    rw [if_pos hc1, if_pos hc]
    have htrim := (para_joinParagraphs G.current hc.1 hG.2).1
    simp only [Grouping.state, htrim, List.reverse_cons, List.map_append, List.map_cons,
      List.map_nil]
    rfl
  · have hc1 : ¬ (len (G.state U).currentChunk > 0
        ∧ len (G.state U).currentChunk + len p > 3000) := by
      intro h
      exact hc ⟨hpos.mp h.1, h.2⟩
    rw [if_neg hc1, if_neg hc]

theorem write_state (g : List String) (p : String) (hg : ∀ x ∈ g, Para x) :
    writeParagraph (joinParagraphs g) p = joinParagraphs (g ++ [p]) := by
  unfold writeParagraph
  by_cases hne : g = []
  · subst hne
    have h0 : ¬ len (joinParagraphs []) > 0 := by simp [joinParagraphs_nil, len]
    rw [if_neg h0]
    simp [joinParagraphs_nil, joinParagraphs_single]
  · have hpos : len (joinParagraphs g) > 0 := by
      rw [gt_iff_lt, len_pos_iff]
      exact (para_joinParagraphs g hne hg).2
    rw [if_pos hpos, joinParagraphs_snoc g p hne]

/-- The loop body on the variables of a grouping gives the variables of the grouping
after the step. -/
theorem step_state (U : Unicode) (minWords : Int) (G : Grouping) (p : String) (hG : G.Sound)
    (hp : Para p) : chunkStep U minWords (G.state U) p = (G.step U minWords p).state U := by
  have hf := flush_sound G p hG
  have hcur : ∀ x ∈ (G.flush p).current ++ [p], Para x := by
    intro x hx
    rcases List.mem_append.mp hx with h1 | h1
    · exact hf.2 x h1
    · rw [List.mem_singleton.mp h1]
      exact hp
  unfold chunkStep Grouping.step
  simp only [hp.1, hp.2, if_false]
  rw [flush_state U G p hG]
  have hw : writeParagraph ((G.flush p).state U).currentChunk p
      = joinParagraphs ((G.flush p).current ++ [p]) := write_state _ p hf.2
  have hcount : ((G.flush p).state U).currentWordCount + countWords U p
      = wordsOf U ((G.flush p).current ++ [p]) := (wordsOf_snoc U _ p).symm
  rw [hw, hcount]
  have htrim := (para_joinParagraphs ((G.flush p).current ++ [p]) (by simp) hcur).1
  split
  · simp only [Grouping.state, htrim, List.reverse_cons, List.map_append, List.map_cons,
      List.map_nil]
    rfl
  · rfl

theorem foldl_step_sound (U : Unicode) (minWords : Int) (ps : List String) (G : Grouping)
    (hG : G.Sound) (hps : ∀ p ∈ ps, Para p) : (ps.foldl (Grouping.step U minWords) G).Sound := by
  induction ps generalizing G with
  | nil => exact hG
  | cons p rest ih =>
    exact ih _ (step_sound U minWords G p hG (hps p (List.mem_cons_self _ _)))
      (fun x hx => hps x (List.mem_cons_of_mem _ hx))

theorem foldl_step_state (U : Unicode) (minWords : Int) (ps : List String) (G : Grouping)
    (hG : G.Sound) (hps : ∀ p ∈ ps, Para p) :
    ps.foldl (chunkStep U minWords) (G.state U)
      = (ps.foldl (Grouping.step U minWords) G).state U := by
  induction ps generalizing G with
  | nil => rfl
  | cons p rest ih =>
    have hp := hps p (List.mem_cons_self _ _)
    rw [List.foldl_cons, List.foldl_cons, step_state U minWords G p hG hp]
    exact ih _ (step_sound U minWords G p hG hp) (fun x hx => hps x (List.mem_cons_of_mem _ hx))

/-- The paragraphs `splitIntoParagraphs` returns are trimmed and not empty. -/
theorem splitIntoParagraphs_para (text : String) : ∀ p ∈ splitIntoParagraphs text, Para p := by
  have hinner : ∀ (sps result : List String), (∀ p ∈ result, Para p) →
      ∀ p ∈ appendTrimmed result sps, Para p := by
    intro sps
    induction sps with
    | nil => intro result h; exact h
    | cons sp rest ih =>
      intro result h
      unfold appendTrimmed
      rw [List.foldl_cons]
      apply ih
      split
      · rename_i hne
        intro p hp
        rcases List.mem_append.mp hp with h1 | h1
        · exact h p h1
        · rw [List.mem_singleton.mp h1]
          exact para_TrimSpace sp hne
      · exact h
  have houter : ∀ (pars result : List String), (∀ p ∈ result, Para p) →
      ∀ p ∈ pars.foldl (fun result p => appendTrimmed result (Split p "\n\n\n")) result,
        Para p := by
    intro pars
    induction pars with
    | nil => intro result h; exact h
    | cons q rest ih =>
      intro result h
      rw [List.foldl_cons]
      exact ih _ (hinner _ _ h)
  exact houter _ [] (fun p hp => absurd hp (List.not_mem_nil p))

/-- The minimum `ChunkByParagraphs` works with: 100 when the argument is not positive. -/
def effectiveMinWords (minWords : Int) : Int := if minWords ≤ 0 then 100 else minWords

/-- The chunks are the joins of the groups the loop makes of the paragraphs. -/
theorem ChunkByParagraphs_groups (U : Unicode) (text : String) (minWords : Int) :
    ChunkByParagraphs U text minWords
      = (((splitIntoParagraphs text).foldl (Grouping.step U (effectiveMinWords minWords))
          ⟨[], []⟩).groups).map joinParagraphs := by
  have hsound0 : (⟨[], []⟩ : Grouping).Sound :=
    ⟨fun g hg => absurd hg (List.not_mem_nil g), fun x hx => absurd hx (List.not_mem_nil x)⟩
  have hps := splitIntoParagraphs_para text
  have hstate := foldl_step_state U (effectiveMinWords minWords) (splitIntoParagraphs text)
    ⟨[], []⟩ hsound0 hps
  have hsound := foldl_step_sound U (effectiveMinWords minWords) (splitIntoParagraphs text)
    ⟨[], []⟩ hsound0 hps
  have h0 : (⟨[], []⟩ : Grouping).state U = ⟨[], "", 0⟩ := rfl
  rw [h0] at hstate
  unfold ChunkByParagraphs
  simp only
  unfold effectiveMinWords at hstate hsound ⊢
  rw [hstate]
  generalize (splitIntoParagraphs text).foldl (Grouping.step U _) ⟨[], []⟩ = G at hsound ⊢
  unfold Grouping.groups
  by_cases hc : G.current = []
  · have h1 : ¬ len (G.state U).currentChunk > 0 := by
      simp [Grouping.state, hc, joinParagraphs_nil, len]
    rw [if_neg h1, if_pos hc]
    simp [Grouping.state]
  · have h1 : len (G.state U).currentChunk > 0 := by
      rw [gt_iff_lt, len_pos_iff]
      exact (para_joinParagraphs G.current hc hsound.2).2
    rw [if_pos h1, if_neg hc]
    have htrim := (para_joinParagraphs G.current hc hsound.2).1
    simp [Grouping.state, htrim]

/-! ## Claim C27: the chunks partition the paragraphs -/

theorem groups_flatten (G : Grouping) :
    G.groups.flatten = G.closed.reverse.flatten ++ G.current := by
  unfold Grouping.groups
  split
  · rename_i h
    simp [h]
  · simp

theorem flush_flatten (G : Grouping) (p : String) :
    (G.flush p).closed.reverse.flatten ++ (G.flush p).current
      = G.closed.reverse.flatten ++ G.current := by
  unfold Grouping.flush
  split <;> simp

theorem step_flatten (U : Unicode) (minWords : Int) (G : Grouping) (p : String) :
    (G.step U minWords p).groups.flatten = G.groups.flatten ++ [p] := by
  rw [groups_flatten, groups_flatten, ← flush_flatten G p]
  unfold Grouping.step
  split <;> simp

theorem foldl_step_flatten (U : Unicode) (minWords : Int) (ps : List String) (G : Grouping) :
    (ps.foldl (Grouping.step U minWords) G).groups.flatten = G.groups.flatten ++ ps := by
  induction ps generalizing G with
  | nil => simp
  | cons p rest ih =>
    rw [List.foldl_cons, ih, step_flatten]
    simp

theorem effectiveMinWords_pos (minWords : Int) (h : 0 < minWords) :
    effectiveMinWords minWords = minWords := by
  unfold effectiveMinWords
  rw [if_neg (by omega)]

/-- Why the loop finalizes a group before it goes on to the group `next`: the group has
`minWords` words, or the first paragraph of `next` would have taken its chunk beyond
3000 bytes. -/
def closedWell (U : Unicode) (minWords : Int) (g next : List String) : Prop :=
  minWords ≤ (wordsOf U g : Int)
    ∨ ∃ p, next.head? = some p ∧ 3000 < len (joinParagraphs g) + len p

theorem closedWell_snoc (U : Unicode) (minWords : Int) (g next : List String) (p : String)
    (h : closedWell U minWords g next) : closedWell U minWords g (next ++ [p]) := by
  rcases h with h | ⟨q, hq, hlen⟩
  · exact Or.inl h
  · right
    refine ⟨q, ?_, hlen⟩
    cases next with
    | nil => simp at hq
    | cons a rest => simpa using hq

theorem chain_snoc_head (U : Unicode) (minWords : Int) (cur : List String)
    (closed : List (List String)) (p : String)
    (h : List.Chain' (flip (closedWell U minWords)) (cur :: closed)) :
    List.Chain' (flip (closedWell U minWords)) ((cur ++ [p]) :: closed) := by
  rw [List.chain'_cons'] at h ⊢
  exact ⟨fun y hy => closedWell_snoc U minWords y cur p (h.1 y hy), h.2⟩

/-- The groups the loop has finalized stay finalized for one of the two reasons, the
latest with respect to the group under construction. -/
theorem step_chain (U : Unicode) (minWords : Int) (G : Grouping) (p : String)
    (h : List.Chain' (flip (closedWell U minWords)) (G.current :: G.closed)) :
    List.Chain' (flip (closedWell U minWords))
      ((G.step U minWords p).current :: (G.step U minWords p).closed) := by
  by_cases hc : G.current ≠ [] ∧ len (joinParagraphs G.current) + len p > 3000
  · have hf : G.flush p = ⟨G.current :: G.closed, []⟩ := by
      unfold Grouping.flush
      rw [if_pos hc]
    have hover : flip (closedWell U minWords) [p] G.current :=
      Or.inr ⟨p, rfl, hc.2⟩
    unfold Grouping.step
    rw [hf]
    simp only [List.nil_append]
    split
    · rename_i hw
      simp only
      rw [List.chain'_cons, List.chain'_cons]
      exact ⟨Or.inl hw, hover, h⟩
    · simp only
      rw [List.chain'_cons]
      exact ⟨hover, h⟩
  · have hf : G.flush p = G := by
      unfold Grouping.flush
      rw [if_neg hc]
    unfold Grouping.step
    rw [hf]
    split
    · rename_i hw
      simp only
      rw [List.chain'_cons]
      exact ⟨Or.inl hw, chain_snoc_head U minWords G.current G.closed p h⟩
    · exact chain_snoc_head U minWords G.current G.closed p h

theorem foldl_step_chain (U : Unicode) (minWords : Int) (ps : List String) (G : Grouping)
    (h : List.Chain' (flip (closedWell U minWords)) (G.current :: G.closed)) :
    List.Chain' (flip (closedWell U minWords))
      ((ps.foldl (Grouping.step U minWords) G).current
        :: (ps.foldl (Grouping.step U minWords) G).closed) := by
  induction ps generalizing G with
  | nil => exact h
  | cons p rest ih => exact ih _ (step_chain U minWords G p h)

theorem groups_chain (U : Unicode) (minWords : Int) (G : Grouping)
    (h : List.Chain' (flip (closedWell U minWords)) (G.current :: G.closed)) :
    List.Chain' (closedWell U minWords) G.groups := by
  unfold Grouping.groups
  split
  · rw [List.append_nil, List.chain'_reverse]
    exact h.tail
  · have h1 : G.closed.reverse ++ [G.current] = (G.current :: G.closed).reverse := by simp
    rw [h1, List.chain'_reverse]
    exact h

theorem chain_getElem (R : List String → List String → Prop) (l : List (List String))
    (h : List.Chain' R l) (i : Nat) (a b : List String) (ha : l[i]? = some a)
    (hb : l[i + 1]? = some b) : R a b := by
  induction l generalizing i with
  | nil => simp at ha
  | cons x t ih =>
    cases i with
    | zero =>
      cases t with
      | nil => simp at hb
      | cons y t1 =>
        simp only [List.getElem?_cons_zero, Option.some.injEq, zero_add,
          List.getElem?_cons_succ] at ha hb
        rw [← ha, ← hb]
        exact (List.chain'_cons.mp h).1
    | succ j =>
      simp only [List.getElem?_cons_succ] at ha hb
      exact ih (List.chain'_cons'.mp h).2 j ha hb

/-- Claim C28 as stated fails for the text of the test `Single short paragraph`: with
`minWords` 100 the chunk returned is the paragraph, which has 11 words. -/
theorem C28_counterexample :
    ChunkByParagraphs RefUnicode "This is a short paragraph with only ten words in it." 100
      = ["This is a short paragraph with only ten words in it."]
    ∧ countWords RefUnicode "This is a short paragraph with only ten words in it." = 11
    ∧ ¬ ((100 : Int) ≤ (11 : Nat)) := by
  decide

/-- Claim C28, amended. For every text and every positive `minWords`, the chunks
`ChunkByParagraphs` returns are the joins of consecutive groups of the paragraphs, and
every chunk but the last has at least `minWords` words (as `countWords` counts them) or
was finalized because the first paragraph of the next chunk would have taken it beyond
3000 bytes; the last chunk is what remains and may have any number of words. -/
theorem C28_chunks_reach_minimum_unless_cut_or_last (U : Unicode) (text : String)
    (minWords : Int) (hpos : 0 < minWords) :
    ∃ groups : List (List String),
      groups.flatten = splitIntoParagraphs text
      ∧ ChunkByParagraphs U text minWords = groups.map joinParagraphs
      ∧ ∀ (i : Nat) (g next : List String), groups[i]? = some g → groups[i + 1]? = some next →
          minWords ≤ (countWords U (joinParagraphs g) : Int)
          ∨ ∃ p, next.head? = some p ∧ 3000 < len (joinParagraphs g) + len p := by
  have hchain0 : List.Chain' (flip (closedWell U minWords))
      ((⟨[], []⟩ : Grouping).current :: (⟨[], []⟩ : Grouping).closed) := List.chain'_singleton _
  have hchain := groups_chain U minWords _
    (foldl_step_chain U minWords (splitIntoParagraphs text) ⟨[], []⟩ hchain0)
  have hgroups := ChunkByParagraphs_groups U text minWords
  rw [effectiveMinWords_pos minWords hpos] at hgroups
  refine ⟨_, ?_, hgroups, ?_⟩
  · rw [foldl_step_flatten]
    rfl
  · intro i g next hg hnext
    have h := chain_getElem _ _ hchain i g next hg hnext
    unfold closedWell at h
    rw [countWords_joinParagraphs]
    exact h

/-- The amended claim C28 applied to a text of three paragraphs and `minWords` 4: the
first two paragraphs make a chunk of five words and the last paragraph is the chunk
that remains. -/
theorem C28_chunks_reach_minimum_unless_cut_or_last_witness :
    (0 : Int) < 4
    ∧ ChunkByParagraphs RefUnicode "a b\n\nc d e\n\nf" 4 = ["a b\n\nc d e", "f"]
    ∧ ∃ groups : List (List String),
        groups.flatten = splitIntoParagraphs "a b\n\nc d e\n\nf"
        ∧ ChunkByParagraphs RefUnicode "a b\n\nc d e\n\nf" 4 = groups.map joinParagraphs
        ∧ ∀ (i : Nat) (g next : List String), groups[i]? = some g →
            groups[i + 1]? = some next →
            (4 : Int) ≤ (countWords RefUnicode (joinParagraphs g) : Int)
            ∨ ∃ p, next.head? = some p ∧ 3000 < len (joinParagraphs g) + len p :=
  ⟨by decide, by decide,
   C28_chunks_reach_minimum_unless_cut_or_last RefUnicode "a b\n\nc d e\n\nf" 4 (by decide)⟩

end Zettel
